import Mathlib

/-!
# A shallow embedding of the `myheap` allocators (`explicit.c`, `implicit.c`)

Memory is a flat byte store indexed by address; it extends beyond the managed region, so
that loads and stores the C code performs outside `[segment_start, segment_start +
segment_size)` are visible as reads and writes of those addresses.  Machine words are 64
bits wide and little endian; `size_t`, `unsigned long` and pointer arithmetic are taken
modulo `2 ^ 64` (an 8-byte access touches the eight addresses from its own address upwards).
The null pointer is address `0`.  The counter `num_header` is a C `int` and is kept as an
unbounded integer.  The bookkeeping statics of each translation unit form the fields of a
state record that every entry point receives and returns.  Loops that the C source leaves
unbounded (`while (true)`) carry a fuel argument and answer `none` when the fuel is spent.
`printf` and `breakpoint` calls have no effect on the state and are omitted.

The source functions are embedded first (`Explicit` for `explicit.c`, `Implicit` for
`implicit.c`), next to the vocabulary of the data model (true size, in-use flag, block
walker, tiling, free-list links, well-formedness) in which the properties are stated.
-/

namespace MyHeap

/-- Number of values of a 64-bit machine word, `2 ^ 64`. -/
def WORD : Nat := 18446744073709551616

/-- The `#define HEADER_SIZE 8` of both source files. -/
def HEADER_SIZE : Nat := 8

/-- Modelled from the spec: `ALIGNMENT` is declared in `allocator.h`, which is not among the
sources; the spec fixes the payload alignment `A` at 8. -/
def ALIGNMENT : Nat := 8

/-- The value of `sizeof(listnode)`: two 8-byte pointers. -/
def SIZEOF_LISTNODE : Nat := 16

/-- Byte-addressed memory: the byte stored at each address. -/
abbrev Mem := Nat → Nat

/-- Reduction of an arithmetic result to a 64-bit word. -/
def wrap (x : Nat) : Nat := x % WORD

/-- Word subtraction `a - b` on 64-bit unsigned values. -/
def sub64 (a b : Nat) : Nat := (a % WORD + (WORD - b % WORD)) % WORD

/-- Little-endian read of `k` bytes starting at address `a`. -/
def loadN (m : Mem) (a : Nat) : Nat → Nat
  | 0 => 0
  | k + 1 => m a % 256 + 256 * loadN m (a + 1) k

/-- Read of the 8-byte word at address `a` (`*(unsigned long *)a`). -/
def load64 (m : Mem) (a : Nat) : Nat := loadN m a 8

/-- Write of the 8-byte word `v` at address `a` (`*(unsigned long *)a = v`). -/
def store64 (m : Mem) (a v : Nat) : Mem :=
  fun x => if a ≤ x ∧ x < a + 8 then (v / 256 ^ (x - a)) % 256 else m x

/-- The library call `memcpy(dst, src, n)`: byte `i` of the destination receives byte `i`
of the source as it was before the call. -/
def memcpy (m : Mem) (dst src n : Nat) : Mem :=
  fun x => if dst ≤ x ∧ x < dst + n then m (wrap (src + (x - dst))) else m x

/-- Source function `addpad`: `(size + mult - 1) & ~(mult - 1)` on 64-bit words. -/
def addpad (size mult : Nat) : Nat :=
  Nat.land (sub64 (size + mult) 1) (WORD - 1 - sub64 mult 1)

/-- Field `prev` of the `listnode` at address `node`. -/
def node_prev (m : Mem) (node : Nat) : Nat := load64 m node

/-- Field `nxt` of the `listnode` at address `node`. -/
def node_nxt (m : Mem) (node : Nat) : Nat := load64 m (wrap (node + 8))

/-- Assignment to field `prev` of the `listnode` at address `node`. -/
def set_prev (m : Mem) (node v : Nat) : Mem := store64 m node v

/-- Assignment to field `nxt` of the `listnode` at address `node`. -/
def set_nxt (m : Mem) (node v : Nat) : Mem := store64 m (wrap (node + 8)) v

/-- The step `cur = (header *)temp` shared by the walking loops of `validate_heap`,
`dump_heap` and the implicit `mymalloc`: the address of the header after the one at `cur`. -/
def next_header (m : Mem) (cur : Nat) : Nat :=
  if Nat.land (load64 m cur) 1 ≠ 0 then wrap (sub64 (cur + HEADER_SIZE) 1 + load64 m cur)
  else wrap (cur + HEADER_SIZE + load64 m cur)

/-- Decoding of a header word: the true payload size, the word with bit 0 cleared. -/
def true_size (h : Nat) : Nat := h - h % 2

/-- Decoding of a header word: the in-use flag, bit 0. -/
def is_used (h : Nat) : Bool := h % 2 = 1

/-- The block walker of the data model: the addresses of `n` headers from `h`, each next
one lying `HEADER_SIZE + true_size` bytes after the previous one. -/
def walk (m : Mem) : Nat → Nat → List Nat
  | 0, _ => []
  | n + 1, h => h :: walk m n (h + HEADER_SIZE + true_size (load64 m h))

/-- The tiling invariant over `n` headers from `base`: every walked block lies inside
`[base, base + capacity)` and the spans `HEADER_SIZE + true_size` add up to `capacity`. -/
def tiled (m : Mem) (base capacity n : Nat) : Bool :=
  (walk m n base).all (fun h =>
      decide (base ≤ h ∧ h + HEADER_SIZE + true_size (load64 m h) ≤ base + capacity))
    && decide (((walk m n base).map (fun h => HEADER_SIZE + true_size (load64 m h))).sum = capacity)

/-- The free blocks found by the block walker: addresses of the walked headers whose in-use
flag is 0. -/
def free_blocks (m : Mem) (base n : Nat) : List Nat :=
  (walk m n base).filter (fun h => !is_used (load64 m h))

/-- A caller storing the bytes `bs` at payload address `p`. -/
def write_bytes (m : Mem) (p : Nat) (bs : List Nat) : Mem :=
  fun x => if p ≤ x ∧ x < p + bs.length then bs.getD (x - p) 0 % 256 else m x

/-- The bytes a caller reads back from the `n` addresses starting at `p`. -/
def read_bytes (m : Mem) (p n : Nat) : List Nat :=
  (List.range n).map (fun i => m (p + i) % 256)

/-- The request bound `MAX_REQUEST_SIZE` used in the worked scenarios. -/
def scenarioMax : Nat := 2 ^ 30

namespace Explicit

/-- The statics of `explicit.c` together with the byte memory. -/
structure Heap where
  mem : Mem
  segment_size : Nat
  segment_start : Nat
  start : Nat
  nbytes_inuse : Nat
  num_header : Int
  nused : Nat

/-- Source function `myinit` of `explicit.c`. -/
def myinit (s : Heap) (heap_start heap_size : Nat) : Bool × Heap :=
  if heap_size < HEADER_SIZE + SIZEOF_LISTNODE then (false, s)
  else
    let first := heap_start
    let m1 := store64 s.mem first (sub64 heap_size HEADER_SIZE)
    let start := wrap (heap_start + HEADER_SIZE)
    let m2 := set_prev m1 start 0
    let m3 := set_nxt m2 start 0
    (true,
      { mem := m3, segment_size := heap_size, segment_start := heap_start, start := start,
        nbytes_inuse := 0, num_header := 1, nused := HEADER_SIZE + SIZEOF_LISTNODE })

/-- Source function `add_to_beg`. -/
def add_to_beg (s : Heap) (hdr : Nat) : Heap :=
  let newfree := wrap (hdr + HEADER_SIZE)
  if s.start = 0 then
    let m1 := set_prev s.mem newfree 0
    let m2 := set_nxt m1 newfree 0
    { s with start := newfree, mem := m2 }
  else
    let m1 := set_nxt s.mem newfree (sub64 s.start HEADER_SIZE)
    let m2 := set_prev m1 newfree 0
    let m3 := set_prev m2 s.start hdr
    { s with mem := m3, start := newfree }

/-- Source function `remove_node`. -/
def remove_node (s : Heap) (ithnode : Nat) : Heap :=
  if node_prev s.mem ithnode = 0 ∧ node_nxt s.mem ithnode = 0 then
    { s with start := 0 }
  else if node_prev s.mem ithnode = 0 then
    let start := wrap (node_nxt s.mem ithnode + HEADER_SIZE)
    { s with start := start, mem := set_prev s.mem start 0 }
  else if node_nxt s.mem ithnode = 0 then
    let second_last := wrap (node_prev s.mem ithnode + HEADER_SIZE)
    { s with mem := set_nxt s.mem second_last 0 }
  else
    let left := wrap (node_prev s.mem ithnode + HEADER_SIZE)
    let right := wrap (node_nxt s.mem ithnode + HEADER_SIZE)
    let m1 := set_nxt s.mem left (node_nxt s.mem ithnode)
    let m2 := set_prev m1 right (node_prev m1 ithnode)
    { s with mem := m2 }

/-- The body of the `while (true)` loop of `mymalloc` in `explicit.c`, started at list node
`ithnode`; the result is the returned pointer and the state, or `none` without fuel. -/
def mymalloc_loop (needed : Nat) : Nat → Heap → Nat → Option (Nat × Heap)
  | 0, _, _ => none
  | fuel + 1, s, ithnode =>
    let curhdr := sub64 ithnode HEADER_SIZE
    let prev_size := load64 s.mem curhdr
    if needed ≤ load64 s.mem curhdr then
      let check_last := sub64 ithnode HEADER_SIZE
      let s1 :=
        if wrap (check_last + load64 s.mem check_last + HEADER_SIZE)
            = wrap (s.segment_start + s.segment_size) then
          let m1 :=
            if needed ≤ SIZEOF_LISTNODE then store64 s.mem curhdr SIZEOF_LISTNODE
            else store64 s.mem curhdr needed
          let nused1 := wrap (s.nused + load64 m1 curhdr)
          let inuse1 := wrap (s.nbytes_inuse + load64 m1 curhdr)
          let nxthdr := wrap (curhdr + load64 m1 curhdr + HEADER_SIZE)
          let new_hdr := nxthdr
          let m2 := store64 m1 new_hdr (sub64 (sub64 prev_size HEADER_SIZE) (load64 m1 curhdr))
          let sa : Heap :=
            { s with mem := m2, nused := wrap (nused1 + HEADER_SIZE), nbytes_inuse := inuse1,
                     num_header := s.num_header + 1 }
          add_to_beg (remove_node sa ithnode) new_hdr
        else
          let sa : Heap :=
            { s with nbytes_inuse := wrap (s.nbytes_inuse + load64 s.mem curhdr) }
          remove_node sa ithnode
      some (ithnode, { s1 with mem := store64 s1.mem curhdr (Nat.lor (load64 s1.mem curhdr) 1) })
    else if node_nxt s.mem ithnode = 0 then some (0, s)
    else mymalloc_loop needed fuel s (wrap (node_nxt s.mem ithnode + HEADER_SIZE))

/-- Source function `mymalloc` of `explicit.c`; `MAX_REQUEST_SIZE` is the constant of that
name from `allocator.h`, taken as a parameter. -/
def mymalloc (MAX_REQUEST_SIZE fuel : Nat) (s : Heap) (requested_size : Nat) :
    Option (Nat × Heap) :=
  if requested_size ≤ 0 ∨ requested_size > MAX_REQUEST_SIZE then some (0, s)
  else
    let needed := addpad requested_size ALIGNMENT
    mymalloc_loop needed fuel s s.start

/-- Source function `coalesce`. -/
def coalesce (s : Heap) (hdr neighbor : Nat) : Heap :=
  let neinode := wrap (neighbor + HEADER_SIZE)
  if (node_nxt s.mem neinode = 0 ∧ node_prev s.mem neinode = 0)
      ∨ node_prev s.mem neinode = hdr ∨ node_nxt s.mem neinode = hdr then
    let m1 :=
      if node_nxt s.mem neinode ≠ 0 then
        let ptr_temp := node_nxt s.mem neinode
        let node_temp := wrap (ptr_temp + HEADER_SIZE)
        set_prev s.mem node_temp hdr
      else s.mem
    let hdrnode := wrap (hdr + HEADER_SIZE)
    if neinode = s.start then
      let start_temp := s.start
      let m2 := set_prev m1 hdrnode 0
      let m3 := set_nxt m2 hdrnode (node_nxt m2 start_temp)
      { s with start := hdrnode, mem := m3 }
    else
      let ptr_before := node_prev m1 neinode
      let node_before := wrap (ptr_before + HEADER_SIZE)
      if node_before = hdrnode then
        { s with mem := set_nxt m1 hdrnode (node_nxt m1 neinode) }
      else
        let m2 := set_prev m1 hdrnode (node_prev m1 neinode)
        let m3 := set_nxt m2 hdrnode (node_nxt m2 neinode)
        let m4 := set_nxt m3 node_before (sub64 hdrnode HEADER_SIZE)
        { s with mem := m4 }
  else remove_node s neinode

/-- Source function `myfree` of `explicit.c`. -/
def myfree (s : Heap) (ptr : Nat) : Heap :=
  if ptr = 0 then s
  else
    let hdr := sub64 ptr HEADER_SIZE
    let m1 := store64 s.mem hdr (Nat.xor (load64 s.mem hdr) 1)
    let inuse := sub64 s.nbytes_inuse (load64 m1 hdr)
    let neighbor := wrap (hdr + load64 m1 hdr + HEADER_SIZE)
    if Nat.land (load64 m1 neighbor) 1 = 0 then
      let m2 := store64 m1 hdr (wrap (load64 m1 hdr + (HEADER_SIZE + load64 m1 neighbor)))
      let sa : Heap := { s with mem := m2, nbytes_inuse := inuse, num_header := s.num_header - 1 }
      coalesce (add_to_beg sa hdr) hdr neighbor
    else
      add_to_beg { s with mem := m1, nbytes_inuse := inuse } hdr

/-- Source function `save_data`. -/
def save_data (m : Mem) (old_ptr pay1 pay2 : Nat) : Mem :=
  let m1 := store64 m old_ptr pay1
  let temp := wrap (old_ptr + HEADER_SIZE)
  store64 m1 temp pay2

/-- The `while (true)` loop of `myrealloc` in `explicit.c` that absorbs free right
neighbours; the result is the state and the flag `coalesced`, or `none` without fuel. -/
def realloc_loop (curhdr : Nat) : Nat → Heap → Nat → Bool → Nat → Option (Heap × Bool)
  | 0, _, _, _, _ => none
  | fuel + 1, s, neighbor, coalesced, numit =>
    if neighbor = wrap (s.segment_start + s.segment_size) then some (s, coalesced)
    else if Nat.land (load64 s.mem neighbor) 1 = 0 then
      let m1 := store64 s.mem curhdr
        (wrap (load64 s.mem curhdr + (HEADER_SIZE + load64 s.mem neighbor)))
      let s1 : Heap := { s with mem := m1, num_header := s.num_header - 1 }
      let s2 := if numit = 0 then add_to_beg s1 curhdr else s1
      let s3 := coalesce s2 curhdr neighbor
      let neighbor1 := wrap (neighbor + load64 s3.mem neighbor + HEADER_SIZE)
      realloc_loop curhdr fuel s3 neighbor1 true (numit + 1)
    else some (s, coalesced)

/-- Source function `myrealloc` of `explicit.c`. -/
def myrealloc (MAX_REQUEST_SIZE fuel : Nat) (s : Heap) (old_ptr new_size : Nat) :
    Option (Nat × Heap) :=
  if old_ptr = 0 then mymalloc MAX_REQUEST_SIZE fuel s new_size
  else if new_size = 0 then some (0, myfree s old_ptr)
  else
    let curhdr := sub64 old_ptr HEADER_SIZE
    if sub64 (load64 s.mem curhdr) 1 ≥ new_size then some (old_ptr, s)
    else
      let m1 := store64 s.mem curhdr (Nat.xor (load64 s.mem curhdr) 1)
      let neighbor := wrap (curhdr + load64 m1 curhdr + HEADER_SIZE)
      let pay1 := load64 m1 old_ptr
      let pay2 := load64 m1 (wrap (old_ptr + HEADER_SIZE))
      match realloc_loop curhdr fuel { s with mem := m1 } neighbor false 0 with
      | none => none
      | some (s2, coalesced) =>
        let s3 := if !coalesced then add_to_beg s2 curhdr else s2
        let s4 : Heap := { s3 with mem := store64 s3.mem curhdr (Nat.xor (load64 s3.mem curhdr) 1) }
        if sub64 (load64 s4.mem curhdr) 1 < new_size then
          match mymalloc MAX_REQUEST_SIZE fuel s4 new_size with
          | none => none
          | some (moved_ptr, s5) =>
            if moved_ptr = 0 then some (0, s5)
            else
              let old_prev := load64 s5.mem old_ptr
              let old_nxt := load64 s5.mem (wrap (old_ptr + HEADER_SIZE))
              let m6 := save_data s5.mem old_ptr pay1 pay2
              let m7 := memcpy m6 moved_ptr old_ptr new_size
              let m8 := store64 m7 old_ptr old_prev
              let old_ptr1 := wrap (old_ptr + HEADER_SIZE)
              let m9 := store64 m8 old_ptr1 old_nxt
              let m10 := store64 m9 curhdr (Nat.xor (load64 m9 curhdr) 1)
              some (moved_ptr, { s5 with mem := m10 })
        else
          let align_size := addpad new_size ALIGNMENT
          let prev_size := sub64 (load64 s4.mem curhdr) 1
          if sub64 prev_size align_size ≤ SIZEOF_LISTNODE then
            let old_node := wrap (curhdr + HEADER_SIZE)
            let s5 := remove_node s4 old_node
            let m6 := store64 s5.mem old_ptr pay1
            let temp := wrap (old_ptr + HEADER_SIZE)
            let m7 := store64 m6 temp pay2
            some (old_ptr, { s5 with mem := m7 })
          else
            let m5 := store64 s4.mem curhdr align_size
            let nxthdr := wrap (curhdr + load64 m5 curhdr + HEADER_SIZE)
            let new_hdr := nxthdr
            let m6 := store64 m5 new_hdr (sub64 (sub64 prev_size HEADER_SIZE) (load64 m5 curhdr))
            let m7 := store64 m6 curhdr (Nat.xor (load64 m6 curhdr) 1)
            let s7 : Heap :=
              { s4 with mem := m7, num_header := s4.num_header + 1,
                        nused := wrap (s4.nused + HEADER_SIZE) }
            let oldnode := wrap (curhdr + HEADER_SIZE)
            let s8 := add_to_beg (remove_node s7 oldnode) new_hdr
            let m9 := store64 s8.mem old_ptr pay1
            let temp := wrap (old_ptr + HEADER_SIZE)
            let m10 := store64 m9 temp pay2
            some (old_ptr, { s8 with mem := m10 })

/-- First `for` loop of the explicit `validate_heap`: `n` iterations from header `cur`,
returning the final `num_free_hdr`. -/
def count_free (m : Mem) : Nat → Nat → Int → Int
  | 0, _, num_free_hdr => num_free_hdr
  | n + 1, cur, num_free_hdr =>
    let num_free_hdr1 := if Nat.land (load64 m cur) 1 = 0 then num_free_hdr + 1 else num_free_hdr
    count_free m n (next_header m cur) num_free_hdr1

/-- The `while (node != NULL)` loop of the explicit `validate_heap`, returning the final
`cnt`, or `none` without fuel. -/
def count_nodes (m : Mem) : Nat → Nat → Int → Option Int
  | 0, _, _ => none
  | fuel + 1, node, cnt =>
    if node ≠ 0 then
      if node_nxt m node ≠ 0 then count_nodes m fuel (wrap (node_nxt m node + HEADER_SIZE)) (cnt + 1)
      else some (cnt + 1)
    else some cnt

/-- Second `for` loop of `validate_heap`: `n` iterations from header `cur`, returning the
final `segment_bytes`. -/
def sum_bytes (m : Mem) : Nat → Nat → Nat → Nat
  | 0, _, segment_bytes => segment_bytes
  | n + 1, cur, segment_bytes =>
    let sb1 := wrap (segment_bytes + HEADER_SIZE)
    let sb2 :=
      if Nat.land (load64 m cur) 1 ≠ 0 then wrap (sb1 + sub64 (load64 m cur) 1)
      else wrap (sb1 + load64 m cur)
    sum_bytes m n (next_header m cur) sb2

/-- Source function `validate_heap` of `explicit.c`. -/
def validate_heap (fuel : Nat) (s : Heap) : Option Bool :=
  let num_free_hdr := count_free s.mem s.num_header.toNat s.segment_start 0
  match count_nodes s.mem fuel s.start 0 with
  | none => none
  | some cnt =>
    if cnt ≠ num_free_hdr then some false
    else
      let segment_bytes := sum_bytes s.mem s.num_header.toNat s.segment_start 0
      if segment_bytes ≠ s.segment_size then some false
      else some true

/-- The explicit allocator before its first `myinit`: zeroed statics over memory `m`. -/
def fresh (m : Mem) : Heap :=
  { mem := m, segment_size := 0, segment_start := 0, start := 0, nbytes_inuse := 0,
    num_header := 0, nused := 0 }

/-- Tiling invariant of an explicit heap state. -/
def tiling (s : Heap) : Bool := tiled s.mem s.segment_start s.segment_size s.num_header.toNat

/-- The header addresses reached from the free-list head by following `nxt`, or `none`
without fuel. -/
def list_members (m : Mem) : Nat → Nat → Option (List Nat)
  | 0, _ => none
  | fuel + 1, node =>
    if node = 0 then some []
    else if node_nxt m node = 0 then some [sub64 node HEADER_SIZE]
    else (list_members m fuel (wrap (node_nxt m node + HEADER_SIZE))).map
      (fun l => sub64 node HEADER_SIZE :: l)

/-- Run of `mymalloc` on the state produced by `myinit s0 base capacity`. -/
def init_then_malloc (s0 : Heap) (base capacity n : Nat) : Option (Nat × Heap) :=
  mymalloc scenarioMax 8 (myinit s0 base capacity).2 n

/-- Scenario `init(128); a = allocate(16); reallocate(a, 200)` over zeroed memory, the
caller having stored `bs` at `a` before the `reallocate`; the result is `a`, the state
before the `reallocate`, the pointer it returns and the state after it. -/
def run_failed_realloc (bs : List Nat) : Option (Nat × Heap × Nat × Heap) := do
  let (a, s1) ← init_then_malloc (fresh (fun _ => 0)) 4096 128 16
  let s2 : Heap := { s1 with mem := write_bytes s1.mem a bs }
  let (q, s3) ← myrealloc scenarioMax 8 s2 a 200
  pure (a, s2, q, s3)

/-- Scenario over a 256-byte region: `a = allocate(40)`, four times `allocate(16)` giving
`c, e, d, f`, `reallocate(a, 1000)`, `free(c)`, `free(d)`, the caller stores the words `0`
and `a + 8` in its block `a`, then `p = allocate(24)`, the caller stores 24 bytes `0xAB` at
`p`, and `q = reallocate(p, 48)`.  The result is `a`, the pointer returned by
`reallocate(a, 1000)`, `p`, `q` and the 24 bytes found at `q`. -/
def run_realloc_clobber : Option (Nat × Nat × Nat × Nat × List Nat) := do
  let (a, s1) ← init_then_malloc (fresh (fun _ => 0)) 4096 256 40
  let (c, s2) ← mymalloc scenarioMax 8 s1 16
  let (_, s3) ← mymalloc scenarioMax 8 s2 16
  let (d, s4) ← mymalloc scenarioMax 8 s3 16
  let (_, s5) ← mymalloc scenarioMax 8 s4 16
  let (r, s6) ← myrealloc scenarioMax 8 s5 a 1000
  let s7 := myfree (myfree s6 c) d
  let s8 : Heap := { s7 with mem := store64 (store64 s7.mem a 0) (a + 8) (a + 8) }
  let (p, s9) ← mymalloc scenarioMax 8 s8 24
  let s10 : Heap := { s9 with mem := write_bytes s9.mem p (List.replicate 24 171) }
  let (q, s11) ← myrealloc scenarioMax 8 s10 p 48
  pure (a, r, p, q, read_bytes s11.mem q 24)

/-- Scenario `init(72); a = allocate(8); reallocate(a, 48)` over the memory `m0`: the state
reached, in which the free list is empty. -/
def run_exhaust (m0 : Mem) : Option Heap := do
  let (a, s1) ← init_then_malloc (fresh m0) 4096 72 8
  let (_, s2) ← myrealloc scenarioMax 8 s1 a 48
  pure s2

/-- The free-list links found in memory `m` for the header addresses `L`, in list order: the
`prev` field of the first node is `pv`, every `nxt` field holds the header address of the
following member, the last one holds null, and every `prev` field holds the header address
of the preceding member. -/
def chain (m : Mem) : Nat → List Nat → Prop
  | _, [] => True
  | pv, x :: r =>
    node_prev m (x + HEADER_SIZE) = pv ∧ node_nxt m (x + HEADER_SIZE) = r.headD 0 ∧ chain m x r

instance chain.decidable (m : Mem) : ∀ (pv : Nat) (L : List Nat), Decidable (chain m pv L)
  | _, [] => isTrue trivial
  | _, x :: r =>
    @instDecidableAnd _ _ _ (@instDecidableAnd _ _ _ (chain.decidable m x r))

/-- Well-formed state of the explicit allocator with free list `L` (header addresses, head
first): the region is non-null and ends at or below `2 ^ 64`, the blocks tile it, every
block holds at least a list node, the head and the links in memory spell out `L`, and `L`
lists exactly the free blocks, each once. -/
def well_formed (s : Heap) (L : List Nat) : Prop :=
  0 < s.segment_start
  ∧ s.segment_start + s.segment_size ≤ WORD
  ∧ tiling s = true
  ∧ (∀ x ∈ walk s.mem s.num_header.toNat s.segment_start,
      SIZEOF_LISTNODE ≤ true_size (load64 s.mem x))
  ∧ s.start = (match L with | [] => 0 | x :: _ => x + HEADER_SIZE)
  ∧ chain s.mem 0 L
  ∧ L.Nodup
  ∧ (∀ x ∈ free_blocks s.mem s.segment_start s.num_header.toNat, x ∈ L)
  ∧ (∀ x ∈ L, x ∈ free_blocks s.mem s.segment_start s.num_header.toNat)

instance well_formed.decidable (s : Heap) (L : List Nat) : Decidable (well_formed s L) := by
  unfold well_formed
  infer_instance

/-- Run of `init(128)`, three times `allocate(16)` giving `a, b, c`, then `free` of the
listed pointers in turn (`0` for `a`, `1` for `b`, `2` for `c`), over zeroed memory. -/
def run_three_then_free (order : List Nat) : Option Heap := do
  let (a, s1) ← init_then_malloc (fresh (fun _ => 0)) 4096 128 16
  let (b, s2) ← mymalloc scenarioMax 8 s1 16
  let (c, s3) ← mymalloc scenarioMax 8 s2 16
  pure (order.foldl (fun s i => myfree s ([a, b, c].getD i 0)) s3)

/-- The state after `init(128)`, three times `allocate(16)` giving `a, b, c`, and `free(b)`:
blocks `[used 16, free 16, used 16, free 48]` from `4096`, free list `[4120, 4168]`. -/
def middle_freed : Heap := (run_three_then_free [1]).getD (fresh (fun _ => 0))

/-- Scenario over a 256-byte region at `4096` (both multiples of 8): `a = allocate(64)`,
`allocate(16)`, `reallocate(a, 1000)`, then the caller stores into its block `a` the word
`a + 17` at offset 8, the word `80` at offset 17 and sixteen zero bytes at offset 25, and
calls `allocate(72)`.  The result is `a`, the pointer returned by the `reallocate`, and the
pointer returned by the last `allocate`. -/
def run_misaligned : Option (Nat × Nat × Nat) := do
  let (a, s1) ← init_then_malloc (fresh (fun _ => 0)) 4096 256 64
  let (_, s2) ← mymalloc scenarioMax 8 s1 16
  let (r, s3) ← myrealloc scenarioMax 8 s2 a 1000
  let m4 := store64 s3.mem (a + 8) (a + 17)
  let m5 := write_bytes m4 (a + 25) (List.replicate 16 0)
  let s6 : Heap := { s3 with mem := store64 m5 (a + 17) 80 }
  let (p, _) ← mymalloc scenarioMax 8 s6 72
  pure (a, r, p)

/-- Scenario S3 over a 128-byte region: `a = allocate(8); b = allocate(8); free(a);
q = reallocate(b, 48)`.  The result is `a`, `b`, `q` and the final state. -/
def run_s3 : Option (Nat × Nat × Nat × Heap) := do
  let (a, s1) ← init_then_malloc (fresh (fun _ => 0)) 4096 128 8
  let (b, s2) ← mymalloc scenarioMax 8 s1 8
  let s3 := myfree s2 a
  let (q, s4) ← myrealloc scenarioMax 8 s3 b 48
  pure (a, b, q, s4)

/-- Scenario `init(72); a = allocate(8); reallocate(a, 48); free(a)` over the memory `m0`:
the pointer `a`, the state before the `free` and the state after it. -/
def run_free_last (m0 : Mem) : Option (Nat × Heap × Heap) := do
  let (a, s1) ← init_then_malloc (fresh m0) 4096 72 8
  let (_, s2) ← myrealloc scenarioMax 8 s1 a 48
  pure (a, s2, myfree s2 a)

/-- The list nodes of the header addresses `L` are usable together: every header address is
non-null with its node below `2 ^ 64`, and the nodes (the node of header `x` occupies the
bytes `[x + 8, x + 24)`) are pairwise disjoint. -/
def nodes_apart (L : List Nat) : Prop :=
  (∀ x ∈ L, 0 < x ∧ x + 24 ≤ WORD) ∧ L.Pairwise (fun x y => x + 16 ≤ y ∨ y + 16 ≤ x)

instance nodes_apart.decidable (L : List Nat) : Decidable (nodes_apart L) := by
  unfold nodes_apart
  infer_instance

/-- The head pointer that goes with the free list `L`: null for the empty list, otherwise the
node of the first member. -/
def head_of (L : List Nat) : Nat :=
  match L with
  | [] => 0
  | x :: _ => x + HEADER_SIZE

/-- Consistent state of the explicit allocator with free list `L`, as the data model states
it: the region is non-null and ends at or below `2 ^ 64`, the blocks tile it, every free
block holds at least a list node, the head and the links in memory spell out `L`, and `L`
lists exactly the free blocks, each once.  In-use blocks may have any size. -/
def consistent (s : Heap) (L : List Nat) : Prop :=
  0 < s.segment_start
  ∧ s.segment_start + s.segment_size ≤ WORD
  ∧ tiling s = true
  ∧ (∀ x ∈ free_blocks s.mem s.segment_start s.num_header.toNat,
      SIZEOF_LISTNODE ≤ true_size (load64 s.mem x))
  ∧ s.start = head_of L
  ∧ chain s.mem 0 L
  ∧ L.Nodup
  ∧ (∀ x ∈ free_blocks s.mem s.segment_start s.num_header.toNat, x ∈ L)
  ∧ (∀ x ∈ L, x ∈ free_blocks s.mem s.segment_start s.num_header.toNat)

instance consistent.decidable (s : Heap) (L : List Nat) : Decidable (consistent s L) := by
  unfold consistent
  infer_instance

/-- The headers read by the `for` loops of `validate_heap`: the values of `cur` in `n`
iterations from `cur`, stepped as the loops step. -/
def visited (m : Mem) : Nat → Nat → List Nat
  | 0, _ => []
  | n + 1, cur => cur :: visited m n (next_header m cur)

/-- The state after `init(128); allocate(120)` over zeroed memory. -/
def exact_fit_state : Heap :=
  ((init_then_malloc (fresh (fun _ => 0)) 4096 128 120).map (fun r => r.2)).getD
    (fresh (fun _ => 0))

/-- Scenario over a 256-byte region at `4096` with initial memory `m0`:
`a = allocate(128); b = allocate(40); free(a); q = reallocate(b, 120)`.  The result is `a`,
`b`, the state before the `reallocate`, `q` and the final state. -/
def run_copy (m0 : Mem) : Option (Nat × Nat × Heap × Nat × Heap) := do
  let (a, s1) ← init_then_malloc (fresh m0) 4096 256 128
  let (b, s2) ← mymalloc scenarioMax 8 s1 40
  let s3 := myfree s2 a
  let (q, s4) ← myrealloc scenarioMax 8 s3 b 120
  pure (a, b, s3, q, s4)

end Explicit

namespace Implicit

/-- The statics of `implicit.c` together with the byte memory. -/
structure Heap where
  mem : Mem
  segment_size : Nat
  nused : Nat
  nbytes_inuse : Nat
  segment_start : Nat
  num_header : Int

/-- Source function `myinit` of `implicit.c`. -/
def myinit (s : Heap) (heap_start heap_size : Nat) : Bool × Heap :=
  if heap_size < HEADER_SIZE then (false, s)
  else
    let first := heap_start
    (true,
      { mem := store64 s.mem first (sub64 heap_size HEADER_SIZE), segment_size := heap_size,
        segment_start := heap_start, nbytes_inuse := 0, nused := HEADER_SIZE, num_header := 1 })

/-- The `for (cnt = 0; cnt < num_header; cnt++)` loop of the implicit `mymalloc`, with `n`
iterations left; the result is the final `cnt`, `ithdr`, `block` and state. -/
def mymalloc_loop (needed : Nat) : Nat → Heap → Int → Nat → Int × Nat × Bool × Heap
  | 0, s, cnt, ithdr => (cnt, ithdr, false, s)
  | n + 1, s, cnt, ithdr =>
    if needed ≤ load64 s.mem ithdr ∧ Nat.land (load64 s.mem ithdr) 1 = 0 then
      let s1 : Heap :=
        if cnt = s.num_header - 1 then
          { s with nused := wrap (s.nused + needed), mem := store64 s.mem ithdr needed,
                   nbytes_inuse := wrap (s.nbytes_inuse + needed) }
        else { s with nbytes_inuse := wrap (s.nbytes_inuse + load64 s.mem ithdr) }
      (cnt, ithdr, true,
        { s1 with mem := store64 s1.mem ithdr (Nat.lor (load64 s1.mem ithdr) 1) })
    else mymalloc_loop needed n s (cnt + 1) (next_header s.mem ithdr)

/-- Source function `mymalloc` of `implicit.c`; `MAX_REQUEST_SIZE` is the constant of that
name from `allocator.h`, taken as a parameter. -/
def mymalloc (MAX_REQUEST_SIZE : Nat) (s : Heap) (requested_size : Nat) : Nat × Heap :=
  if requested_size ≤ 0 ∨ requested_size > MAX_REQUEST_SIZE then (0, s)
  else
    let needed := addpad requested_size ALIGNMENT
    let (cnt, ithdr, block, s1) := mymalloc_loop needed s.num_header.toNat s 0 s.segment_start
    let s2 : Heap :=
      if cnt = s1.num_header - 1 ∧ block = true
          ∧ sub64 s1.segment_size s1.nused ≥ HEADER_SIZE then
        let nxthdr := sub64 (wrap (ithdr + load64 s1.mem ithdr + HEADER_SIZE)) 1
        let new_hdr := nxthdr
        { s1 with mem := store64 s1.mem new_hdr (sub64 (sub64 s1.segment_size s1.nused) HEADER_SIZE),
                  nused := wrap (s1.nused + HEADER_SIZE), num_header := s1.num_header + 1 }
      else s1
    if block then (wrap (ithdr + HEADER_SIZE), s2) else (0, s2)

/-- Source function `myfree` of `implicit.c`. -/
def myfree (s : Heap) (ptr : Nat) : Heap :=
  if ptr ≠ 0 then
    let hdr := sub64 ptr HEADER_SIZE
    let m1 := store64 s.mem hdr (Nat.xor (load64 s.mem hdr) 1)
    { s with mem := m1, nbytes_inuse := sub64 s.nbytes_inuse (load64 m1 hdr) }
  else s

/-- Source function `myrealloc` of `implicit.c`. -/
def myrealloc (MAX_REQUEST_SIZE : Nat) (s : Heap) (old_ptr new_size : Nat) : Nat × Heap :=
  if old_ptr = 0 then mymalloc MAX_REQUEST_SIZE s new_size
  else if new_size = 0 then (0, myfree s old_ptr)
  else
    let curhdr := sub64 old_ptr HEADER_SIZE
    if sub64 (load64 s.mem curhdr) 1 ≥ new_size then (old_ptr, s)
    else
      let (new_ptr, s1) := mymalloc MAX_REQUEST_SIZE s new_size
      if new_ptr = 0 then (0, s1)
      else
        let s2 : Heap := { s1 with mem := memcpy s1.mem new_ptr old_ptr new_size }
        (new_ptr, myfree s2 old_ptr)

/-- The `for` loop of the implicit `validate_heap` with `n` iterations left: `none` when the
bounds check inside the loop fails, otherwise the final `segment_bytes` and
`validate_payload`. -/
def validate_loop (s : Heap) : Nat → Nat → Nat → Nat → Option (Nat × Nat)
  | 0, _, segment_bytes, validate_payload => some (segment_bytes, validate_payload)
  | n + 1, cur, segment_bytes, validate_payload =>
    if cur > wrap (s.segment_start + s.segment_size) then none
    else
      let sb1 := wrap (segment_bytes + HEADER_SIZE)
      if Nat.land (load64 s.mem cur) 1 ≠ 0 then
        validate_loop s n (next_header s.mem cur) (wrap (sb1 + sub64 (load64 s.mem cur) 1))
          (wrap (validate_payload + sub64 (load64 s.mem cur) 1))
      else
        validate_loop s n (next_header s.mem cur) (wrap (sb1 + load64 s.mem cur))
          validate_payload

/-- Source function `validate_heap` of `implicit.c`. -/
def validate_heap (s : Heap) : Bool :=
  if s.nused > s.segment_size then false
  else
    match validate_loop s s.num_header.toNat s.segment_start 0 0 with
    | none => false
    | some (segment_bytes, validate_payload) =>
      if segment_bytes ≠ s.segment_size then false
      else if validate_payload ≠ s.nbytes_inuse then false
      else true

/-- The implicit allocator before its first `myinit`: zeroed statics over memory `m`. -/
def fresh (m : Mem) : Heap :=
  { mem := m, segment_size := 0, nused := 0, nbytes_inuse := 0, segment_start := 0,
    num_header := 0 }

/-- Tiling invariant of an implicit heap state. -/
def tiling (s : Heap) : Bool := tiled s.mem s.segment_start s.segment_size s.num_header.toNat

/-- Scenario `init(128); p = allocate(120); free(p); allocate(8)` over zeroed memory: the
pointer returned by the last call and the final state. -/
def run_refit : Nat × Heap :=
  let s0 := (myinit (fresh (fun _ => 0)) 4096 128).2
  let r1 := mymalloc scenarioMax s0 120
  let s2 := myfree r1.2 r1.1
  mymalloc scenarioMax s2 8

/-- Scenario `init(128); allocate(120)` over zeroed memory: the state in which the single
block is in use and fills the region. -/
def full_heap : Heap := (mymalloc scenarioMax (myinit (fresh (fun _ => 0)) 4096 128).2 120).2

/-- The implicit state after `init(128); a = allocate(16); b = allocate(16); c = allocate(16);
free(b)` over zeroed memory: `[used 16, free 16, used 16, free 48]`. -/
def three_with_gap : Heap :=
  let s0 := (myinit (fresh (fun _ => 0)) 4096 128).2
  let r1 := mymalloc scenarioMax s0 16
  let r2 := mymalloc scenarioMax r1.2 16
  let r3 := mymalloc scenarioMax r2.2 16
  myfree r3.2 r2.1

/-- Scenario over a 128-byte region at `4096` with initial memory `m0`:
`a = allocate(64); b = allocate(40); free(a); q = reallocate(b, 56)`.  The result is `a`, `b`,
the state before the `reallocate`, `q` and the final state. -/
def run_copy (m0 : Mem) : Nat × Nat × Heap × Nat × Heap :=
  let s0 := (myinit (fresh m0) 4096 128).2
  let r1 := mymalloc scenarioMax s0 64
  let r2 := mymalloc scenarioMax r1.2 40
  let s3 := myfree r2.2 r1.1
  let r4 := myrealloc scenarioMax s3 r2.1 56
  (r1.1, r2.1, s3, r4.1, r4.2)

end Implicit

/-! ## Basic facts about words, memory and the block walker -/

theorem loadN_lt (m : Mem) : ∀ (k a : Nat), loadN m a k < 256 ^ k
  | 0, a => by simp [loadN]
  | k + 1, a => by
    have ih := loadN_lt m k (a + 1)
    have hb : m a % 256 < 256 := Nat.mod_lt _ (by norm_num)
    simp only [loadN, pow_succ]
    omega

theorem load64_lt (m : Mem) (a : Nat) : load64 m a < WORD := by
  have := loadN_lt m 8 a
  simpa [load64, WORD] using this

theorem land_one (x : Nat) : Nat.land x 1 = x % 2 := Nat.and_one_is_mod x

theorem wrap_of_lt {x : Nat} (h : x < WORD) : wrap x = x := Nat.mod_eq_of_lt h

theorem sub64_of_le {a b : Nat} (ha : a < WORD) (hb : b ≤ a) : sub64 a b = a - b := by
  unfold sub64
  rw [Nat.mod_eq_of_lt ha, Nat.mod_eq_of_lt (lt_of_le_of_lt hb ha)]
  have : a + (WORD - b) = (a - b) + WORD := by omega
  rw [this, Nat.add_mod_right, Nat.mod_eq_of_lt (by omega)]

theorem xor_one_eq (h : Nat) : Nat.xor h 1 = if h % 2 = 1 then h - 1 else h + 1 := by
  have hx : Nat.xor h 1 = h ^^^ 1 := rfl
  have h1 : (h ^^^ 1) % 2 = (h + 1) % 2 := Nat.xor_mod_two_eq
  have h2 : (h ^^^ 1) / 2 = h / 2 := by
    rw [Nat.xor_div_two]; simp
  rw [hx]
  split_ifs <;> omega

theorem lor_one_eq (h : Nat) : Nat.lor h 1 = if h % 2 = 1 then h else h + 1 := by
  have hx : Nat.lor h 1 = h ||| 1 := rfl
  have h1 : (h ||| 1) % 2 = 1 := by
    have := Nat.testBit_or h 1 0
    simp only [Nat.testBit_zero] at this
    rcases Nat.mod_two_eq_zero_or_one (h ||| 1) with h0 | h0
    · simp [h0] at this
    · exact h0
  have h2 : (h ||| 1) / 2 = h / 2 := by
    rw [Nat.or_div_two]; simp
  rw [hx]
  split_ifs <;> omega

/-- On a block that ends below `2 ^ 64` the stepping code of the walking loops agrees with
the walker of the data model. -/
theorem next_header_eq (m : Mem) (h : Nat)
    (hh : h + HEADER_SIZE + true_size (load64 m h) < WORD) :
    next_header m h = h + HEADER_SIZE + true_size (load64 m h) := by
  have hl := load64_lt m h
  unfold next_header
  rw [land_one]
  simp only [HEADER_SIZE, true_size] at *
  split_ifs with h1
  · rw [sub64_of_le (by omega) (by omega), wrap_of_lt (by omega)]
    omega
  · rw [wrap_of_lt (by omega)]
    omega

theorem tiled_inside {m : Mem} {base cap n : Nat} (ht : tiled m base cap n = true) :
    ∀ x ∈ walk m n base, x + HEADER_SIZE + true_size (load64 m x) ≤ base + cap := by
  intro x hx
  unfold tiled at ht
  rw [Bool.and_eq_true, List.all_eq_true] at ht
  have := ht.1 x hx
  simp only [decide_eq_true_eq] at this
  exact this.2

theorem store64_out (m : Mem) (a v x : Nat) (h : x < a ∨ a + 8 ≤ x) :
    store64 m a v x = m x := by
  unfold store64
  rw [if_neg]
  omega

theorem store64_in (m : Mem) (a v i : Nat) (h : i < 8) :
    store64 m a v (a + i) = (v / 256 ^ i) % 256 := by
  unfold store64
  rw [if_pos (by omega)]
  simp

theorem loadN_congr (m m' : Mem) : ∀ (k a : Nat), (∀ i, i < k → m' (a + i) = m (a + i)) →
    loadN m' a k = loadN m a k
  | 0, _, _ => rfl
  | k + 1, a, h => by
    have h0 := h 0 (by omega)
    have ih := loadN_congr m m' k (a + 1) (fun i hi => by
      have := h (i + 1) (by omega)
      rwa [show a + 1 + i = a + (i + 1) by omega])
    simp only [loadN, ih]
    simpa using congrArg (· % 256 + 256 * loadN m (a + 1) k) h0

theorem load64_congr (m m' : Mem) (a : Nat) (h : ∀ i, i < 8 → m' (a + i) = m (a + i)) :
    load64 m' a = load64 m a := loadN_congr m m' 8 a h

theorem load64_store64_ne (m : Mem) (a v b : Nat) (h : b + 8 ≤ a ∨ a + 8 ≤ b) :
    load64 (store64 m a v) b = load64 m b :=
  load64_congr _ _ _ (fun i hi => store64_out m a v (b + i) (by omega))

theorem load64_store64_same (m : Mem) (a v : Nat) (hv : v < WORD) :
    load64 (store64 m a v) a = v := by
  have e : ∀ i, i < 8 → store64 m a v (a + i) = (v / 256 ^ i) % 256 := fun i hi => store64_in m a v i hi
  have e0 := e 0 (by omega)
  simp only [Nat.add_zero] at e0
  simp only [load64, loadN, e0, e 1 (by omega), e 2 (by omega),
    e 3 (by omega), e 4 (by omega), e 5 (by omega), e 6 (by omega), e 7 (by omega), Nat.add_assoc]
  norm_num
  simp only [WORD] at hv
  omega

theorem walk_ge (m : Mem) : ∀ (n h x : Nat), x ∈ walk m n h → h ≤ x
  | 0, _, _, hx => by simp [walk] at hx
  | n + 1, h, x, hx => by
    rw [walk, List.mem_cons] at hx
    rcases hx with rfl | hx
    · exact le_refl _
    · have := walk_ge m n _ x hx
      omega

theorem walk_pairwise (m : Mem) : ∀ (n h : Nat),
    (walk m n h).Pairwise (fun x y => x + HEADER_SIZE + true_size (load64 m x) ≤ y)
  | 0, _ => by simp [walk]
  | n + 1, h => by
    rw [walk, List.pairwise_cons]
    exact ⟨fun y hy => walk_ge m n _ y hy, walk_pairwise m n _⟩

theorem walk_disjoint (m : Mem) (n h x y : Nat) (hx : x ∈ walk m n h) (hy : y ∈ walk m n h)
    (hne : x ≠ y) :
    x + HEADER_SIZE + true_size (load64 m x) ≤ y ∨ y + HEADER_SIZE + true_size (load64 m y) ≤ x := by
  have hp := (walk_pairwise m n h).imp
    (S := fun x y => x + HEADER_SIZE + true_size (load64 m x) ≤ y
      ∨ y + HEADER_SIZE + true_size (load64 m y) ≤ x) (fun h => Or.inl h)
  exact hp.forall (fun a b hab => hab.symm) hx hy hne

/-- A byte of a walked header is not a payload byte of any walked block. -/
theorem header_not_payload (m : Mem) (n h y z x : Nat) (hy : y ∈ walk m n h)
    (hz : z ∈ walk m n h) (hx : y ≤ x ∧ x < y + HEADER_SIZE) :
    ¬ (z + HEADER_SIZE ≤ x ∧ x < z + HEADER_SIZE + true_size (load64 m z)) := by
  by_cases hne : y = z
  · subst hne; omega
  · rcases walk_disjoint m n h y z hy hz hne with h1 | h1 <;> simp only [HEADER_SIZE] at * <;> omega

theorem mem_free_blocks {m : Mem} {base n x : Nat} :
    x ∈ free_blocks m base n ↔ x ∈ walk m n base ∧ is_used (load64 m x) = false := by
  simp [free_blocks]

theorem chain_nxt (m : Mem) : ∀ (L : List Nat) (pv x : Nat), Explicit.chain m pv L → x ∈ L →
    node_nxt m (x + HEADER_SIZE) = 0 ∨ node_nxt m (x + HEADER_SIZE) ∈ L
  | [], _, _, _, hx => by simp at hx
  | a :: r, pv, x, hc, hx => by
    rw [Explicit.chain] at hc
    rw [List.mem_cons] at hx
    rcases hx with rfl | hx
    · cases r with
      | nil => left; simpa using hc.2.1
      | cons b r' => right; rw [hc.2.1]; simp
    · rcases chain_nxt m r a x hc.2.2 hx with h | h
      · exact Or.inl h
      · exact Or.inr (List.mem_cons_of_mem _ h)

theorem chain_prev (m : Mem) : ∀ (L : List Nat) (pv x : Nat), Explicit.chain m pv L → x ∈ L →
    node_prev m (x + HEADER_SIZE) = pv ∨ node_prev m (x + HEADER_SIZE) ∈ L
  | [], _, _, _, hx => by simp at hx
  | a :: r, pv, x, hc, hx => by
    rw [Explicit.chain] at hc
    rw [List.mem_cons] at hx
    rcases hx with rfl | hx
    · exact Or.inl hc.1
    · right
      rcases chain_prev m r a x hc.2.2 hx with h | h
      · rw [h]; simp
      · exact List.mem_cons_of_mem _ h

theorem chain_nxt_ne (m : Mem) : ∀ (L : List Nat) (pv x : Nat), Explicit.chain m pv L →
    L.Nodup → (∀ y ∈ L, y ≠ 0) → x ∈ L → node_nxt m (x + HEADER_SIZE) ≠ x
  | [], _, _, _, _, _, hx => by simp at hx
  | a :: r, pv, x, hc, hnd, hnz, hx => by
    rw [Explicit.chain] at hc
    rw [List.nodup_cons] at hnd
    rw [List.mem_cons] at hx
    rcases hx with rfl | hx
    · rw [hc.2.1]
      cases r with
      | nil => simpa using (hnz x (by simp)).symm
      | cons b r' =>
        simp only [List.headD_cons]
        intro hb
        exact hnd.1 (hb ▸ List.mem_cons_self _ _)
    · exact chain_nxt_ne m r a x hc.2.2 hnd.2 (fun y hy => hnz y (List.mem_cons_of_mem _ hy)) hx

/-! ## Footprints of the free-list operations -/

namespace Explicit

theorem add_to_beg_num_header (s : Heap) (hdr : Nat) :
    (add_to_beg s hdr).num_header = s.num_header := by
  unfold add_to_beg; split_ifs <;> rfl

theorem add_to_beg_mem_out (s : Heap) (hdr x : Nat) (hh : hdr + 24 ≤ WORD)
    (h1 : x < hdr + 8 ∨ hdr + 24 ≤ x) (h2 : s.start ≠ 0 → (x < s.start ∨ s.start + 8 ≤ x)) :
    (add_to_beg s hdr).mem x = s.mem x := by
  have w1 : wrap (hdr + 8) = hdr + 8 := wrap_of_lt (by omega)
  have w2 : wrap (hdr + 8 + 8) = hdr + 16 := by rw [wrap_of_lt (by omega)]
  unfold add_to_beg
  simp only [HEADER_SIZE, set_prev, set_nxt, w1, w2]
  split_ifs with h0
  · simp only []
    rw [store64_out _ _ _ _ (by omega), store64_out _ _ _ _ (by omega)]
  · simp only []
    rw [store64_out _ _ _ _ (h2 h0), store64_out _ _ _ _ (by omega),
      store64_out _ _ _ _ (by omega)]

theorem remove_node_num_header (s : Heap) (node : Nat) :
    (remove_node s node).num_header = s.num_header := by
  unfold remove_node; split_ifs <;> rfl

theorem remove_node_mem_out (s : Heap) (node x : Nat)
    (hp : node_prev s.mem node + 24 ≤ WORD) (hn : node_nxt s.mem node + 16 ≤ WORD)
    (h1 : node_nxt s.mem node ≠ 0 →
      (x < node_nxt s.mem node + 8 ∨ node_nxt s.mem node + 16 ≤ x))
    (h3 : x < node_prev s.mem node + 16 ∨ node_prev s.mem node + 24 ≤ x) :
    (remove_node s node).mem x = s.mem x := by
  have w1 : wrap (node_nxt s.mem node + 8) = node_nxt s.mem node + 8 := wrap_of_lt (by omega)
  have w2 : wrap (node_prev s.mem node + 8) = node_prev s.mem node + 8 := wrap_of_lt (by omega)
  have w3 : wrap (node_prev s.mem node + 8 + 8) = node_prev s.mem node + 16 := by
    rw [wrap_of_lt (by omega)]
  unfold remove_node
  simp only [HEADER_SIZE, set_prev, set_nxt, w1, w2, w3]
  split_ifs with c1 c2 c3
  · rfl
  · simp only []
    have hz : node_nxt s.mem node ≠ 0 := fun h => c1 ⟨c2, h⟩
    rw [store64_out _ _ _ _ (h1 hz)]
  · simp only []
    rw [store64_out _ _ _ _ (by omega)]
  · simp only []
    rw [store64_out _ _ _ _ (h1 c3), store64_out _ _ _ _ (by omega)]

theorem coalesce_num_header (s : Heap) (hdr N : Nat) :
    (coalesce s hdr N).num_header = s.num_header := by
  unfold coalesce
  by_cases hz : node_nxt s.mem (wrap (N + HEADER_SIZE)) = 0
  · simp only [hz, ne_eq, not_true_eq_false, if_false]
    split_ifs
    · rfl
    · rfl
    · rfl
    · exact remove_node_num_header _ _
  · simp only [hz, ne_eq, not_false_eq_true, if_true]
    split_ifs
    · rfl
    · rfl
    · rfl
    · exact remove_node_num_header _ _

theorem coalesce_mem_out (s : Heap) (hdr N x : Nat)
    (hN : N + 24 ≤ WORD) (hh : hdr + 24 ≤ WORD)
    (hp : node_prev s.mem (N + 8) + 24 ≤ WORD) (hn : node_nxt s.mem (N + 8) + 16 ≤ WORD)
    (hsep : node_nxt s.mem (N + 8) ≠ 0 →
      (node_nxt s.mem (N + 8) + 8 ≤ N ∨ N + 8 ≤ node_nxt s.mem (N + 8)))
    (h1 : node_nxt s.mem (N + 8) ≠ 0 →
      (x < node_nxt s.mem (N + 8) + 8 ∨ node_nxt s.mem (N + 8) + 16 ≤ x))
    (h2 : x < hdr + 8 ∨ hdr + 24 ≤ x)
    (h3 : x < node_prev s.mem (N + 8) + 16 ∨ node_prev s.mem (N + 8) + 24 ≤ x) :
    (coalesce s hdr N).mem x = s.mem x := by
  have wN : wrap (N + 8) = N + 8 := wrap_of_lt (by omega)
  have wh : wrap (hdr + 8) = hdr + 8 := wrap_of_lt (by omega)
  have wh2 : wrap (hdr + 8 + 8) = hdr + 16 := by rw [wrap_of_lt (by omega)]
  have wn : wrap (node_nxt s.mem (N + 8) + 8) = node_nxt s.mem (N + 8) + 8 :=
    wrap_of_lt (by omega)
  have wp : wrap (node_prev s.mem (N + 8) + 8) = node_prev s.mem (N + 8) + 8 :=
    wrap_of_lt (by omega)
  have wp2 : wrap (node_prev s.mem (N + 8) + 8 + 8) = node_prev s.mem (N + 8) + 16 := by
    rw [wrap_of_lt (by omega)]
  unfold coalesce
  simp only [HEADER_SIZE, wN]
  by_cases hz : node_nxt s.mem (N + 8) = 0
  · simp only [hz, ne_eq, not_true_eq_false, if_false, wh]
    split_ifs with c1 c2 c3
    · simp only [set_prev, set_nxt, wh2]
      rw [store64_out _ _ _ _ (by omega), store64_out _ _ _ _ (by omega)]
    · simp only [set_nxt, wh2]
      rw [store64_out _ _ _ _ (by omega)]
    · simp only [set_nxt, set_prev, wh2] at c3 ⊢
      rw [store64_out _ _ _ _ (by rw [wp, wrap_of_lt (by omega)]; omega),
        store64_out _ _ _ _ (by omega), store64_out _ _ _ _ (by omega)]
    · exact remove_node_mem_out s (N + 8) x hp hn h1 h3
  · have hpv : node_prev (set_prev s.mem (node_nxt s.mem (N + 8) + 8) hdr) (N + 8)
        = node_prev s.mem (N + 8) := by
      unfold node_prev set_prev
      exact load64_store64_ne _ _ _ _ (by have := hsep hz; omega)
    simp only [hz, ne_eq, not_false_eq_true, if_true, wn, hpv, wh]
    split_ifs with c1 c2 c3
    · simp only [set_prev, set_nxt, wh2]
      rw [store64_out _ _ _ _ (by omega), store64_out _ _ _ _ (by omega),
        store64_out _ _ _ _ (h1 hz)]
    · simp only [set_nxt, set_prev, wh2]
      rw [store64_out _ _ _ _ (by omega), store64_out _ _ _ _ (h1 hz)]
    · simp only [set_nxt, set_prev, wh2]
      rw [store64_out _ _ _ _ (by rw [wp, wrap_of_lt (by omega)]; omega),
        store64_out _ _ _ _ (by omega), store64_out _ _ _ _ (by omega),
        store64_out _ _ _ _ (h1 hz)]
    · exact remove_node_mem_out s (N + 8) x hp hn h1 h3

end Explicit

/-! ## Freeing a block in a well-formed state of the explicit allocator -/

namespace Explicit

theorem true_size_of_used {h : Nat} (hu : h % 2 = 1) : true_size h = h - 1 := by
  unfold true_size; omega

theorem true_size_of_free {h : Nat} (hu : ¬ h % 2 = 1) : true_size h = h := by
  unfold true_size; omega

/-- Bounds of a walked block in a well-formed state. -/
theorem wf_block {s : Heap} {L : List Nat} (hwf : well_formed s L) {z : Nat}
    (hz : z ∈ walk s.mem s.num_header.toNat s.segment_start) :
    0 < z ∧ 16 ≤ true_size (load64 s.mem z) ∧ z + 8 + true_size (load64 s.mem z) ≤ WORD := by
  obtain ⟨hb, hr, ht, hs, -⟩ := hwf
  have h1 := walk_ge _ _ _ _ hz
  have h2 := tiled_inside ht z hz
  have h3 := hs z hz
  simp only [HEADER_SIZE, SIZEOF_LISTNODE] at *
  omega

/-- In a well-formed state no byte of a walked header lies in the list node of a walked
block. -/
theorem wf_off_node {s : Heap} {L : List Nat} (hwf : well_formed s L) {y z x : Nat}
    (hy : y ∈ walk s.mem s.num_header.toNat s.segment_start)
    (hz : z ∈ walk s.mem s.num_header.toNat s.segment_start)
    (h1 : y ≤ x) (h2 : x < y + 8) : x < z + 8 ∨ z + 24 ≤ x := by
  have hb := wf_block hwf hz
  have := header_not_payload _ _ _ y z x hy hz ⟨h1, by simpa [HEADER_SIZE] using h2⟩
  simp only [HEADER_SIZE] at this
  omega

theorem wf_listed {s : Heap} {L : List Nat} (hwf : well_formed s L) {z : Nat} (hz : z ∈ L) :
    z ∈ walk s.mem s.num_header.toNat s.segment_start ∧ is_used (load64 s.mem z) = false :=
  mem_free_blocks.1 (hwf.2.2.2.2.2.2.2.2 z hz)

theorem wf_start {s : Heap} {L : List Nat} (hwf : well_formed s L) (h0 : s.start ≠ 0) :
    ∃ z r, L = z :: r ∧ s.start = z + 8 := by
  have hh := hwf.2.2.2.2.1
  cases L with
  | nil => exact absurd hh h0
  | cons z r => exact ⟨z, r, rfl, hh⟩


/-- Unfolding of `myfree` on an in-use walked block whose right neighbour is in use. -/
theorem myfree_eq_of_used {s : Heap} {L : List Nat} (hwf : well_formed s L) {hdr : Nat}
    (hmem : hdr ∈ walk s.mem s.num_header.toNat s.segment_start)
    (hused : is_used (load64 s.mem hdr) = true)
    (hR : hdr + 8 + true_size (load64 s.mem hdr) ∈ walk s.mem s.num_header.toNat s.segment_start)
    (hRu : is_used (load64 s.mem (hdr + 8 + true_size (load64 s.mem hdr))) = true) :
    myfree s (hdr + 8) =
      add_to_beg { s with mem := store64 s.mem hdr (true_size (load64 s.mem hdr)),
                          nbytes_inuse := sub64 s.nbytes_inuse (true_size (load64 s.mem hdr)) }
        hdr := by
  have hb := wf_block hwf hmem
  have hbR := wf_block hwf hR
  have hl := load64_lt s.mem hdr
  simp only [is_used, decide_eq_true_eq] at hused hRu
  have hts : true_size (load64 s.mem hdr) = load64 s.mem hdr - 1 := true_size_of_used hused
  have e1 : sub64 (hdr + 8) 8 = hdr := by rw [sub64_of_le (by omega) (by omega)]; omega
  have e2 : Nat.xor (load64 s.mem hdr) 1 = true_size (load64 s.mem hdr) := by
    rw [xor_one_eq, if_pos hused, hts]
  have e3 : load64 (store64 s.mem hdr (true_size (load64 s.mem hdr))) hdr
      = true_size (load64 s.mem hdr) := load64_store64_same _ _ _ (by omega)
  have e4 : wrap (hdr + true_size (load64 s.mem hdr) + 8)
      = hdr + 8 + true_size (load64 s.mem hdr) := by
    rw [wrap_of_lt (by omega)]; omega
  have e5 : load64 (store64 s.mem hdr (true_size (load64 s.mem hdr)))
      (hdr + 8 + true_size (load64 s.mem hdr))
      = load64 s.mem (hdr + 8 + true_size (load64 s.mem hdr)) :=
    load64_store64_ne _ _ _ _ (by omega)
  unfold myfree
  rw [if_neg (by omega)]
  simp only [HEADER_SIZE, e1, e2, e3, e4, e5, land_one]
  rw [if_neg (by omega)]

/-- Unfolding of `myfree` on an in-use walked block whose right neighbour is free. -/
theorem myfree_eq_of_free {s : Heap} {L : List Nat} (hwf : well_formed s L) {hdr : Nat}
    (hmem : hdr ∈ walk s.mem s.num_header.toNat s.segment_start)
    (hused : is_used (load64 s.mem hdr) = true)
    (hR : hdr + 8 + true_size (load64 s.mem hdr) ∈ walk s.mem s.num_header.toNat s.segment_start)
    (hRf : is_used (load64 s.mem (hdr + 8 + true_size (load64 s.mem hdr))) = false) :
    myfree s (hdr + 8) =
      coalesce
        (add_to_beg
          { s with mem := store64 (store64 s.mem hdr (true_size (load64 s.mem hdr))) hdr
                            (true_size (load64 s.mem hdr) + (8 +
                              load64 s.mem (hdr + 8 + true_size (load64 s.mem hdr)))),
                   nbytes_inuse := sub64 s.nbytes_inuse (true_size (load64 s.mem hdr)),
                   num_header := s.num_header - 1 }
          hdr)
        hdr (hdr + 8 + true_size (load64 s.mem hdr)) := by
  have hb := wf_block hwf hmem
  have hbR := wf_block hwf hR
  have hl := load64_lt s.mem hdr
  simp only [is_used, decide_eq_true_eq, decide_eq_false_iff_not] at hused hRf
  have hts : true_size (load64 s.mem hdr) = load64 s.mem hdr - 1 := true_size_of_used hused
  have htR : true_size (load64 s.mem (hdr + 8 + true_size (load64 s.mem hdr)))
      = load64 s.mem (hdr + 8 + true_size (load64 s.mem hdr)) := true_size_of_free hRf
  have e1 : sub64 (hdr + 8) 8 = hdr := by rw [sub64_of_le (by omega) (by omega)]; omega
  have e2 : Nat.xor (load64 s.mem hdr) 1 = true_size (load64 s.mem hdr) := by
    rw [xor_one_eq, if_pos hused, hts]
  have e3 : load64 (store64 s.mem hdr (true_size (load64 s.mem hdr))) hdr
      = true_size (load64 s.mem hdr) := load64_store64_same _ _ _ (by omega)
  have e4 : wrap (hdr + true_size (load64 s.mem hdr) + 8)
      = hdr + 8 + true_size (load64 s.mem hdr) := by
    rw [wrap_of_lt (by omega)]; omega
  have e5 : load64 (store64 s.mem hdr (true_size (load64 s.mem hdr)))
      (hdr + 8 + true_size (load64 s.mem hdr))
      = load64 s.mem (hdr + 8 + true_size (load64 s.mem hdr)) :=
    load64_store64_ne _ _ _ _ (by omega)
  have e6 : wrap (true_size (load64 s.mem hdr) + (8 +
      load64 s.mem (hdr + 8 + true_size (load64 s.mem hdr))))
      = true_size (load64 s.mem hdr) + (8 +
        load64 s.mem (hdr + 8 + true_size (load64 s.mem hdr))) := by
    rw [wrap_of_lt (by omega)]
  unfold myfree
  rw [if_neg (by omega)]
  simp only [HEADER_SIZE, e1, e2, e3, e4, e5, e6, land_one]
  rw [if_pos (by omega)]


/-- In a well-formed state `add_to_beg` of a walked block leaves every walked header as it
found it; `sa` is the state handed to `add_to_beg`, with the list head of `s`. -/
theorem add_to_beg_header {s : Heap} {L : List Nat} (hwf : well_formed s L) (sa : Heap)
    (hst : sa.start = s.start) {hdr y : Nat}
    (hmem : hdr ∈ walk s.mem s.num_header.toNat s.segment_start)
    (hy : y ∈ walk s.mem s.num_header.toNat s.segment_start) :
    load64 (add_to_beg sa hdr).mem y = load64 sa.mem y := by
  have hb := wf_block hwf hmem
  apply load64_congr
  intro i hi
  apply add_to_beg_mem_out sa hdr (y + i) (by omega)
  · have := wf_off_node hwf hy hmem (x := y + i) (by omega) (by omega)
    omega
  · intro h0
    rw [hst] at h0 ⊢
    obtain ⟨z, r, hL, hz⟩ := wf_start hwf h0
    have hzL : z ∈ L := by rw [hL]; simp
    have := wf_off_node hwf hy (wf_listed hwf hzL).1 (x := y + i) (by omega) (by omega)
    omega

/-- The header stores of `myfree` at `hdr` do not reach another walked header. -/
theorem store_hdr_other {s : Heap} {L : List Nat} (_hwf : well_formed s L) {hdr y : Nat}
    (hmem : hdr ∈ walk s.mem s.num_header.toNat s.segment_start)
    (hy : y ∈ walk s.mem s.num_header.toNat s.segment_start) (hne : y ≠ hdr) (m : Mem)
    (v : Nat) : load64 (store64 m hdr v) y = load64 m y := by
  apply load64_store64_ne
  rcases walk_disjoint _ _ _ y hdr hy hmem hne with h | h <;>
    simp only [HEADER_SIZE] at h <;> omega


theorem add_to_beg_prev_start (sa : Heap) (hdr : Nat) (h0 : sa.start ≠ 0) (hh : hdr < WORD) :
    node_prev (add_to_beg sa hdr).mem sa.start = hdr := by
  unfold add_to_beg
  rw [if_neg h0]
  simp only [node_prev, set_prev]
  exact load64_store64_same _ _ _ hh

/-- After `add_to_beg` of the block being freed, the `nxt` field of its free right
neighbour `R` is the one found in the well-formed state `s`. -/
theorem add_to_beg_nxt_neighbour {s : Heap} {L : List Nat} (hwf : well_formed s L) (sa : Heap)
    (hst : sa.start = s.start) {hdr R : Nat}
    (hagree : ∀ x, hdr + 8 ≤ x → sa.mem x = s.mem x)
    (hmem : hdr ∈ walk s.mem s.num_header.toNat s.segment_start)
    (hR : R ∈ walk s.mem s.num_header.toNat s.segment_start) (hgt : hdr + 24 ≤ R) :
    node_nxt (add_to_beg sa hdr).mem (R + 8) = node_nxt s.mem (R + 8) := by
  have hb := wf_block hwf hmem
  have hbR := wf_block hwf hR
  unfold node_nxt
  rw [wrap_of_lt (by omega)]
  apply load64_congr
  intro i hi
  rw [add_to_beg_mem_out sa hdr _ (by omega) (by omega), hagree _ (by omega)]
  intro h0
  rw [hst] at h0 ⊢
  obtain ⟨z, r, hL, hz⟩ := wf_start hwf h0
  have hzL : z ∈ L := by rw [hL]; simp
  have hzW := (wf_listed hwf hzL).1
  have hbz := wf_block hwf hzW
  by_cases hzR : z = R
  · omega
  · rcases walk_disjoint _ _ _ z R hzW hR hzR with h | h <;>
      simp only [HEADER_SIZE] at h <;> omega

/-- After `add_to_beg` of the block being freed, the `prev` field of its free right
neighbour `R` names a walked block. -/
theorem add_to_beg_prev_neighbour {s : Heap} {L : List Nat} (hwf : well_formed s L) (sa : Heap)
    (hst : sa.start = s.start) {hdr R : Nat}
    (hagree : ∀ x, hdr + 8 ≤ x → sa.mem x = s.mem x)
    (hmem : hdr ∈ walk s.mem s.num_header.toNat s.segment_start)
    (hR : R ∈ walk s.mem s.num_header.toNat s.segment_start) (hRL : R ∈ L)
    (hgt : hdr + 24 ≤ R) :
    node_prev (add_to_beg sa hdr).mem (R + 8)
      ∈ walk s.mem s.num_header.toNat s.segment_start := by
  have hb := wf_block hwf hmem
  have hbR := wf_block hwf hR
  have h0 : s.start ≠ 0 := by
    have hh := hwf.2.2.2.2.1
    cases L with
    | nil => simp at hRL
    | cons z r => rw [hh]; simp [HEADER_SIZE]
  obtain ⟨z, r, hL, hz⟩ := wf_start hwf h0
  have hzL : z ∈ L := by rw [hL]; simp
  have hzW := (wf_listed hwf hzL).1
  have hbz := wf_block hwf hzW
  by_cases hzR : z = R
  · have : node_prev (add_to_beg sa hdr).mem sa.start = hdr :=
      add_to_beg_prev_start sa hdr (by rw [hst]; exact h0) (by omega)
    rw [hst, hz, hzR] at this
    rw [this]
    exact hmem
  · have hRr : R ∈ r := by
      rw [hL, List.mem_cons] at hRL
      rcases hRL with h | h
      · exact absurd h.symm hzR
      · exact h
    have hc : chain s.mem 0 (z :: r) := hL ▸ hwf.2.2.2.2.2.1
    rw [chain] at hc
    have hp : node_prev s.mem (R + 8) ∈ L := by
      rw [hL]
      rcases chain_prev s.mem r z R hc.2.2 hRr with h | h
      · simp only [HEADER_SIZE] at h; rw [h]; simp
      · simp only [HEADER_SIZE] at h; exact List.mem_cons_of_mem _ h
    have heq : node_prev (add_to_beg sa hdr).mem (R + 8) = node_prev s.mem (R + 8) := by
      unfold node_prev
      apply load64_congr
      intro i hi
      rw [add_to_beg_mem_out sa hdr _ (by omega) (by omega), hagree _ (by omega)]
      intro _
      rw [hst, hz]
      rcases walk_disjoint _ _ _ z R hzW hR hzR with h | h <;>
        simp only [HEADER_SIZE] at h <;> omega
    rw [heq]
    exact (wf_listed hwf hp).1


/-- In a well-formed state, `coalesce` of the block being freed with its free right
neighbour `R`, run after `add_to_beg`, leaves every walked header as it found it. -/
theorem coalesce_header {s : Heap} {L : List Nat} (hwf : well_formed s L) (sa : Heap)
    (hst : sa.start = s.start) {hdr R y : Nat}
    (hagree : ∀ x, hdr + 8 ≤ x → sa.mem x = s.mem x)
    (hmem : hdr ∈ walk s.mem s.num_header.toNat s.segment_start)
    (hR : R ∈ walk s.mem s.num_header.toNat s.segment_start) (hRL : R ∈ L)
    (hgt : hdr + 24 ≤ R)
    (hy : y ∈ walk s.mem s.num_header.toNat s.segment_start) :
    load64 (coalesce (add_to_beg sa hdr) hdr R).mem y = load64 (add_to_beg sa hdr).mem y := by
  have hb := wf_block hwf hmem
  have hbR := wf_block hwf hR
  have hpW := add_to_beg_prev_neighbour hwf sa hst hagree hmem hR hRL hgt
  have hbp := wf_block hwf hpW
  have hnx := add_to_beg_nxt_neighbour hwf sa hst hagree hmem hR hgt
  have hnz : ∀ z ∈ L, z ≠ 0 := fun z hz => by
    have := wf_block hwf (wf_listed hwf hz).1
    omega
  have hn0 := chain_nxt s.mem L 0 R hwf.2.2.2.2.2.1 hRL
  have hnne := chain_nxt_ne s.mem L 0 R hwf.2.2.2.2.2.1 hwf.2.2.2.2.2.2.1 hnz hRL
  simp only [HEADER_SIZE] at hn0 hnne
  have hnW : node_nxt s.mem (R + 8) ≠ 0 →
      node_nxt s.mem (R + 8) ∈ walk s.mem s.num_header.toNat s.segment_start := by
    intro h
    rcases hn0 with h' | h'
    · exact absurd h' h
    · exact (wf_listed hwf h').1
  apply load64_congr
  intro i hi
  apply coalesce_mem_out (add_to_beg sa hdr) hdr R (y + i) (by omega) (by omega) (by omega)
  · rw [hnx]
    by_cases h : node_nxt s.mem (R + 8) = 0
    · rw [h]; simp [WORD]
    · have := wf_block hwf (hnW h)
      omega
  · rw [hnx]
    intro h
    have hbn := wf_block hwf (hnW h)
    rcases walk_disjoint _ _ _ _ R (hnW h) hR hnne with h' | h' <;>
      simp only [HEADER_SIZE] at h' <;> omega
  · rw [hnx]
    intro h
    have := wf_off_node hwf hy (hnW h) (x := y + i) (by omega) (by omega)
    omega
  · have := wf_off_node hwf hy hmem (x := y + i) (by omega) (by omega)
    omega
  · have := wf_off_node hwf hy hpW (x := y + i) (by omega) (by omega)
    omega

theorem add_to_beg_header_upd {s : Heap} {L : List Nat} (hwf : well_formed s L) (m : Mem)
    (nb : Nat) (nh : Int) {hdr y : Nat}
    (hmem : hdr ∈ walk s.mem s.num_header.toNat s.segment_start)
    (hy : y ∈ walk s.mem s.num_header.toNat s.segment_start) :
    load64 (add_to_beg { s with mem := m, nbytes_inuse := nb, num_header := nh } hdr).mem y
      = load64 m y :=
  add_to_beg_header hwf { s with mem := m, nbytes_inuse := nb, num_header := nh } rfl hmem hy

theorem coalesce_header_upd {s : Heap} {L : List Nat} (hwf : well_formed s L) (m : Mem)
    (nb : Nat) (nh : Int) {hdr R y : Nat}
    (hagree : ∀ x, hdr + 8 ≤ x → m x = s.mem x)
    (hmem : hdr ∈ walk s.mem s.num_header.toNat s.segment_start)
    (hR : R ∈ walk s.mem s.num_header.toNat s.segment_start) (hRL : R ∈ L)
    (hgt : hdr + 24 ≤ R)
    (hy : y ∈ walk s.mem s.num_header.toNat s.segment_start) :
    load64 (coalesce (add_to_beg { s with mem := m, nbytes_inuse := nb, num_header := nh } hdr)
        hdr R).mem y
      = load64 (add_to_beg { s with mem := m, nbytes_inuse := nb, num_header := nh } hdr).mem y :=
  coalesce_header hwf { s with mem := m, nbytes_inuse := nb, num_header := nh } rfl hagree hmem
    hR hRL hgt hy

/-- Effect of `myfree` on the walked headers of a well-formed state: the header of the freed
block becomes its true size when the right neighbour `R` is in use, and grows by
`HEADER_SIZE` plus the header of `R` when `R` is free, with the block count lowered by one;
every other walked header keeps its word. -/
theorem myfree_headers {s : Heap} {L : List Nat} (hwf : well_formed s L) {hdr : Nat}
    (hmem : hdr ∈ walk s.mem s.num_header.toNat s.segment_start)
    (hused : is_used (load64 s.mem hdr) = true)
    (hR : hdr + 8 + true_size (load64 s.mem hdr)
      ∈ walk s.mem s.num_header.toNat s.segment_start) :
    (∀ y ∈ walk s.mem s.num_header.toNat s.segment_start, y ≠ hdr →
        load64 (myfree s (hdr + 8)).mem y = load64 s.mem y)
    ∧ (is_used (load64 s.mem (hdr + 8 + true_size (load64 s.mem hdr))) = true →
        load64 (myfree s (hdr + 8)).mem hdr = true_size (load64 s.mem hdr)
        ∧ (myfree s (hdr + 8)).num_header = s.num_header)
    ∧ (is_used (load64 s.mem (hdr + 8 + true_size (load64 s.mem hdr))) = false →
        load64 (myfree s (hdr + 8)).mem hdr
          = true_size (load64 s.mem hdr) + 8
            + load64 s.mem (hdr + 8 + true_size (load64 s.mem hdr))
        ∧ (myfree s (hdr + 8)).num_header = s.num_header - 1) := by
  have hb := wf_block hwf hmem
  have hbR := wf_block hwf hR
  have hlR := load64_lt s.mem (hdr + 8 + true_size (load64 s.mem hdr))
  by_cases hRu : is_used (load64 s.mem (hdr + 8 + true_size (load64 s.mem hdr))) = true
  · rw [myfree_eq_of_used hwf hmem hused hR hRu]
    refine ⟨fun y hy hne => ?_, fun _ => ⟨?_, ?_⟩, fun h => ?_⟩
    · rw [add_to_beg_header_upd hwf _ _ _ hmem hy]
      exact store_hdr_other hwf hmem hy hne _ _
    · rw [add_to_beg_header_upd hwf _ _ _ hmem hmem]
      exact load64_store64_same _ _ _ (by omega)
    · rw [add_to_beg_num_header]
    · rw [hRu] at h; exact absurd h (by simp)
  · have hRf : is_used (load64 s.mem (hdr + 8 + true_size (load64 s.mem hdr))) = false := by
      simpa using hRu
    have hRL : hdr + 8 + true_size (load64 s.mem hdr) ∈ L :=
      hwf.2.2.2.2.2.2.2.1 _ (mem_free_blocks.2 ⟨hR, hRf⟩)
    have htR := true_size_of_free (h := load64 s.mem (hdr + 8 + true_size (load64 s.mem hdr)))
      (by simpa [is_used] using hRf)
    rw [myfree_eq_of_free hwf hmem hused hR hRf]
    have hagree : ∀ x, hdr + 8 ≤ x →
        (store64 (store64 s.mem hdr (true_size (load64 s.mem hdr))) hdr
          (true_size (load64 s.mem hdr) + (8 +
            load64 s.mem (hdr + 8 + true_size (load64 s.mem hdr))))) x = s.mem x := by
      intro x hx
      rw [store64_out _ _ _ _ (by omega), store64_out _ _ _ _ (by omega)]
    refine ⟨fun y hy hne => ?_, fun h => ?_, fun _ => ⟨?_, ?_⟩⟩
    · rw [coalesce_header_upd hwf _ _ _ hagree hmem hR hRL (by omega) hy,
        add_to_beg_header_upd hwf _ _ _ hmem hy]
      rw [store_hdr_other hwf hmem hy hne, store_hdr_other hwf hmem hy hne]
    · exact absurd h hRu
    · rw [coalesce_header_upd hwf _ _ _ hagree hmem hR hRL (by omega) hmem,
        add_to_beg_header_upd hwf _ _ _ hmem hmem]
      rw [load64_store64_same _ _ _ (by omega)]
      omega
    · rw [coalesce_num_header, add_to_beg_num_header]

end Explicit

/-! ## Free-list surgery: links of a chain under stores -/

namespace Explicit

/-- The chain predicate depends only on the link fields of the listed nodes. -/
theorem chain_congr (m m' : Mem) (L : List Nat) : ∀ (pv : Nat),
    (∀ x ∈ L, node_prev m' (x + 8) = node_prev m (x + 8)
      ∧ node_nxt m' (x + 8) = node_nxt m (x + 8)) →
    chain m pv L → chain m' pv L := by
  induction L with
  | nil => intro _ _ _; trivial
  | cons a r ih =>
    intro pv h hc
    rw [chain] at hc ⊢
    simp only [HEADER_SIZE] at hc ⊢
    have ha := h a (List.mem_cons_self _ _)
    exact ⟨ha.1.trans hc.1, ha.2.trans hc.2.1,
      ih a (fun x hx => h x (List.mem_cons_of_mem _ hx)) hc.2.2⟩

/-- Replacing the `prev` field of the first node re-anchors a chain. -/
theorem chain_head_prev (m m' : Mem) (a : Nat) (r : List Nat) (pv v : Nat)
    (ha : node_prev m' (a + 8) = v ∧ node_nxt m' (a + 8) = node_nxt m (a + 8))
    (hr : ∀ x ∈ r, node_prev m' (x + 8) = node_prev m (x + 8)
      ∧ node_nxt m' (x + 8) = node_nxt m (x + 8))
    (hc : chain m pv (a :: r)) : chain m' v (a :: r) := by
  rw [chain] at hc ⊢
  simp only [HEADER_SIZE] at hc ⊢
  exact ⟨ha.1, ha.2.trans hc.2.1, chain_congr m m' r a hr hc.2.2⟩

/-- Unlinking the member `R`: when the memory `m'` differs from `m` on the listed nodes
only in that the successor of `R` takes over the `prev` field of `R` and the predecessor of
`R` takes over its `nxt` field, `m'` links the list with `R` erased. -/
theorem chain_erase (m m' : Mem) (R pR nR : Nat)
    (hpR : node_prev m (R + 8) = pR) (hnR : node_nxt m (R + 8) = nR) (L : List Nat) :
    ∀ (pv : Nat), chain m pv L → L.Nodup → R ∈ L → pv ∉ L →
      (∀ x ∈ L, x ≠ 0) →
      (∀ x ∈ L, x ≠ R →
        node_prev m' (x + 8) = (if x = nR then pR else node_prev m (x + 8))
        ∧ node_nxt m' (x + 8) = (if x = pR then nR else node_nxt m (x + 8))) →
      chain m' pv (L.erase R) := by
  induction L with
  | nil => intro _ _ _ hR; simp at hR
  | cons a r ih0 =>
    intro pv hc hnd hR hpv hnz hf
    rw [chain] at hc
    simp only [HEADER_SIZE] at hc
    rw [List.nodup_cons] at hnd
    by_cases haR : a = R
    · subst haR
      rw [List.erase_cons_head]
      have hp : pR = pv := by rw [← hpR]; exact hc.1
      cases r with
      | nil => trivial
      | cons b r' =>
        have hn : nR = b := by rw [← hnR, hc.2.1]; rfl
        have hcb := hc.2.2
        have hbne : b ≠ a := fun h => hnd.1 (by rw [← h]; exact List.mem_cons_self _ _)
        have hb := hf b (by simp) hbne
        have hbpv : b ≠ pR := by
          rw [hp]; intro h; exact hpv (by rw [← h]; simp)
        rw [if_pos hn.symm, if_neg hbpv] at hb
        refine chain_head_prev m m' b r' a pv ⟨by rw [hb.1, hp], hb.2⟩ ?_ hcb
        intro x hx
        have hxne : x ≠ a := fun h => hnd.1 (by rw [← h]; exact List.mem_cons_of_mem _ hx)
        have hxb : x ≠ nR := by
          rw [hn]; intro h
          have := (List.nodup_cons.1 hnd.2).1
          exact this (by rw [← h]; exact hx)
        have hxp : x ≠ pR := by
          rw [hp]; intro h; exact hpv (by rw [← h]; simp [hx])
        have := hf x (by simp [hx]) hxne
        rw [if_neg hxb, if_neg hxp] at this
        exact this
    · have hRr : R ∈ r := by
        rcases List.mem_cons.1 hR with h | h
        · exact absurd h.symm haR
        · exact h
      rw [List.erase_cons_tail (by simpa using haR)]
      have hnRr : nR = 0 ∨ nR ∈ r := by
        have := chain_nxt m r a R hc.2.2 hRr
        simp only [HEADER_SIZE] at this
        rwa [hnR] at this
      have ha_nR : a ≠ nR := by
        intro h
        rcases hnRr with h0 | h0
        · exact hnz a (by simp) (h.trans h0)
        · exact hnd.1 (by rw [h]; exact h0)
      have hfa := hf a (by simp) haR
      rw [if_neg ha_nR] at hfa
      have ih := ih0 a hc.2.2 hnd.2 hRr hnd.1
        (fun x hx => hnz x (List.mem_cons_of_mem _ hx))
        (fun x hx hne => hf x (List.mem_cons_of_mem _ hx) hne)
      rw [chain]
      simp only [HEADER_SIZE]
      refine ⟨by rw [hfa.1]; exact hc.1, ?_, ih⟩
      cases r with
      | nil => simp at hRr
      | cons b r'' =>
        have hcb := hc.2.2
        rw [chain] at hcb
        simp only [HEADER_SIZE] at hcb
        by_cases hbR : b = R
        · subst hbR
          have : pR = a := by rw [← hpR]; exact hcb.1
          rw [hfa.2, if_pos this.symm, List.erase_cons_head, ← hnR, hcb.2.1]
        · have hpRr : pR = b ∨ pR ∈ r'' := by
            have hR'' : R ∈ r'' := by
              rcases List.mem_cons.1 hRr with h | h
              · exact absurd h.symm hbR
              · exact h
            have := chain_prev m r'' b R hcb.2.2 hR''
            simp only [HEADER_SIZE] at this
            rwa [hpR] at this
          have ha_pR : a ≠ pR := by
            intro h
            rcases hpRr with h0 | h0
            · exact hnd.1 (by rw [h, h0]; simp)
            · exact hnd.1 (by rw [h]; exact List.mem_cons_of_mem _ h0)
          rw [hfa.2, if_neg ha_pR, hc.2.1, List.erase_cons_tail (by simpa using hbR)]
          rfl

theorem node_prev_store_out (m : Mem) (a v x : Nat) (h : a ≤ x ∨ x + 16 ≤ a) :
    node_prev (store64 m a v) (x + 8) = node_prev m (x + 8) := by
  unfold node_prev
  exact load64_store64_ne _ _ _ _ (by omega)

theorem node_nxt_store_out (m : Mem) (a v x : Nat) (hx : x + 24 ≤ WORD)
    (h : a ≤ x + 8 ∨ x + 24 ≤ a) :
    node_nxt (store64 m a v) (x + 8) = node_nxt m (x + 8) := by
  unfold node_nxt
  rw [wrap_of_lt (by omega)]
  exact load64_store64_ne _ _ _ _ (by omega)

theorem node_prev_store_same (m : Mem) (v x : Nat) (hv : v < WORD) :
    node_prev (store64 m (x + 8) v) (x + 8) = v := by
  unfold node_prev
  exact load64_store64_same _ _ _ hv

theorem node_nxt_store_same (m : Mem) (v x : Nat) (hx : x + 24 ≤ WORD) (hv : v < WORD) :
    node_nxt (store64 m (x + 16) v) (x + 8) = v := by
  unfold node_nxt
  rw [wrap_of_lt (by omega)]
  exact load64_store64_same _ _ _ hv

/-- Normal form of `add_to_beg` for a header whose node lies below `2 ^ 64`. -/
theorem add_to_beg_eq (s : Heap) (hdr : Nat) (hh : hdr + 24 ≤ WORD) :
    add_to_beg s hdr =
      if s.start = 0 then
        { s with start := hdr + 8, mem := store64 (store64 s.mem (hdr + 8) 0) (hdr + 16) 0 }
      else
        { s with mem := store64 (store64 (store64 s.mem (hdr + 16) (sub64 s.start 8))
                          (hdr + 8) 0) s.start hdr,
                 start := hdr + 8 } := by
  have w1 : wrap (hdr + 8) = hdr + 8 := wrap_of_lt (by omega)
  have w2 : wrap (hdr + 8 + 8) = hdr + 16 := by rw [wrap_of_lt (by omega)]
  unfold add_to_beg
  simp only [HEADER_SIZE, set_prev, set_nxt, w1, w2]

theorem apart_mem {L : List Nat} (h : nodes_apart L) {x : Nat} (hx : x ∈ L) :
    0 < x ∧ x + 24 ≤ WORD := h.1 x hx

theorem apart_ne {L : List Nat} (h : nodes_apart L) {x y : Nat} (hx : x ∈ L) (hy : y ∈ L)
    (hne : x ≠ y) : x + 16 ≤ y ∨ y + 16 ≤ x :=
  h.2.forall (fun _ _ hab => hab.symm) hx hy hne

theorem apart_nodup {L : List Nat} (h : nodes_apart L) : L.Nodup := by
  unfold List.Nodup
  exact h.2.imp (fun hab heq => by omega)

theorem apart_tail {a : Nat} {L : List Nat} (h : nodes_apart (a :: L)) : nodes_apart L :=
  ⟨fun x hx => h.1 x (List.mem_cons_of_mem _ hx), (List.pairwise_cons.1 h.2).2⟩

/-- Effect of a store into the `prev` field of the member `N` on the links of the other
members. -/
theorem store_prev_fields {L : List Nat} (hap : nodes_apart L) (m : Mem) {N y : Nat} (v : Nat)
    (hN : N ∈ L) (hy : y ∈ L) (hv : v < WORD) :
    node_prev (store64 m (N + 8) v) (y + 8) = (if y = N then v else node_prev m (y + 8))
    ∧ node_nxt (store64 m (N + 8) v) (y + 8) = node_nxt m (y + 8) := by
  have hby := apart_mem hap hy
  by_cases h : y = N
  · subst h
    rw [if_pos rfl]
    exact ⟨node_prev_store_same _ _ _ hv, node_nxt_store_out _ _ _ _ hby.2 (by omega)⟩
  · rw [if_neg h]
    have := apart_ne hap hy hN h
    exact ⟨node_prev_store_out _ _ _ _ (by omega), node_nxt_store_out _ _ _ _ hby.2 (by omega)⟩

/-- Effect of a store into the `nxt` field of the member `P` on the links of the other
members. -/
theorem store_nxt_fields {L : List Nat} (hap : nodes_apart L) (m : Mem) {P y : Nat} (v : Nat)
    (hP : P ∈ L) (hy : y ∈ L) (hv : v < WORD) :
    node_prev (store64 m (P + 16) v) (y + 8) = node_prev m (y + 8)
    ∧ node_nxt (store64 m (P + 16) v) (y + 8) = (if y = P then v else node_nxt m (y + 8)) := by
  have hby := apart_mem hap hy
  by_cases h : y = P
  · subst h
    rw [if_pos rfl]
    exact ⟨node_prev_store_out _ _ _ _ (by omega), node_nxt_store_same _ _ _ hby.2 hv⟩
  · rw [if_neg h]
    have := apart_ne hap hy hP h
    exact ⟨node_prev_store_out _ _ _ _ (by omega), node_nxt_store_out _ _ _ _ hby.2 (by omega)⟩

/-- In a chain anchored at a value outside the list, only the first member carries the
anchor in its `prev` field. -/
theorem chain_prev_anchor (m : Mem) (a : Nat) (r : List Nat) (pv x : Nat)
    (hc : chain m pv (a :: r)) (hpv : pv ∉ a :: r) (hx : x ∈ a :: r)
    (hp : node_prev m (x + 8) = pv) : x = a := by
  rcases List.mem_cons.1 hx with h | h
  · exact h
  · rw [chain] at hc
    exfalso
    apply hpv
    have := chain_prev m r a x hc.2.2 h
    simp only [HEADER_SIZE] at this
    rw [hp] at this
    rcases this with h' | h'
    · rw [h']; simp
    · exact List.mem_cons_of_mem _ h'


/-- Pushing the header `hdr` with `add_to_beg` onto a free list `L`: the new list is
`hdr :: L` and the head is the node of `hdr`. -/
theorem add_to_beg_chain (s : Heap) (L : List Nat) (hdr : Nat)
    (hap : nodes_apart (hdr :: L)) (hst : s.start = head_of L) (hc : chain s.mem 0 L) :
    chain (add_to_beg s hdr).mem 0 (hdr :: L) ∧ (add_to_beg s hdr).start = hdr + 8 := by
  have hb := apart_mem hap (List.mem_cons_self hdr L)
  have hW : (0 : Nat) < WORD := by unfold WORD; omega
  rw [add_to_beg_eq s hdr hb.2]
  cases L with
  | nil =>
    have h0 : s.start = 0 := hst
    rw [if_pos h0]
    refine ⟨?_, rfl⟩
    rw [chain]
    simp only [HEADER_SIZE, List.headD_nil, chain, and_true]
    exact ⟨by rw [node_prev_store_out _ _ _ _ (by omega)]; exact node_prev_store_same _ _ _ hW,
      node_nxt_store_same _ _ _ hb.2 hW⟩
  | cons a r =>
    have ha := apart_mem hap (List.mem_cons_of_mem hdr (List.mem_cons_self a r))
    have hst' : s.start = a + 8 := hst
    have hne : s.start ≠ 0 := by omega
    have hsub : sub64 (a + 8) 8 = a := by rw [sub64_of_le (by omega) (by omega)]; omega
    have hha := apart_ne hap (List.mem_cons_self hdr (a :: r))
      (List.mem_cons_of_mem hdr (List.mem_cons_self a r))
      (by
        intro h
        have := apart_nodup hap
        rw [List.nodup_cons] at this
        exact this.1 (by rw [h]; simp))
    rw [if_neg hne, hst', hsub]
    refine ⟨?_, rfl⟩
    rw [chain]
    simp only [HEADER_SIZE, List.headD_cons]
    refine ⟨?_, ?_, ?_⟩
    · rw [node_prev_store_out _ _ _ _ (by omega)]
      exact node_prev_store_same _ _ _ hW
    · rw [node_nxt_store_out _ _ _ _ hb.2 (by omega),
        node_nxt_store_out _ _ _ _ hb.2 (by omega)]
      exact node_nxt_store_same _ _ _ hb.2 (by omega)
    · have hapL := apart_tail hap
      refine chain_head_prev s.mem _ a r 0 hdr ⟨node_prev_store_same _ _ _ (by omega), ?_⟩ ?_ hc
      · rw [node_nxt_store_out _ _ _ _ ha.2 (by omega),
          node_nxt_store_out _ _ _ _ ha.2 (by omega),
          node_nxt_store_out _ _ _ _ ha.2 (by omega)]
      · intro x hx
        have hxL : x ∈ a :: r := List.mem_cons_of_mem _ hx
        have hbx := apart_mem hapL hxL
        have hxa : x ≠ a := by
          intro h
          have := apart_nodup hapL
          rw [List.nodup_cons] at this
          exact this.1 (by rw [← h]; exact hx)
        have h1 := apart_ne hapL hxL (List.mem_cons_self a r) hxa
        have hxh : x ≠ hdr := by
          intro h
          have := apart_nodup hap
          rw [List.nodup_cons] at this
          exact this.1 (by rw [← h]; exact hxL)
        have h2 := apart_ne hap (List.mem_cons_of_mem hdr hxL) (List.mem_cons_self hdr _) hxh
        refine ⟨?_, ?_⟩
        · rw [node_prev_store_out _ _ _ _ (by omega), node_prev_store_out _ _ _ _ (by omega),
            node_prev_store_out _ _ _ _ (by omega)]
        · rw [node_nxt_store_out _ _ _ _ hbx.2 (by omega),
            node_nxt_store_out _ _ _ _ hbx.2 (by omega),
            node_nxt_store_out _ _ _ _ hbx.2 (by omega)]


theorem head_of_cons (a : Nat) (r : List Nat) : head_of (a :: r) = a + 8 := rfl

/-- The member whose `nxt` field is null is the last one: the first member of a chain with a
null `nxt` field has no successor. -/
theorem chain_head_nxt (m : Mem) (a : Nat) (r : List Nat) (pv : Nat)
    (hc : chain m pv (a :: r)) : node_nxt m (a + 8) = r.headD 0 := by
  rw [chain] at hc
  exact hc.2.1

/-- Unlinking the member `x` of a free list with `remove_node`: the list becomes `L` with `x`
erased, the other members keeping their order, and the head follows. -/
theorem remove_node_chain (s : Heap) (L : List Nat) (x : Nat)
    (hap : nodes_apart L) (hst : s.start = head_of L) (hc : chain s.mem 0 L) (hx : x ∈ L) :
    chain (remove_node s (x + 8)).mem 0 (L.erase x)
    ∧ (remove_node s (x + 8)).start = head_of (L.erase x) := by
  have hnd := apart_nodup hap
  have hnz : ∀ y ∈ L, y ≠ 0 := fun y hy => by have := apart_mem hap hy; omega
  have h0L : (0 : Nat) ∉ L := fun h => hnz 0 h rfl
  have hW : (0 : Nat) < WORD := by unfold WORD; omega
  have hPL := chain_prev s.mem L 0 x hc hx
  have hNL := chain_nxt s.mem L 0 x hc hx
  simp only [HEADER_SIZE] at hPL hNL
  have hPb : node_prev s.mem (x + 8) + 24 ≤ WORD := by
    rcases hPL with h | h
    · rw [h]; unfold WORD; omega
    · exact (apart_mem hap h).2
  have hNb : node_nxt s.mem (x + 8) + 24 ≤ WORD := by
    rcases hNL with h | h
    · rw [h]; unfold WORD; omega
    · exact (apart_mem hap h).2
  have w1 : wrap (node_nxt s.mem (x + 8) + 8) = node_nxt s.mem (x + 8) + 8 :=
    wrap_of_lt (by omega)
  have w2 : wrap (node_prev s.mem (x + 8) + 8) = node_prev s.mem (x + 8) + 8 :=
    wrap_of_lt (by omega)
  have w3 : wrap (node_prev s.mem (x + 8) + 8 + 8) = node_prev s.mem (x + 8) + 16 := by
    rw [wrap_of_lt (by omega)]
  -- position of `x` decided by its `prev` field
  have hhead : node_prev s.mem (x + 8) = 0 → ∃ r, L = x :: r := by
    intro hp
    cases L with
    | nil => simp at hx
    | cons a r =>
      have := chain_prev_anchor s.mem a r 0 x hc h0L hx hp
      exact ⟨r, by rw [this]⟩
  have hnothead : node_prev s.mem (x + 8) ≠ 0 → ∃ a r, L = a :: r ∧ a ≠ x := by
    intro hp
    cases L with
    | nil => simp at hx
    | cons a r =>
      refine ⟨a, r, rfl, ?_⟩
      intro h
      rw [chain] at hc
      apply hp
      rw [← h]
      exact hc.1
  unfold remove_node
  simp only [HEADER_SIZE, set_prev, set_nxt, w1, w2, w3]
  split_ifs with c1 c2 c3
  · -- only member
    obtain ⟨r, hL⟩ := hhead c1.1
    subst hL
    have hr : r = [] := by
      have := chain_head_nxt s.mem x r 0 hc
      rw [c1.2] at this
      cases r with
      | nil => rfl
      | cons b r' => exact absurd this.symm (hnz b (by simp))
    subst hr
    rw [List.erase_cons_head]
    exact ⟨trivial, rfl⟩
  · -- first member
    obtain ⟨r, hL⟩ := hhead c2
    subst hL
    have hN0 : node_nxt s.mem (x + 8) ≠ 0 := fun h => c1 ⟨c2, h⟩
    have hNr := chain_head_nxt s.mem x r 0 hc
    rw [List.erase_cons_head]
    cases r with
    | nil => exact absurd hNr hN0
    | cons b r' =>
      have hNb' : node_nxt s.mem (x + 8) = b := hNr
      rw [hNb']
      refine ⟨?_, rfl⟩
      have hcb : chain s.mem x (b :: r') := by rw [chain] at hc; exact hc.2.2
      have hapb := apart_tail hap
      have hbm : b ∈ b :: r' := List.mem_cons_self _ _
      refine chain_head_prev s.mem _ b r' x 0 ?_ ?_ hcb
      · have := store_prev_fields hapb s.mem 0 hbm hbm hW
        rw [if_pos rfl] at this
        exact this
      · intro y hy
        have hyb : y ≠ b := by
          intro h
          have := apart_nodup hapb
          rw [List.nodup_cons] at this
          exact this.1 (by rw [← h]; exact hy)
        have := store_prev_fields hapb s.mem 0 hbm (List.mem_cons_of_mem _ hy) hW
        rw [if_neg hyb] at this
        exact this
  · -- last member, not the first
    obtain ⟨a, r, hL, hax⟩ := hnothead c2
    have hP : node_prev s.mem (x + 8) ∈ L := by
      rcases hPL with h | h
      · exact absurd h c2
      · exact h
    refine ⟨?_, ?_⟩
    · refine chain_erase s.mem _ x (node_prev s.mem (x + 8)) 0 rfl c3 L 0 hc hnd hx h0L hnz ?_
      intro y hy _
      have := store_nxt_fields hap s.mem 0 hP hy hW
      rw [if_neg (hnz y hy)]
      exact this
    · show s.start = head_of (L.erase x)
      rw [hst, hL, List.erase_cons_tail (by simpa using hax)]
      rfl
  · -- middle member
    obtain ⟨a, r, hL, hax⟩ := hnothead c2
    have hP : node_prev s.mem (x + 8) ∈ L := by
      rcases hPL with h | h
      · exact absurd h c2
      · exact h
    have hN : node_nxt s.mem (x + 8) ∈ L := by
      rcases hNL with h | h
      · exact absurd h c3
      · exact h
    have hPlt : node_prev s.mem (x + 8) < WORD := by omega
    have hNlt : node_nxt s.mem (x + 8) < WORD := by omega
    have hkeep : node_prev (store64 s.mem (node_prev s.mem (x + 8) + 16)
        (node_nxt s.mem (x + 8))) (x + 8) = node_prev s.mem (x + 8) :=
      (store_nxt_fields hap s.mem _ hP hx hNlt).1
    rw [hkeep]
    refine ⟨?_, ?_⟩
    · refine chain_erase s.mem _ x (node_prev s.mem (x + 8)) (node_nxt s.mem (x + 8)) rfl rfl
        L 0 hc hnd hx h0L hnz ?_
      intro y hy _
      have h1 := store_nxt_fields hap s.mem (node_nxt s.mem (x + 8)) hP hy hNlt
      have h2 := store_prev_fields hap
        (store64 s.mem (node_prev s.mem (x + 8) + 16) (node_nxt s.mem (x + 8)))
        (node_prev s.mem (x + 8)) hN hy hPlt
      exact ⟨by rw [h2.1, h1.1], by rw [h2.2, h1.2]⟩
    · show s.start = head_of (L.erase x)
      rw [hst, hL, List.erase_cons_tail (by simpa using hax)]
      rfl


/-- Unlinking the absorbed neighbour `R` with `coalesce` from a free list headed by the
block `hdr` that absorbs it: the list keeps its head and loses `R`, the other members
keeping their order. -/
theorem coalesce_chain (s : Heap) (L : List Nat) (hdr R : Nat)
    (hap : nodes_apart (hdr :: L)) (hst : s.start = hdr + 8)
    (hc : chain s.mem 0 (hdr :: L)) (hR : R ∈ L) :
    chain (coalesce s hdr R).mem 0 (hdr :: L.erase R)
    ∧ (coalesce s hdr R).start = hdr + 8 := by
  have hnd := apart_nodup hap
  have hnd' := List.nodup_cons.1 hnd
  have hRm : R ∈ hdr :: L := List.mem_cons_of_mem _ hR
  have hRh : R ≠ hdr := fun h => hnd'.1 (by rw [← h]; exact hR)
  have hbh := apart_mem hap (List.mem_cons_self hdr L)
  have hbR := apart_mem hap hRm
  have hnz : ∀ y ∈ hdr :: L, y ≠ 0 := fun y hy => by have := apart_mem hap hy; omega
  have h0L : (0 : Nat) ∉ hdr :: L := fun h => hnz 0 h rfl
  have hcL : chain s.mem hdr L := by rw [chain] at hc; exact hc.2.2
  have hNL := chain_nxt s.mem L hdr R hcL hR
  simp only [HEADER_SIZE] at hNL
  have hP0 : node_prev s.mem (R + 8) ≠ 0 := by
    intro h
    exact hRh (chain_prev_anchor s.mem hdr L 0 R hc h0L hRm h)
  have hNh : node_nxt s.mem (R + 8) ≠ hdr := by
    intro h
    rcases hNL with h' | h'
    · omega
    · exact hnd'.1 (by rw [← h]; exact h')
  have herase : (hdr :: L).erase R = hdr :: L.erase R :=
    List.erase_cons_tail (by simpa using Ne.symm hRh)
  by_cases hPh : node_prev s.mem (R + 8) = hdr
  · -- `R` is the second member: the links are rewired in place
    have hNb : node_nxt s.mem (R + 8) + 24 ≤ WORD := by
      rcases hNL with h | h
      · rw [h]; unfold WORD; omega
      · exact (apart_mem hap (List.mem_cons_of_mem _ h)).2
    have wR : wrap (R + 8) = R + 8 := wrap_of_lt (by omega)
    have wh : wrap (hdr + 8) = hdr + 8 := wrap_of_lt (by omega)
    have wh2 : wrap (hdr + 8 + 8) = hdr + 16 := by rw [wrap_of_lt (by omega)]
    have wn : wrap (node_nxt s.mem (R + 8) + 8) = node_nxt s.mem (R + 8) + 8 :=
      wrap_of_lt (by omega)
    have hne : R + 8 ≠ s.start := by rw [hst]; omega
    have hfin : chain (store64
          (if node_nxt s.mem (R + 8) ≠ 0 then
            store64 s.mem (node_nxt s.mem (R + 8) + 8) hdr else s.mem)
          (hdr + 16) (node_nxt s.mem (R + 8))) 0 (hdr :: L.erase R) := by
      rw [← herase]
      refine chain_erase s.mem _ R hdr (node_nxt s.mem (R + 8)) hPh rfl (hdr :: L) 0 hc hnd
        hRm h0L hnz ?_
      intro y hy _
      have h2 := fun m => store_nxt_fields hap m (node_nxt s.mem (R + 8))
        (List.mem_cons_self hdr L) hy (by omega)
      by_cases hz : node_nxt s.mem (R + 8) = 0
      · rw [if_neg (by simpa using hz), hz, if_neg (hnz y hy)]
        have := h2 s.mem
        rw [hz] at this
        exact this
      · rw [if_pos hz]
        have hN : node_nxt s.mem (R + 8) ∈ hdr :: L := by
          rcases hNL with h | h
          · exact absurd h hz
          · exact List.mem_cons_of_mem _ h
        have h1 := store_prev_fields hap s.mem hdr hN hy (by omega)
        have h2' := h2 (store64 s.mem (node_nxt s.mem (R + 8) + 8) hdr)
        exact ⟨by rw [h2'.1, h1.1], by rw [h2'.2, h1.2]⟩
    unfold coalesce
    simp only [HEADER_SIZE, wR]
    rw [if_pos (Or.inr (Or.inl hPh)), if_neg hne]
    by_cases hz : node_nxt s.mem (R + 8) = 0
    · rw [if_neg (by simpa using hz)] at hfin
      simp only [hz, ne_eq, not_true_eq_false, if_false, wh, hPh, if_true, set_nxt, wh2]
      rw [hz] at hfin
      exact ⟨hfin, hst⟩
    · rw [if_pos hz] at hfin
      have hN : node_nxt s.mem (R + 8) ∈ hdr :: L := by
        rcases hNL with h | h
        · exact absurd h hz
        · exact List.mem_cons_of_mem _ h
      have hNR : node_nxt s.mem (R + 8) ≠ R := by
        have := chain_nxt_ne s.mem (hdr :: L) 0 R hc hnd hnz hRm
        simpa [HEADER_SIZE] using this
      have hf := store_prev_fields hap s.mem hdr hN hRm (by omega)
      rw [if_neg (Ne.symm hNR)] at hf
      simp only [hz, ne_eq, not_false_eq_true, if_true, wn, set_prev, hf.1, hPh, wh, set_nxt,
        wh2, hf.2]
      exact ⟨hfin, hst⟩
  · -- otherwise `coalesce` calls `remove_node`
    have wR : wrap (R + 8) = R + 8 := wrap_of_lt (by omega)
    have hcond : ¬ ((node_nxt s.mem (R + 8) = 0 ∧ node_prev s.mem (R + 8) = 0)
        ∨ node_prev s.mem (R + 8) = hdr ∨ node_nxt s.mem (R + 8) = hdr) := by
      rintro (h | h | h)
      · exact hP0 h.2
      · exact hPh h
      · exact hNh h
    unfold coalesce
    simp only [HEADER_SIZE, wR]
    rw [if_neg hcond]
    have := remove_node_chain s (hdr :: L) R hap (by rw [hst]; rfl) hc hRm
    rw [herase] at this
    exact this

end Explicit

/-! ## Freeing a block in a consistent state: the merged block and the free list -/

namespace Explicit

/-- A well-formed state is consistent. -/
theorem well_formed_consistent {s : Heap} {L : List Nat} (h : well_formed s L) :
    consistent s L := by
  obtain ⟨h1, h2, h3, h4, h5, h6, h7, h8, h9⟩ := h
  refine ⟨h1, h2, h3, fun x hx => h4 x (mem_free_blocks.1 hx).1, ?_, h6, h7, h8, h9⟩
  cases L <;> exact h5

/-- Bounds of a walked block of a consistent state. -/
theorem con_block {s : Heap} {L : List Nat} (hcon : consistent s L) {z : Nat}
    (hz : z ∈ walk s.mem s.num_header.toNat s.segment_start) :
    0 < z ∧ z + 8 + true_size (load64 s.mem z) ≤ WORD := by
  obtain ⟨hb, hr, ht, -⟩ := hcon
  have h1 := walk_ge _ _ _ _ hz
  have h2 := tiled_inside ht z hz
  simp only [HEADER_SIZE] at *
  omega

/-- The members of the free list of a consistent state are walked free blocks of at least
16 bytes. -/
theorem con_listed {s : Heap} {L : List Nat} (hcon : consistent s L) {z : Nat} (hz : z ∈ L) :
    z ∈ walk s.mem s.num_header.toNat s.segment_start ∧ is_used (load64 s.mem z) = false
    ∧ 16 ≤ true_size (load64 s.mem z) ∧ 0 < z ∧ z + 24 ≤ WORD := by
  have hf := hcon.2.2.2.2.2.2.2.2 z hz
  have hw := mem_free_blocks.1 hf
  have hs := hcon.2.2.2.1 z hf
  have hb := con_block hcon hw.1
  simp only [SIZEOF_LISTNODE] at hs
  exact ⟨hw.1, hw.2, hs, hb.1, by omega⟩

/-- The list nodes of a consistent state are usable together. -/
theorem con_apart {s : Heap} {L : List Nat} (hcon : consistent s L) : nodes_apart L := by
  refine ⟨fun x hx => ⟨(con_listed hcon hx).2.2.2.1, (con_listed hcon hx).2.2.2.2⟩, ?_⟩
  refine hcon.2.2.2.2.2.2.1.pairwise_of_forall_ne ?_
  intro a ha b hb hab
  have h1 := con_listed hcon ha
  have h2 := con_listed hcon hb
  rcases walk_disjoint _ _ _ a b h1.1 h2.1 hab with h | h <;>
    simp only [HEADER_SIZE] at h <;> omega

/-- In a consistent state the list node of a free block lies clear of any walked block
`y` that is not that free block: either wholly below its header or beyond the first
`8 + k` bytes of it, `k` being any number up to the true size of `y`. -/
theorem con_node_clear {s : Heap} {L : List Nat} (hcon : consistent s L) {y z : Nat}
    (hy : y ∈ walk s.mem s.num_header.toNat s.segment_start) (hz : z ∈ L) (hne : z ≠ y) :
    z + 24 ≤ y ∨ y + 8 + true_size (load64 s.mem y) ≤ z := by
  have h1 := con_listed hcon hz
  rcases walk_disjoint _ _ _ z y h1.1 hy hne with h | h <;>
    simp only [HEADER_SIZE] at h <;> omega


/-- Unfolding of `myfree` on an in-use block at `hdr` whose right neighbour has its in-use
flag clear, from the bounds of the two blocks alone. -/
theorem myfree_eq_free_core (s : Heap) (hdr : Nat) (h0 : 0 < hdr)
    (hused : is_used (load64 s.mem hdr) = true)
    (hRf : is_used (load64 s.mem (hdr + 8 + true_size (load64 s.mem hdr))) = false)
    (hb : hdr + 8 + true_size (load64 s.mem hdr) + 8
      + load64 s.mem (hdr + 8 + true_size (load64 s.mem hdr)) ≤ WORD) :
    myfree s (hdr + 8) =
      coalesce
        (add_to_beg
          { s with mem := store64 (store64 s.mem hdr (true_size (load64 s.mem hdr))) hdr
                            (true_size (load64 s.mem hdr) + (8 +
                              load64 s.mem (hdr + 8 + true_size (load64 s.mem hdr)))),
                   nbytes_inuse := sub64 s.nbytes_inuse (true_size (load64 s.mem hdr)),
                   num_header := s.num_header - 1 }
          hdr)
        hdr (hdr + 8 + true_size (load64 s.mem hdr)) := by
  have hl := load64_lt s.mem hdr
  simp only [is_used, decide_eq_true_eq, decide_eq_false_iff_not] at hused hRf
  have hts : true_size (load64 s.mem hdr) = load64 s.mem hdr - 1 := true_size_of_used hused
  have e1 : sub64 (hdr + 8) 8 = hdr := by rw [sub64_of_le (by omega) (by omega)]; omega
  have e2 : Nat.xor (load64 s.mem hdr) 1 = true_size (load64 s.mem hdr) := by
    rw [xor_one_eq, if_pos hused, hts]
  have e3 : load64 (store64 s.mem hdr (true_size (load64 s.mem hdr))) hdr
      = true_size (load64 s.mem hdr) := load64_store64_same _ _ _ (by omega)
  have e4 : wrap (hdr + true_size (load64 s.mem hdr) + 8)
      = hdr + 8 + true_size (load64 s.mem hdr) := by
    rw [wrap_of_lt (by omega)]; omega
  have e5 : load64 (store64 s.mem hdr (true_size (load64 s.mem hdr)))
      (hdr + 8 + true_size (load64 s.mem hdr))
      = load64 s.mem (hdr + 8 + true_size (load64 s.mem hdr)) :=
    load64_store64_ne _ _ _ _ (by omega)
  have e6 : wrap (true_size (load64 s.mem hdr) + (8 +
      load64 s.mem (hdr + 8 + true_size (load64 s.mem hdr))))
      = true_size (load64 s.mem hdr) + (8 +
        load64 s.mem (hdr + 8 + true_size (load64 s.mem hdr))) := by
    rw [wrap_of_lt (by omega)]
  unfold myfree
  rw [if_neg (by omega)]
  simp only [HEADER_SIZE, e1, e2, e3, e4, e5, e6, land_one]
  rw [if_pos (by omega)]

/-- Freeing an in-use block of at least 8 bytes whose right neighbour `R` is a free block of
a consistent state: the block absorbs `R`, the block count drops by one, and the free list
becomes the freed block followed by the former list without `R`. -/
theorem myfree_merge {s : Heap} {L : List Nat} (hcon : consistent s L) {hdr : Nat}
    (hmem : hdr ∈ walk s.mem s.num_header.toNat s.segment_start)
    (hused : is_used (load64 s.mem hdr) = true)
    (hsz : 8 ≤ true_size (load64 s.mem hdr))
    (hR : hdr + 8 + true_size (load64 s.mem hdr)
      ∈ walk s.mem s.num_header.toNat s.segment_start)
    (hRf : is_used (load64 s.mem (hdr + 8 + true_size (load64 s.mem hdr))) = false) :
    load64 (myfree s (hdr + 8)).mem hdr
        = true_size (load64 s.mem hdr) + 8
          + load64 s.mem (hdr + 8 + true_size (load64 s.mem hdr))
    ∧ (myfree s (hdr + 8)).num_header = s.num_header - 1
    ∧ chain (myfree s (hdr + 8)).mem 0
        (hdr :: L.erase (hdr + 8 + true_size (load64 s.mem hdr)))
    ∧ (myfree s (hdr + 8)).start = hdr + 8 := by
  have hb := con_block hcon hmem
  have hbR := con_block hcon hR
  have hRL : hdr + 8 + true_size (load64 s.mem hdr) ∈ L :=
    hcon.2.2.2.2.2.2.2.1 _ (mem_free_blocks.2 ⟨hR, hRf⟩)
  have hRl := con_listed hcon hRL
  have htR := true_size_of_free (h := load64 s.mem (hdr + 8 + true_size (load64 s.mem hdr)))
    (by simpa [is_used] using hRf)
  have hhL : hdr ∉ L := by
    intro h
    have := (con_listed hcon h).2.1
    rw [hused] at this
    exact absurd this (by simp)
  have hapL := con_apart hcon
  -- the nodes of `hdr :: L` are usable together
  have hap : nodes_apart (hdr :: L) := by
    refine ⟨?_, ?_⟩
    · intro x hx
      rcases List.mem_cons.1 hx with h | h
      · rw [h]; omega
      · exact apart_mem hapL h
    · rw [List.pairwise_cons]
      refine ⟨fun y hy => ?_, hapL.2⟩
      have hne : y ≠ hdr := fun h => hhL (by rw [← h]; exact hy)
      have := con_node_clear hcon hmem hy hne
      omega
  rw [myfree_eq_free_core s hdr hb.1 hused hRf (by omega)]
  -- the state handed to `add_to_beg`
  obtain ⟨sa, hsa⟩ : ∃ sa : Heap, sa =
      { s with mem := store64 (store64 s.mem hdr (true_size (load64 s.mem hdr))) hdr
                        (true_size (load64 s.mem hdr) + (8 +
                          load64 s.mem (hdr + 8 + true_size (load64 s.mem hdr)))),
               nbytes_inuse := sub64 s.nbytes_inuse (true_size (load64 s.mem hdr)),
               num_header := s.num_header - 1 } := ⟨_, rfl⟩
  rw [← hsa]
  have hsa_start : sa.start = head_of L := by rw [hsa]; exact hcon.2.2.2.2.1
  have hsa_num : sa.num_header = s.num_header - 1 := by rw [hsa]
  have hsa_hdr : load64 sa.mem hdr = true_size (load64 s.mem hdr) + 8
      + load64 s.mem (hdr + 8 + true_size (load64 s.mem hdr)) := by
    rw [hsa]
    show load64 (store64 _ hdr _) hdr = _
    rw [load64_store64_same _ _ _ (by omega)]
    omega
  have hsa_chain : chain sa.mem 0 L := by
    refine chain_congr s.mem sa.mem L 0 ?_ hcon.2.2.2.2.2.1
    intro y hy
    have hne : y ≠ hdr := fun h => hhL (by rw [← h]; exact hy)
    have hc := con_node_clear hcon hmem hy hne
    have hyb := apart_mem hapL hy
    rw [hsa]
    show node_prev (store64 (store64 s.mem hdr _) hdr _) (y + 8) = _
      ∧ node_nxt (store64 (store64 s.mem hdr _) hdr _) (y + 8) = _
    rw [node_prev_store_out _ _ _ _ (by omega), node_prev_store_out _ _ _ _ (by omega),
      node_nxt_store_out _ _ _ _ hyb.2 (by omega), node_nxt_store_out _ _ _ _ hyb.2 (by omega)]
    exact ⟨rfl, rfl⟩
  clear hsa
  have hpush := add_to_beg_chain sa L hdr hap hsa_start hsa_chain
  have hco := coalesce_chain (add_to_beg sa hdr) L hdr
    (hdr + 8 + true_size (load64 s.mem hdr)) hap hpush.2 hpush.1 hRL
  refine ⟨?_, ?_, hco.1, hco.2⟩
  · -- the header word of the freed block
    have hPm := chain_prev (add_to_beg sa hdr).mem (hdr :: L) 0
      (hdr + 8 + true_size (load64 s.mem hdr)) hpush.1 (List.mem_cons_of_mem _ hRL)
    have hNm := chain_nxt (add_to_beg sa hdr).mem (hdr :: L) 0
      (hdr + 8 + true_size (load64 s.mem hdr)) hpush.1 (List.mem_cons_of_mem _ hRL)
    simp only [HEADER_SIZE] at hPm hNm
    have hPm' : node_prev (add_to_beg sa hdr).mem (hdr + 8 + true_size (load64 s.mem hdr) + 8)
        ∈ hdr :: L := by
      rcases hPm with h | h
      · exfalso
        have := chain_prev_anchor (add_to_beg sa hdr).mem hdr L 0
          (hdr + 8 + true_size (load64 s.mem hdr)) hpush.1
          (fun h0 => by have := apart_mem hap h0; omega) (List.mem_cons_of_mem _ hRL) h
        omega
      · exact h
    -- where a member of `hdr :: L` lies relative to the header word
    have hclear : ∀ z ∈ hdr :: L, z + 24 ≤ hdr ∨ hdr ≤ z := by
      intro z hz
      rcases List.mem_cons.1 hz with h | h
      · omega
      · have hne : z ≠ hdr := fun h' => hhL (by rw [← h']; exact h)
        have := con_node_clear hcon hmem h hne
        omega
    have hnne : node_nxt (add_to_beg sa hdr).mem (hdr + 8 + true_size (load64 s.mem hdr) + 8)
        ≠ hdr + 8 + true_size (load64 s.mem hdr) := by
      have := chain_nxt_ne (add_to_beg sa hdr).mem (hdr :: L) 0
        (hdr + 8 + true_size (load64 s.mem hdr)) hpush.1 (apart_nodup hap)
        (fun y hy => by have := apart_mem hap hy; omega) (List.mem_cons_of_mem _ hRL)
      simpa [HEADER_SIZE] using this
    have e : load64 (coalesce (add_to_beg sa hdr) hdr
        (hdr + 8 + true_size (load64 s.mem hdr))).mem hdr = load64 sa.mem hdr := by
      apply load64_congr
      intro i hi
      have hout : (add_to_beg sa hdr).mem (hdr + i) = sa.mem (hdr + i) := by
        apply add_to_beg_mem_out sa hdr (hdr + i) (by omega) (by omega)
        intro h0
        rw [hsa_start] at h0 ⊢
        cases L with
        | nil => exact absurd rfl h0
        | cons a r =>
          have := hclear a (by simp)
          simp only [head_of, HEADER_SIZE]
          omega
      rw [← hout]
      apply coalesce_mem_out (add_to_beg sa hdr) hdr (hdr + 8 + true_size (load64 s.mem hdr))
        (hdr + i) (by omega) (by omega)
      · exact (apart_mem hap hPm').2
      · rcases hNm with h | h
        · rw [h]; unfold WORD; omega
        · have := (apart_mem hap h).2; omega
      · intro hz
        rcases hNm with h | h
        · exact absurd h hz
        · have := apart_ne hap h (List.mem_cons_of_mem _ hRL) hnne
          omega
      · intro hz
        rcases hNm with h | h
        · exact absurd h hz
        · have := hclear _ h
          omega
      · omega
      · have := hclear _ hPm'
        omega
    rw [e, hsa_hdr]
  · rw [coalesce_num_header, add_to_beg_num_header, hsa_num]

end Explicit

/-! ## Allocation in a consistent state of the explicit allocator -/

theorem and_even (a b : Nat) (hb : b % 2 = 0) : (a &&& b) % 2 = 0 := by
  have := Nat.testBit_and a b 0
  simp only [Nat.testBit_zero] at this
  rcases Nat.mod_two_eq_zero_or_one (a &&& b) with h0 | h0
  · exact h0
  · simp [h0, hb] at this

/-- Clearing the three low bits of a 64-bit word rounds it down to a multiple of 8. -/
theorem land_mask8 (y : Nat) (hy : y < WORD) : Nat.land y (WORD - 1 - 7) = y - y % 8 := by
  have hx : Nat.land y (WORD - 1 - 7) = y &&& 18446744073709551608 := rfl
  have a0 := and_even y 18446744073709551608 (by norm_num)
  have d0 : (y &&& 18446744073709551608) / 2 = y / 2 &&& 9223372036854775804 := by
    rw [Nat.and_div_two]
  have a1 := and_even (y / 2) 9223372036854775804 (by norm_num)
  have d1 : (y / 2 &&& 9223372036854775804) / 2 = y / 2 / 2 &&& 4611686018427387902 := by
    rw [Nat.and_div_two]
  have a2 := and_even (y / 2 / 2) 4611686018427387902 (by norm_num)
  have d2 : (y / 2 / 2 &&& 4611686018427387902) / 2 = y / 2 / 2 / 2 &&& 2305843009213693951 := by
    rw [Nat.and_div_two]
  have d3 : y / 2 / 2 / 2 &&& 2305843009213693951 = y / 2 / 2 / 2 % 2 ^ 61 :=
    Nat.and_pow_two_sub_one_eq_mod _ 61
  have d4 : (2 : Nat) ^ 61 = 2305843009213693952 := by norm_num
  rw [d4] at d3
  rw [hx]
  unfold WORD at hy
  omega

/-- The padded size of a request is the next multiple of 8. -/
theorem addpad_eq (n : Nat) (hn : n + 7 < WORD) : addpad n 8 = (n + 7) / 8 * 8 := by
  unfold addpad
  have e1 : sub64 (n + 8) 1 = n + 7 := by
    unfold sub64 WORD
    unfold WORD at hn
    omega
  have e2 : sub64 8 1 = 7 := by decide
  rw [e1, e2, land_mask8 _ hn]
  omega

theorem room_of_last (x k T e W : Nat) (h1 : k ≤ T) (h2 : x + 8 + T = e) (h3 : e + 24 ≤ W) :
    x + k + 32 ≤ W := by omega

/-- The padded size of a request is even. -/
theorem addpad_even (n : Nat) : addpad n 8 % 2 = 0 := by
  unfold addpad
  have e2 : sub64 8 1 = 7 := by decide
  rw [e2]
  exact and_even _ _ (by decide)

namespace Explicit

/-- Footprint of `remove_node`: only the `prev` field of the successor and the `nxt` field of
the predecessor, when there is one, may change. -/
theorem remove_node_mem_out2 (s : Heap) (node x : Nat)
    (hp : node_prev s.mem node + 24 ≤ WORD) (hn : node_nxt s.mem node + 16 ≤ WORD)
    (h1 : node_nxt s.mem node ≠ 0 →
      (x < node_nxt s.mem node + 8 ∨ node_nxt s.mem node + 16 ≤ x))
    (h3 : node_prev s.mem node ≠ 0 →
      (x < node_prev s.mem node + 16 ∨ node_prev s.mem node + 24 ≤ x)) :
    (remove_node s node).mem x = s.mem x := by
  have w1 : wrap (node_nxt s.mem node + 8) = node_nxt s.mem node + 8 := wrap_of_lt (by omega)
  have w2 : wrap (node_prev s.mem node + 8) = node_prev s.mem node + 8 := wrap_of_lt (by omega)
  have w3 : wrap (node_prev s.mem node + 8 + 8) = node_prev s.mem node + 16 := by
    rw [wrap_of_lt (by omega)]
  unfold remove_node
  simp only [HEADER_SIZE, set_prev, set_nxt, w1, w2, w3]
  split_ifs with c1 c2 c3
  · rfl
  · simp only []
    have hz : node_nxt s.mem node ≠ 0 := fun h => c1 ⟨c2, h⟩
    rw [store64_out _ _ _ _ (h1 hz)]
  · simp only []
    have := h3 c2
    rw [store64_out _ _ _ _ (by omega)]
  · simp only []
    have := h3 c2
    rw [store64_out _ _ _ _ (h1 c3), store64_out _ _ _ _ (by omega)]

/-- Unlinking a member of a free list changes bytes of the link fields of members only. -/
theorem remove_node_frame (s : Heap) (L : List Nat) (x a : Nat)
    (hap : nodes_apart L) (hc : chain s.mem 0 L) (hx : x ∈ L)
    (ha : ∀ z ∈ L, a < z + 8 ∨ z + 24 ≤ a) :
    (remove_node s (x + 8)).mem a = s.mem a := by
  have hP := chain_prev s.mem L 0 x hc hx
  have hN := chain_nxt s.mem L 0 x hc hx
  simp only [HEADER_SIZE] at hP hN
  apply remove_node_mem_out2
  · rcases hP with h | h
    · rw [h]; unfold WORD; omega
    · exact (apart_mem hap h).2
  · rcases hN with h | h
    · rw [h]; unfold WORD; omega
    · have := (apart_mem hap h).2; omega
  · intro hz
    rcases hN with h | h
    · exact absurd h hz
    · have := ha _ h; omega
  · intro hz
    rcases hP with h | h
    · exact absurd h hz
    · have := ha _ h; omega

/-- Pushing a node on a free list changes bytes of the link fields of the new node and of
the members only. -/
theorem add_to_beg_frame (s : Heap) (L : List Nat) (hdr a : Nat)
    (hap : nodes_apart (hdr :: L)) (hst : s.start = head_of L)
    (ha : ∀ z ∈ hdr :: L, a < z + 8 ∨ z + 24 ≤ a) :
    (add_to_beg s hdr).mem a = s.mem a := by
  have hb := apart_mem hap (List.mem_cons_self hdr L)
  apply add_to_beg_mem_out s hdr a hb.2
  · have := ha hdr (List.mem_cons_self _ _); omega
  · intro h0
    rw [hst] at h0 ⊢
    cases L with
    | nil => exact absurd rfl h0
    | cons b r =>
      have := ha b (by simp)
      simp only [head_of, HEADER_SIZE]
      omega

/-- The header word of a walked block of a consistent state lies clear of the link fields of
every member of the free list. -/
theorem con_header_clear {s : Heap} {L : List Nat} (hcon : consistent s L) {y : Nat}
    (hy : y ∈ walk s.mem s.num_header.toNat s.segment_start) (i : Nat) (hi : i < 8) :
    ∀ z ∈ L, y + i < z + 8 ∨ z + 24 ≤ y + i := by
  intro z hz
  by_cases hne : z = y
  · omega
  · have := con_node_clear hcon hy hz hne; omega

theorem head_of_eq_headD (L : List Nat) (h : L ≠ []) : head_of L = L.headD 0 + 8 := by
  cases L with
  | nil => exact absurd rfl h
  | cons a r => rfl

theorem sub64_node (x : Nat) (hx : x + 8 < WORD) : sub64 (x + 8) 8 = x := by
  rw [sub64_of_le hx (by omega)]; omega

theorem sub64_lt (a b : Nat) : sub64 a b < WORD := by
  unfold sub64
  exact Nat.mod_lt _ (by unfold WORD; omega)

/-- One turn of the search loop of `mymalloc` at a node whose block is too small and that
has a successor. -/
theorem mymalloc_loop_next (needed fuel : Nat) (s : Heap) (x : Nat) (hx : x + 8 < WORD)
    (h : load64 s.mem x < needed) (hn : node_nxt s.mem (x + 8) ≠ 0) :
    mymalloc_loop needed (fuel + 1) s (x + 8)
      = mymalloc_loop needed fuel s (wrap (node_nxt s.mem (x + 8) + 8)) := by
  rw [mymalloc_loop]
  simp only [HEADER_SIZE, sub64_node x hx]
  rw [if_neg (by omega), if_neg hn]

/-- The search loop of `mymalloc` passes over the members whose blocks are too small. -/
theorem mymalloc_loop_skip (needed : Nat) (s : Heap) (x : Nat) (post : List Nat) (fuel : Nat) :
    ∀ (pre : List Nat) (pv : Nat), chain s.mem pv (pre ++ x :: post) →
      (∀ y ∈ pre ++ x :: post, 0 < y ∧ y + 24 ≤ WORD) →
      (∀ y ∈ pre, load64 s.mem y < needed) →
      mymalloc_loop needed (fuel + pre.length) s (head_of (pre ++ x :: post))
        = mymalloc_loop needed fuel s (x + 8) := by
  intro pre
  induction pre with
  | nil => intro pv _ _ _; rfl
  | cons a r ih =>
    intro pv hc hb hs
    have hab := hb a (by simp)
    have hnx := chain_head_nxt s.mem a (r ++ x :: post) pv hc
    have hmem : (r ++ x :: post).headD 0 ∈ r ++ x :: post := by cases r <;> simp
    have hnb := hb _ (List.mem_cons_of_mem _ hmem)
    have hne : r ++ x :: post ≠ [] := by simp
    have hct : chain s.mem a (r ++ x :: post) := by
      have hc' : chain s.mem pv (a :: (r ++ x :: post)) := hc
      rw [chain] at hc'
      exact hc'.2.2
    have e : mymalloc_loop needed (fuel + (a :: r).length) s (head_of (a :: r ++ x :: post))
        = mymalloc_loop needed (fuel + r.length + 1) s (a + 8) := rfl
    rw [e, mymalloc_loop_next needed _ s a (by omega) (hs a (by simp)) (by rw [hnx]; omega),
      hnx, wrap_of_lt (by omega), ← head_of_eq_headD _ hne]
    exact ih a hct (fun y hy => hb y (List.mem_cons_of_mem _ hy))
      (fun y hy => hs y (List.mem_cons_of_mem _ hy))

/-- One turn of the search loop at a node whose block is large enough and does not end at
the end of the region: the block is taken whole. -/
theorem mymalloc_loop_whole_eq (needed fuel : Nat) (s : Heap) (x : Nat) (hx : x + 8 < WORD)
    (hfit : needed ≤ load64 s.mem x)
    (hnl : wrap (x + load64 s.mem x + 8) ≠ wrap (s.segment_start + s.segment_size)) :
    mymalloc_loop needed (fuel + 1) s (x + 8)
      = some (x + 8,
          { (remove_node { s with nbytes_inuse := wrap (s.nbytes_inuse + load64 s.mem x) }
              (x + 8)) with
            mem := store64
              (remove_node { s with nbytes_inuse := wrap (s.nbytes_inuse + load64 s.mem x) }
                (x + 8)).mem x
              (Nat.lor (load64
                (remove_node { s with nbytes_inuse := wrap (s.nbytes_inuse + load64 s.mem x) }
                  (x + 8)).mem x) 1) }) := by
  rw [mymalloc_loop]
  simp only [HEADER_SIZE, sub64_node x hx]
  rw [if_pos hfit, if_neg hnl]

/-- One turn of the search loop at a node whose block is large enough and ends at the end
of the region: the block is cut to the padded size (at least a list node) and a new header
is written after it. -/
theorem mymalloc_loop_last_eq (needed fuel : Nat) (s : Heap) (x : Nat) (hx : x + 8 < WORD)
    (hfit : needed ≤ load64 s.mem x)
    (hl : wrap (x + load64 s.mem x + 8) = wrap (s.segment_start + s.segment_size))
    (k : Nat) (hk : k = if needed ≤ 16 then 16 else needed) (hkb : x + k + 8 < WORD) :
    mymalloc_loop needed (fuel + 1) s (x + 8)
      = some (x + 8,
          { (add_to_beg (remove_node
              { s with mem := store64 (store64 s.mem x k) (x + k + 8)
                                (sub64 (sub64 (load64 s.mem x) 8) k),
                       nused := wrap (wrap (s.nused + k) + 8),
                       nbytes_inuse := wrap (s.nbytes_inuse + k),
                       num_header := s.num_header + 1 } (x + 8)) (x + k + 8))
            with
            mem := store64
              (add_to_beg (remove_node
                { s with mem := store64 (store64 s.mem x k) (x + k + 8)
                                  (sub64 (sub64 (load64 s.mem x) 8) k),
                         nused := wrap (wrap (s.nused + k) + 8),
                         nbytes_inuse := wrap (s.nbytes_inuse + k),
                         num_header := s.num_header + 1 } (x + 8)) (x + k + 8)).mem x
              (Nat.lor (load64
                (add_to_beg (remove_node
                  { s with mem := store64 (store64 s.mem x k) (x + k + 8)
                                    (sub64 (sub64 (load64 s.mem x) 8) k),
                           nused := wrap (wrap (s.nused + k) + 8),
                           nbytes_inuse := wrap (s.nbytes_inuse + k),
                           num_header := s.num_header + 1 } (x + 8)) (x + k + 8)).mem x) 1) })
      := by
  have hkW : k < WORD := by omega
  have e1 : load64 (if needed ≤ 16 then store64 s.mem x 16 else store64 s.mem x needed) x
      = k := by
    rw [hk]
    split_ifs
    · exact load64_store64_same _ _ _ (by unfold WORD; omega)
    · exact load64_store64_same _ _ _ (by rw [hk] at hkW; simpa [*] using hkW)
  have e2 : (if needed ≤ 16 then store64 s.mem x 16 else store64 s.mem x needed)
      = store64 s.mem x k := by
    rw [hk]; split_ifs <;> rfl
  rw [mymalloc_loop]
  simp only [HEADER_SIZE, SIZEOF_LISTNODE, sub64_node x hx]
  rw [if_pos hfit, if_pos hl]
  simp only [e1]
  rw [e2, wrap_of_lt hkb]

/-- A free-list member of a consistent state: its header word is its true size, even, at
least 16, and the block lies inside the region. -/
theorem con_free_word {s : Heap} {L : List Nat} (hcon : consistent s L) {x : Nat} (hx : x ∈ L) :
    load64 s.mem x % 2 = 0 ∧ 16 ≤ load64 s.mem x
    ∧ x + 8 + load64 s.mem x ≤ s.segment_start + s.segment_size
    ∧ s.segment_start ≤ x := by
  have h := con_listed hcon hx
  have hodd : ¬ load64 s.mem x % 2 = 1 := by simpa [is_used] using h.2.1
  have ht := true_size_of_free hodd
  have hin := tiled_inside hcon.2.2.1 x h.1
  have hge := walk_ge _ _ _ _ h.1
  rw [ht] at h
  simp only [HEADER_SIZE, ht] at hin
  exact ⟨by omega, h.2.2.1, by omega, hge⟩

/-- The search loop of `mymalloc` at a member `x` of the free list of a consistent state
whose block is large enough and is not the last block of the region: the block is taken
whole. -/
theorem mymalloc_loop_take_whole {s : Heap} {L : List Nat} (hcon : consistent s L) {x : Nat}
    (hx : x ∈ L) (needed fuel : Nat) (hfit : needed ≤ load64 s.mem x)
    (hnl : x + 8 + load64 s.mem x ≠ s.segment_start + s.segment_size) :
    ∃ s', mymalloc_loop needed (fuel + 1) s (x + 8) = some (x + 8, s')
      ∧ chain s'.mem 0 (L.erase x) ∧ s'.start = head_of (L.erase x)
      ∧ load64 s'.mem x = load64 s.mem x + 1
      ∧ s'.num_header = s.num_header
      ∧ (∀ y ∈ walk s.mem s.num_header.toNat s.segment_start, y ≠ x →
          load64 s'.mem y = load64 s.mem y)
      ∧ s'.segment_start = s.segment_start ∧ s'.segment_size = s.segment_size := by
  have hxl := con_listed hcon hx
  have hxw := con_free_word hcon hx
  have hap := con_apart hcon
  have hend := hcon.2.1
  have hbase := hcon.1
  have hlt := load64_lt s.mem x
  have hwne : wrap (x + load64 s.mem x + 8) ≠ wrap (s.segment_start + s.segment_size) := by
    have e1 : wrap (x + load64 s.mem x + 8) = x + load64 s.mem x + 8 :=
      wrap_of_lt (by omega)
    rw [e1]
    by_cases hW : s.segment_start + s.segment_size = WORD
    · rw [hW]
      have : wrap WORD = 0 := by unfold wrap; exact Nat.mod_self _
      rw [this]; omega
    · rw [wrap_of_lt (by omega)]; omega
  rw [mymalloc_loop_whole_eq needed fuel s x (by omega) hfit hwne]
  obtain ⟨sa, hsa⟩ : ∃ sa : Heap, sa =
      { s with nbytes_inuse := wrap (s.nbytes_inuse + load64 s.mem x) } := ⟨_, rfl⟩
  rw [← hsa]
  have hsa_mem : sa.mem = s.mem := by rw [hsa]
  have hsa_start : sa.start = head_of L := by rw [hsa]; exact hcon.2.2.2.2.1
  have hsa_num : sa.num_header = s.num_header := by rw [hsa]
  have hsa_b : sa.segment_start = s.segment_start := by rw [hsa]
  have hsa_c : sa.segment_size = s.segment_size := by rw [hsa]
  have hsa_chain : chain sa.mem 0 L := by rw [hsa_mem]; exact hcon.2.2.2.2.2.1
  clear hsa
  have hrm := remove_node_chain sa L x hap hsa_start hsa_chain hx
  have hframe : ∀ y ∈ walk s.mem s.num_header.toNat s.segment_start,
      load64 (remove_node sa (x + 8)).mem y = load64 s.mem y := by
    intro y hy
    rw [← hsa_mem]
    apply load64_congr
    intro i hi
    exact remove_node_frame sa L x (y + i) hap hsa_chain hx (con_header_clear hcon hy i hi)
  have hnum : (remove_node sa (x + 8)).num_header = s.num_header := by
    rw [remove_node_num_header, hsa_num]
  have hb : (remove_node sa (x + 8)).segment_start = s.segment_start := by
    rw [← hsa_b]; unfold remove_node; split_ifs <;> rfl
  have hc : (remove_node sa (x + 8)).segment_size = s.segment_size := by
    rw [← hsa_c]; unfold remove_node; split_ifs <;> rfl
  generalize remove_node sa (x + 8) = s1 at hrm hframe hnum hb hc ⊢
  refine ⟨_, rfl, ?_, hrm.2, ?_, hnum, ?_, hb, hc⟩
  · refine chain_congr s1.mem _ (L.erase x) 0 ?_ hrm.1
    intro z hz
    have hzL : z ∈ L := List.mem_of_mem_erase hz
    have hne : z ≠ x := fun h => by
      rw [h] at hz
      exact (List.Nodup.not_mem_erase (apart_nodup hap)) hz
    have hc := con_node_clear hcon hxl.1 hzL hne
    have hzb := apart_mem hap hzL
    show node_prev (store64 _ x _) (z + 8) = _ ∧ node_nxt (store64 _ x _) (z + 8) = _
    rw [node_prev_store_out _ _ _ _ (by omega), node_nxt_store_out _ _ _ _ hzb.2 (by omega)]
    exact ⟨rfl, rfl⟩
  · show load64 (store64 _ x _) x = _
    rw [hframe x hxl.1, lor_one_eq, if_neg (by omega),
      load64_store64_same _ _ _ (by unfold WORD at hlt ⊢; omega)]
  · intro y hy hne
    show load64 (store64 _ x _) y = _
    have := walk_disjoint _ _ _ y x hy hxl.1 hne
    simp only [HEADER_SIZE] at this
    rw [load64_store64_ne _ _ _ _ (by omega), hframe y hy]

theorem add_to_beg_segment (s : Heap) (hdr : Nat) :
    (add_to_beg s hdr).segment_start = s.segment_start
    ∧ (add_to_beg s hdr).segment_size = s.segment_size := by
  unfold add_to_beg; split_ifs <;> exact ⟨rfl, rfl⟩

theorem remove_node_segment (s : Heap) (node : Nat) :
    (remove_node s node).segment_start = s.segment_start
    ∧ (remove_node s node).segment_size = s.segment_size := by
  unfold remove_node; split_ifs <;> exact ⟨rfl, rfl⟩

/-- The search loop of `mymalloc` at a member `x` of the free list of a consistent state
whose block is large enough and is the last block of the region, the node of the new
header ending at or below `2 ^ 64`: the block is cut to `k = max needed 16` bytes, a header holding
`old_size - 8 - k` (mod `2 ^ 64`) is written after it, and the node of that header replaces
`x` at the head of the list. -/
theorem mymalloc_loop_take_last {s : Heap} {L : List Nat} (hcon : consistent s L) {x : Nat}
    (hx : x ∈ L) (needed fuel : Nat) (hfit : needed ≤ load64 s.mem x) (hev : needed % 2 = 0)
    (hl : x + 8 + load64 s.mem x = s.segment_start + s.segment_size)
    (k : Nat) (hk : k = if needed ≤ 16 then 16 else needed) (hroom : x + k + 32 ≤ WORD) :
    ∃ s', mymalloc_loop needed (fuel + 1) s (x + 8) = some (x + 8, s')
      ∧ chain s'.mem 0 ((x + k + 8) :: L.erase x) ∧ s'.start = x + k + 8 + 8
      ∧ load64 s'.mem x = k + 1
      ∧ load64 s'.mem (x + k + 8) = sub64 (sub64 (load64 s.mem x) 8) k
      ∧ s'.num_header = s.num_header + 1
      ∧ (∀ y ∈ walk s.mem s.num_header.toNat s.segment_start, y ≠ x →
          load64 s'.mem y = load64 s.mem y)
      ∧ s'.segment_start = s.segment_start ∧ s'.segment_size = s.segment_size := by
  have hxl := con_listed hcon hx
  have hxw := con_free_word hcon hx
  have hap := con_apart hcon
  have hbase := hcon.1
  have hlt := load64_lt s.mem x
  have hk16 : 16 ≤ k := by rw [hk]; split_ifs <;> omega
  have hkT : k ≤ load64 s.mem x := by rw [hk]; split_ifs <;> omega
  have hkev : k % 2 = 0 := by rw [hk]; split_ifs <;> omega
  have hxT : true_size (load64 s.mem x) = load64 s.mem x := true_size_of_free (by omega)
  -- every other member of the list lies below the last block
  have hbelow : ∀ z ∈ L, z ≠ x → z + 24 ≤ x := by
    intro z hz hne
    have h1 := con_node_clear hcon hxl.1 hz hne
    have h2 := con_free_word hcon hz
    rw [hxT] at h1
    omega
  -- every other walked block lies below the last block
  have hbelow' : ∀ y ∈ walk s.mem s.num_header.toNat s.segment_start, y ≠ x → y + 8 ≤ x := by
    intro y hy hne
    have h1 := walk_disjoint _ _ _ y x hy hxl.1 hne
    have h2 := tiled_inside hcon.2.2.1 y hy
    simp only [HEADER_SIZE] at h1 h2
    rw [hxT] at h1
    omega
  have hwl : wrap (x + load64 s.mem x + 8) = wrap (s.segment_start + s.segment_size) := by
    have e : x + load64 s.mem x + 8 = s.segment_start + s.segment_size := by omega
    rw [e]
  rw [mymalloc_loop_last_eq needed fuel s x (by omega) hfit hwl k hk (by omega)]
  obtain ⟨sa, hsa⟩ : ∃ sa : Heap, sa =
      { s with mem := store64 (store64 s.mem x k) (x + k + 8)
                        (sub64 (sub64 (load64 s.mem x) 8) k),
               nused := wrap (wrap (s.nused + k) + 8),
               nbytes_inuse := wrap (s.nbytes_inuse + k),
               num_header := s.num_header + 1 } := ⟨_, rfl⟩
  rw [← hsa]
  have hsa_mem : sa.mem = store64 (store64 s.mem x k) (x + k + 8)
      (sub64 (sub64 (load64 s.mem x) 8) k) := by rw [hsa]
  have hsa_start : sa.start = head_of L := by rw [hsa]; exact hcon.2.2.2.2.1
  have hsa_num : sa.num_header = s.num_header + 1 := by rw [hsa]
  have hsa_b : sa.segment_start = s.segment_start := by rw [hsa]
  have hsa_c : sa.segment_size = s.segment_size := by rw [hsa]
  clear hsa
  have hsa_chain : chain sa.mem 0 L := by
    refine chain_congr s.mem sa.mem L 0 ?_ hcon.2.2.2.2.2.1
    intro z hz
    have hzb := apart_mem hap hz
    rw [hsa_mem]
    by_cases hne : z = x
    · rw [node_prev_store_out _ _ _ _ (by omega), node_prev_store_out _ _ _ _ (by omega),
        node_nxt_store_out _ _ _ _ hzb.2 (by omega), node_nxt_store_out _ _ _ _ hzb.2 (by omega)]
      exact ⟨rfl, rfl⟩
    · have := hbelow z hz hne
      rw [node_prev_store_out _ _ _ _ (by omega), node_prev_store_out _ _ _ _ (by omega),
        node_nxt_store_out _ _ _ _ hzb.2 (by omega), node_nxt_store_out _ _ _ _ hzb.2 (by omega)]
      exact ⟨rfl, rfl⟩
  have hsa_x : load64 sa.mem x = k := by
    rw [hsa_mem, load64_store64_ne _ _ _ _ (by omega), load64_store64_same _ _ _ (by omega)]
  have hsa_N : load64 sa.mem (x + k + 8) = sub64 (sub64 (load64 s.mem x) 8) k := by
    rw [hsa_mem, load64_store64_same _ _ _ (sub64_lt _ _)]
  have hsa_y : ∀ y ∈ walk s.mem s.num_header.toNat s.segment_start, y ≠ x →
      load64 sa.mem y = load64 s.mem y := by
    intro y hy hne
    have := hbelow' y hy hne
    rw [hsa_mem, load64_store64_ne _ _ _ _ (by omega), load64_store64_ne _ _ _ _ (by omega)]
  clear hsa_mem
  -- unlinking the node of `x`
  have hrm := remove_node_chain sa L x hap hsa_start hsa_chain hx
  have hfr1 : ∀ a, (∀ z ∈ L, a < z + 8 ∨ z + 24 ≤ a) →
      (remove_node sa (x + 8)).mem a = sa.mem a :=
    fun a ha => remove_node_frame sa L x a hap hsa_chain hx ha
  have hnum1 : (remove_node sa (x + 8)).num_header = s.num_header + 1 := by
    rw [remove_node_num_header, hsa_num]
  have hb1 : (remove_node sa (x + 8)).segment_start = s.segment_start := by
    rw [(remove_node_segment sa (x + 8)).1, hsa_b]
  have hc1 : (remove_node sa (x + 8)).segment_size = s.segment_size := by
    rw [(remove_node_segment sa (x + 8)).2, hsa_c]
  generalize remove_node sa (x + 8) = s1 at hrm hfr1 hnum1 hb1 hc1 ⊢
  -- pushing the node of the new header
  have hmemE : ∀ z ∈ L.erase x, z ∈ L ∧ z ≠ x := by
    intro z hz
    refine ⟨List.mem_of_mem_erase hz, fun h => ?_⟩
    rw [h] at hz
    exact (List.Nodup.not_mem_erase (apart_nodup hap)) hz
  have hapN : nodes_apart ((x + k + 8) :: L.erase x) := by
    refine ⟨?_, ?_⟩
    · intro z hz
      rcases List.mem_cons.1 hz with h | h
      · rw [h]; omega
      · exact apart_mem hap (hmemE z h).1
    · rw [List.pairwise_cons]
      refine ⟨fun z hz => ?_, (hap.2.sublist (List.erase_sublist x L))⟩
      have := hbelow z (hmemE z hz).1 (hmemE z hz).2
      omega
  have hpush := add_to_beg_chain s1 (L.erase x) (x + k + 8) hapN hrm.2 hrm.1
  have hfr2 : ∀ a, (∀ z ∈ (x + k + 8) :: L.erase x, a < z + 8 ∨ z + 24 ≤ a) →
      (add_to_beg s1 (x + k + 8)).mem a = s1.mem a :=
    fun a ha => add_to_beg_frame s1 (L.erase x) (x + k + 8) a hapN hrm.2 ha
  have hnum2 : (add_to_beg s1 (x + k + 8)).num_header = s.num_header + 1 := by
    rw [add_to_beg_num_header, hnum1]
  have hb2 : (add_to_beg s1 (x + k + 8)).segment_start = s.segment_start := by
    rw [(add_to_beg_segment s1 (x + k + 8)).1, hb1]
  have hc2 : (add_to_beg s1 (x + k + 8)).segment_size = s.segment_size := by
    rw [(add_to_beg_segment s1 (x + k + 8)).2, hc1]
  -- header words are outside the link fields that were written
  have hword : ∀ y, (y ∈ walk s.mem s.num_header.toNat s.segment_start ∨ y = x + k + 8) →
      load64 (add_to_beg s1 (x + k + 8)).mem y = load64 sa.mem y := by
    intro y hy
    apply load64_congr
    intro i hi
    have hL : ∀ z ∈ L, y + i < z + 8 ∨ z + 24 ≤ y + i := by
      rcases hy with hy | hy
      · exact con_header_clear hcon hy i hi
      · intro z hz
        by_cases hne : z = x
        · omega
        · have := hbelow z hz hne
          omega
    have hN : y + i < x + k + 8 + 8 ∨ x + k + 8 + 24 ≤ y + i := by
      rcases hy with hy | hy
      · have h2 := tiled_inside hcon.2.2.1 y hy
        simp only [HEADER_SIZE] at h2
        by_cases hne : y = x
        · omega
        · have := hbelow' y hy hne
          omega
      · omega
    rw [hfr2 (y + i) ?_, hfr1 (y + i) hL]
    intro z hz
    rcases List.mem_cons.1 hz with h | h
    · rw [h]; exact hN
    · exact hL z (hmemE z h).1
  generalize add_to_beg s1 (x + k + 8) = s2 at hpush hfr2 hnum2 hb2 hc2 hword ⊢
  refine ⟨_, rfl, ?_, hpush.2, ?_, ?_, hnum2, ?_, hb2, hc2⟩
  · refine chain_congr s2.mem _ _ 0 ?_ hpush.1
    intro z hz
    have hzb := apart_mem hapN hz
    show node_prev (store64 _ x _) (z + 8) = _ ∧ node_nxt (store64 _ x _) (z + 8) = _
    have hzx : x + 8 ≤ z ∨ z + 24 ≤ x := by
      rcases List.mem_cons.1 hz with h | h
      · omega
      · have := hbelow z (hmemE z h).1 (hmemE z h).2; omega
    rw [node_prev_store_out _ _ _ _ (by omega), node_nxt_store_out _ _ _ _ hzb.2 (by omega)]
    exact ⟨rfl, rfl⟩
  · show load64 (store64 _ x _) x = _
    rw [hword x (Or.inl hxl.1), hsa_x, lor_one_eq, if_neg (by omega),
      load64_store64_same _ _ _ (by omega)]
  · show load64 (store64 _ x _) (x + k + 8) = _
    rw [load64_store64_ne _ _ _ _ (by omega), hword _ (Or.inr rfl), hsa_N]
  · intro y hy hne
    show load64 (store64 _ x _) y = _
    have := hbelow' y hy hne
    rw [load64_store64_ne _ _ _ _ (by omega), hword y (Or.inl hy), hsa_y y hy hne]

/-- A state with a single free block that fills the region is consistent. -/
theorem consistent_one (s : Heap) (r : Nat) (hn : s.num_header = 1)
    (h0 : 0 < s.segment_start) (hend : s.segment_start + s.segment_size ≤ WORD)
    (hcap : s.segment_size = 8 + r)
    (hA : load64 s.mem s.segment_start = r) (hr : r % 2 = 0) (hr16 : 16 ≤ r)
    (hst : s.start = s.segment_start + 8) (hc : chain s.mem 0 [s.segment_start]) :
    consistent s [s.segment_start] := by
  have hts : true_size r = r := true_size_of_free (by omega)
  have hw : walk s.mem s.num_header.toNat s.segment_start = [s.segment_start] := by
    rw [hn]; rfl
  have hf : free_blocks s.mem s.segment_start s.num_header.toNat = [s.segment_start] := by
    unfold free_blocks
    rw [hw]
    simp [hA, is_used]
    omega
  refine ⟨h0, hend, ?_, ?_, hst, hc, List.nodup_singleton _, ?_, ?_⟩
  · unfold tiling tiled
    rw [hw]
    simp [hA, hts, HEADER_SIZE, hcap]
    omega
  · rw [hf]
    intro x hx
    rw [List.mem_singleton.1 hx, hA, hts]
    exact hr16
  · rw [hf]; exact fun x hx => hx
  · rw [hf]; exact fun x hx => hx

/-- A state with an in-use block followed by a free block that ends the region is
consistent. -/
theorem consistent_two (s : Heap) (k r : Nat) (hn : s.num_header = 2)
    (h0 : 0 < s.segment_start) (hend : s.segment_start + s.segment_size ≤ WORD)
    (hcap : s.segment_size = 8 + k + 8 + r)
    (hA : load64 s.mem s.segment_start = k + 1) (hk : k % 2 = 0)
    (hR : load64 s.mem (s.segment_start + 8 + k) = r) (hr : r % 2 = 0) (hr16 : 16 ≤ r)
    (hst : s.start = s.segment_start + 8 + k + 8)
    (hc : chain s.mem 0 [s.segment_start + 8 + k]) :
    consistent s [s.segment_start + 8 + k] := by
  have htr : true_size r = r := true_size_of_free (by omega)
  have htk : true_size (k + 1) = k := by rw [true_size_of_used (by omega)]; omega
  have hw : walk s.mem s.num_header.toNat s.segment_start
      = [s.segment_start, s.segment_start + 8 + k] := by
    rw [hn]
    show [s.segment_start, s.segment_start + HEADER_SIZE
      + true_size (load64 s.mem s.segment_start)] = _
    rw [hA, htk]; rfl
  have hf : free_blocks s.mem s.segment_start s.num_header.toNat
      = [s.segment_start + 8 + k] := by
    unfold free_blocks
    rw [hw]
    have h1 : (k + 1) % 2 = 1 := by omega
    simp [List.filter_cons, hA, hR, is_used, h1, hr]
  refine ⟨h0, hend, ?_, ?_, hst, hc, List.nodup_singleton _, ?_, ?_⟩
  · unfold tiling tiled
    rw [hw]
    simp [hA, hR, htr, htk, HEADER_SIZE, hcap]
    omega
  · rw [hf]
    intro x hx
    rw [List.mem_singleton.1 hx, hR, htr]
    exact hr16
  · rw [hf]; exact fun x hx => hx
  · rw [hf]; exact fun x hx => hx

/-- The state produced by `myinit` on a region of at least 24 bytes below `2 ^ 64`. -/
theorem myinit_state (s0 : Heap) (base cap : Nat) (h0 : 0 < base) (hend : base + cap ≤ WORD)
    (hcap : 24 ≤ cap) :
    (myinit s0 base cap).1 = true
    ∧ (myinit s0 base cap).2.segment_start = base
    ∧ (myinit s0 base cap).2.segment_size = cap
    ∧ (myinit s0 base cap).2.num_header = 1
    ∧ (myinit s0 base cap).2.start = base + 8
    ∧ load64 (myinit s0 base cap).2.mem base = cap - 8
    ∧ chain (myinit s0 base cap).2.mem 0 [base] := by
  have w1 : wrap (base + 8) = base + 8 := wrap_of_lt (by omega)
  have w2 : wrap (base + 8 + 8) = base + 16 := by rw [wrap_of_lt (by omega)]
  have e1 : sub64 cap 8 = cap - 8 := sub64_of_le (by omega) (by omega)
  have hW : (0 : Nat) < WORD := by unfold WORD; omega
  unfold myinit
  simp only [HEADER_SIZE, SIZEOF_LISTNODE, set_prev, set_nxt, w1, w2, e1]
  rw [if_neg (by omega)]
  refine ⟨rfl, rfl, rfl, rfl, rfl, ?_, ?_⟩
  · show load64 (store64 (store64 (store64 s0.mem base (cap - 8)) (base + 8) 0) (base + 16) 0)
      base = _
    rw [load64_store64_ne _ _ _ _ (by omega), load64_store64_ne _ _ _ _ (by omega),
      load64_store64_same _ _ _ (by omega)]
  · show chain (store64 (store64 (store64 s0.mem base (cap - 8)) (base + 8) 0) (base + 16) 0)
      0 [base]
    rw [chain]
    simp only [HEADER_SIZE]
    refine ⟨?_, ?_, trivial⟩
    · rw [node_prev_store_out _ _ _ _ (by omega), node_prev_store_same _ _ _ hW]
    · rw [node_nxt_store_same _ _ _ (by omega) hW]; rfl

end Explicit

theorem round_up_facts (n r cap W : Nat) (hr : r = (n + 7) / 8 * 8) (h : r + 32 ≤ cap)
    (hW : cap ≤ W) : n + 7 < W ∧ r % 2 = 0 ∧ r ≤ cap - 8 := by omega

/-! ## The in-place phase of the explicit `myrealloc` -/

namespace Explicit

end Explicit

namespace Explicit

/-- The first loop counts the visited headers whose in-use flag is 0. -/
theorem count_free_eq (m : Mem) : ∀ (n cur : Nat) (c : Int),
    count_free m n cur c
      = c + (((visited m n cur).filter (fun h => !is_used (load64 m h))).length : Int) := by
  intro n
  induction n with
  | zero => intro cur c; simp [count_free, visited]
  | succ n ih =>
    intro cur c
    rw [count_free, visited]
    simp only [land_one]
    rw [ih]
    by_cases h : load64 m cur % 2 = 1
    · have h0 : ¬ load64 m cur % 2 = 0 := by omega
      simp [h0, is_used, h]
    · have h0 : load64 m cur % 2 = 0 := by omega
      simp [h0, is_used, h]
      omega

/-- The second loop adds up `HEADER_SIZE + true_size` over the visited headers in 64-bit
arithmetic. -/
theorem sum_bytes_eq (m : Mem) : ∀ (n cur sb : Nat), sb < WORD →
    sum_bytes m n cur sb
      = (sb + ((visited m n cur).map (fun h => HEADER_SIZE + true_size (load64 m h))).sum)
          % WORD := by
  intro n
  induction n with
  | zero =>
    intro cur sb hsb
    simp [sum_bytes, visited, Nat.mod_eq_of_lt hsb]
  | succ n ih =>
    intro cur sb hsb
    have hl := load64_lt m cur
    have hW : 0 < WORD := by unfold WORD; omega
    rw [sum_bytes, visited]
    simp only [land_one, HEADER_SIZE]
    have hstep : (if load64 m cur % 2 ≠ 0 then wrap (wrap (sb + 8) + sub64 (load64 m cur) 1)
        else wrap (wrap (sb + 8) + load64 m cur))
        = (sb + (8 + true_size (load64 m cur))) % WORD := by
      split_ifs with h
      · rw [sub64_of_le hl (by omega), true_size_of_used (by omega)]
        unfold wrap
        rw [Nat.mod_add_mod, Nat.add_assoc]
      · rw [true_size_of_free (by omega)]
        unfold wrap
        rw [Nat.mod_add_mod, Nat.add_assoc]
    rw [hstep, ih _ _ (Nat.mod_lt _ hW)]
    simp only [List.map_cons, List.sum_cons, HEADER_SIZE]
    rw [Nat.mod_add_mod, Nat.add_assoc]

/-- The list loop counts the members of a null-terminated free list. -/
theorem count_nodes_eq (m : Mem) : ∀ (fuel node : Nat) (c : Int) (L : List Nat),
    list_members m fuel node = some L → count_nodes m fuel node c = some (c + (L.length : Int))
    := by
  intro fuel
  induction fuel with
  | zero => intro node c L h; simp [list_members] at h
  | succ f ih =>
    intro node c L h
    rw [list_members] at h
    rw [count_nodes]
    by_cases h0 : node = 0
    · rw [if_pos h0] at h
      have : L = [] := by simpa using h.symm
      simp [h0, this]
    · rw [if_neg h0] at h
      rw [if_pos h0]
      by_cases h1 : node_nxt m node = 0
      · rw [if_pos h1] at h
        have : L = [sub64 node HEADER_SIZE] := by simpa using h.symm
        simp [h1, this]
      · rw [if_neg h1] at h
        rw [if_pos h1]
        cases hr : list_members m f (wrap (node_nxt m node + HEADER_SIZE)) with
        | none => rw [hr] at h; simp at h
        | some l =>
          rw [hr] at h
          have : L = sub64 node HEADER_SIZE :: l := by simpa using h.symm
          rw [ih _ (c + 1) l hr, this]
          simp only [List.length_cons, Nat.cast_add, Nat.cast_one]
          congr 1
          omega

/-- While every block of the data-model walk ends at or below `2 ^ 64`, the loops of
`validate_heap` visit the headers of that walk. -/
theorem visited_eq_walk (m : Mem) : ∀ (n cur : Nat),
    (∀ x ∈ walk m n cur, x + HEADER_SIZE + true_size (load64 m x) ≤ WORD) →
    visited m n cur = walk m n cur := by
  intro n
  induction n with
  | zero => intro cur _; rfl
  | succ n ih =>
    intro cur h
    rw [visited, walk]
    cases n with
    | zero => rfl
    | succ k =>
      have hin : cur + HEADER_SIZE + true_size (load64 m cur) ∈ walk m (k + 1 + 1) cur := by
        simp [walk]
      have h2 := h _ hin
      have hlt : cur + HEADER_SIZE + true_size (load64 m cur) < WORD := by
        simp only [HEADER_SIZE] at h2 ⊢
        omega
      rw [next_header_eq m cur hlt]
      rw [ih _ (fun x hx => h x (by rw [walk]; exact List.mem_cons_of_mem _ hx))]

/-- The spans of a walk whose blocks end at or below `E` add up to at most `E - cur`. -/
theorem walk_sum_le (m : Mem) (E : Nat) : ∀ (n cur : Nat), cur ≤ E →
    (∀ x ∈ walk m n cur, x + HEADER_SIZE + true_size (load64 m x) ≤ E) →
    cur + ((walk m n cur).map (fun h => HEADER_SIZE + true_size (load64 m h))).sum ≤ E := by
  intro n
  induction n with
  | zero => intro cur h _; simpa [walk] using h
  | succ n ih =>
    intro cur _ h
    have h1 := h cur (by simp [walk])
    have h2 := ih (cur + HEADER_SIZE + true_size (load64 m cur)) h1
      (fun x hx => h x (by rw [walk]; exact List.mem_cons_of_mem _ hx))
    rw [walk]
    simp only [List.map_cons, List.sum_cons]
    omega

end Explicit

/-- The two tests at the end of `validate_heap` as one decision. -/
theorem two_checks (A B : Prop) [Decidable A] [Decidable B] :
    (if ¬ A then some false else if ¬ B then some false else some true)
      = some (decide (A ∧ B)) := by
  by_cases a : A <;> by_cases b : B <;> simp [a, b]

/-! ## The search loop of the implicit allocator -/

/-- When none of the walked blocks is free and large enough, the search loop of the implicit
`mymalloc` ends with `block = false` and has not touched the state. -/
theorem implicit_loop_no_fit (needed : Nat) (s : Implicit.Heap) (n : Nat) :
    ∀ (cnt : Int) (h : Nat),
      (∀ x ∈ walk s.mem n h, x + HEADER_SIZE + true_size (load64 s.mem x) ≤ WORD
        ∧ (is_used (load64 s.mem x) = true ∨ true_size (load64 s.mem x) < needed)) →
      ∃ c i, Implicit.mymalloc_loop needed n s cnt h = (c, i, false, s) := by
  induction n with
  | zero => intro cnt h _; exact ⟨cnt, h, rfl⟩
  | succ n ih =>
    intro cnt h hyp
    have hh := hyp h (by simp [walk])
    have hnf : ¬ (needed ≤ load64 s.mem h ∧ Nat.land (load64 s.mem h) 1 = 0) := by
      rw [land_one]
      rcases hh.2 with hu | hs
      · simp [is_used] at hu; omega
      · simp only [true_size] at hs; omega
    rw [Implicit.mymalloc_loop, if_neg hnf]
    cases n with
    | zero => exact ⟨_, _, rfl⟩
    | succ k =>
      have hin : h + HEADER_SIZE + true_size (load64 s.mem h) ∈ walk s.mem (k + 1 + 1) h := by
        simp [walk]
      have h2 := (hyp _ hin).1
      have hlt : h + HEADER_SIZE + true_size (load64 s.mem h) < WORD := by
        simp only [HEADER_SIZE] at *; omega
      rw [next_header_eq _ _ hlt]
      apply ih
      intro x hx
      apply hyp
      rw [walk, List.mem_cons]
      right; exact hx

/-- In a tiled state of the implicit allocator in which no walked block is free with true
size at least `addpad n ALIGNMENT`, `mymalloc n` returns null and the state it was given. -/
theorem implicit_malloc_no_fit (M : Nat) (s : Implicit.Heap) (n : Nat)
    (hregion : s.segment_start + s.segment_size ≤ WORD)
    (htile : Implicit.tiling s = true)
    (hnofit : ∀ h ∈ walk s.mem s.num_header.toNat s.segment_start,
        is_used (load64 s.mem h) = true ∨ true_size (load64 s.mem h) < addpad n ALIGNMENT) :
    Implicit.mymalloc M s n = (0, s) := by
  unfold Implicit.mymalloc
  split_ifs with hrej
  · rfl
  · obtain ⟨c, i, hloop⟩ := implicit_loop_no_fit (addpad n ALIGNMENT) s s.num_header.toNat 0
      s.segment_start (fun x hx => ⟨le_trans (tiled_inside htile x hx) hregion, hnofit x hx⟩)
    simp [hloop]

/-- The search loop of the implicit `mymalloc` passes over the blocks that are in use or too
small and stops at the first block `x` that is free and large enough, with `cnt` advanced by
the number of blocks passed and the state not yet touched. -/
theorem implicit_loop_skip (needed : Nat) (s : Implicit.Heap) (x : Nat) (post : List Nat) :
    ∀ (pre : List Nat) (n : Nat) (cnt : Int) (h : Nat),
      walk s.mem n h = pre ++ x :: post →
      (∀ y ∈ pre ++ x :: post, y + 8 + true_size (load64 s.mem y) ≤ WORD) →
      (∀ y ∈ pre, is_used (load64 s.mem y) = true ∨ true_size (load64 s.mem y) < needed) →
      Implicit.mymalloc_loop needed n s cnt h
        = Implicit.mymalloc_loop needed (post.length + 1) s (cnt + (pre.length : Int)) x := by
  intro pre
  induction pre with
  | nil =>
    intro n cnt h hw _ _
    cases n with
    | zero => simp [walk] at hw
    | succ k =>
      rw [walk] at hw
      have h1 := List.cons.inj hw
      have hlen : (walk s.mem k (h + HEADER_SIZE + true_size (load64 s.mem h))).length
          = post.length := by rw [h1.2]
      have hk : k = post.length := by
        rw [← hlen]
        clear hlen h1 hw
        generalize h + HEADER_SIZE + true_size (load64 s.mem h) = h'
        induction k generalizing h' with
        | zero => rfl
        | succ j ih => rw [walk, List.length_cons, ← ih]
      rw [h1.1, hk]
      simp
  | cons a r ih =>
    intro n cnt h hw hb hs
    cases n with
    | zero => simp [walk] at hw
    | succ k =>
      rw [walk] at hw
      have h1 := List.cons.inj hw
      have ha : h = a := h1.1
      have h2 : walk s.mem k (h + HEADER_SIZE + true_size (load64 s.mem h))
          = r ++ x :: post := h1.2
      subst ha
      have hh := hs h (List.mem_cons_self _ _)
      have hnf : ¬ (needed ≤ load64 s.mem h ∧ Nat.land (load64 s.mem h) 1 = 0) := by
        rw [land_one]
        rcases hh with hu | hsm
        · simp [is_used] at hu; omega
        · simp only [true_size] at hsm; omega
      have hnext : h + HEADER_SIZE + true_size (load64 s.mem h) ∈ r ++ x :: post := by
        rw [← h2]
        cases k with
        | zero =>
          have := h2
          rw [walk] at this
          cases r <;> simp at this
        | succ j => rw [walk]; exact List.mem_cons_self _ _
      have hlt : h + HEADER_SIZE + true_size (load64 s.mem h) < WORD := by
        have := hb _ (List.mem_cons_of_mem _ hnext)
        omega
      rw [Implicit.mymalloc_loop, if_neg hnf, next_header_eq _ _ hlt,
        ih k (cnt + 1) _ h2 (fun y hy => hb y (List.mem_cons_of_mem _ hy))
          (fun y hy => hs y (List.mem_cons_of_mem _ hy))]
      simp only [List.length_cons, Nat.cast_add, Nat.cast_one]
      congr 1
      omega

theorem walk_length (m : Mem) : ∀ (n h : Nat), (walk m n h).length = n := by
  intro n
  induction n with
  | zero => intro h; rfl
  | succ k ih => intro h; rw [walk, List.length_cons, ih]

/-- One turn of the search loop of the implicit `mymalloc` at a free block that is large
enough and is not the last one: the block is taken at its size. -/
theorem implicit_loop_take_whole (needed : Nat) (s : Implicit.Heap) (x k : Nat) (cnt : Int)
    (hfit : needed ≤ load64 s.mem x) (hfree : load64 s.mem x % 2 = 0)
    (hc : cnt ≠ s.num_header - 1) :
    Implicit.mymalloc_loop needed (k + 1) s cnt x
      = (cnt, x, true,
          { s with nbytes_inuse := wrap (s.nbytes_inuse + load64 s.mem x),
                   mem := store64 s.mem x (Nat.lor (load64 s.mem x) 1) }) := by
  rw [Implicit.mymalloc_loop,
    if_pos (show needed ≤ load64 s.mem x ∧ Nat.land (load64 s.mem x) 1 = 0 from
      ⟨hfit, by rw [land_one]; exact hfree⟩)]
  simp only [if_neg hc]

/-- One turn of the search loop of the implicit `mymalloc` at a free block that is large
enough and is the last one: the block is cut to the padded size. -/
theorem implicit_loop_take_last (needed : Nat) (s : Implicit.Heap) (x k : Nat) (cnt : Int)
    (hfit : needed ≤ load64 s.mem x) (hfree : load64 s.mem x % 2 = 0)
    (hc : cnt = s.num_header - 1) :
    Implicit.mymalloc_loop needed (k + 1) s cnt x
      = (cnt, x, true,
          { s with nused := wrap (s.nused + needed),
                   nbytes_inuse := wrap (s.nbytes_inuse + needed),
                   mem := store64 (store64 s.mem x needed) x
                     (Nat.lor (load64 (store64 s.mem x needed) x) 1) }) := by
  rw [Implicit.mymalloc_loop,
    if_pos (show needed ≤ load64 s.mem x ∧ Nat.land (load64 s.mem x) 1 = 0 from
      ⟨hfit, by rw [land_one]; exact hfree⟩)]
  simp only [if_pos hc]

theorem sub64_wrap_succ (v : Nat) (hv : v < WORD) : sub64 (wrap (v + 1)) 1 = v := by
  unfold sub64 wrap WORD
  unfold WORD at hv
  omega

/-! ## Worked runs of the explicit allocator -/

/-- C1: in the explicit variant `init(128); allocate(120)` and `init(24); allocate(8)` both
succeed, raise the block count to 2 and write a second header at `base + capacity`, outside
the region, holding `2 ^ 64 - 8`; the tiling invariant does not hold afterwards. -/
theorem explicit_exact_fit_breaks_tiling :
    ((Explicit.init_then_malloc (Explicit.fresh (fun _ => 0)) 4096 128 120).map
        (fun r => (r.1, r.2.num_header, load64 r.2.mem 4096, load64 r.2.mem (4096 + 128),
          Explicit.tiling r.2))
      = some (4104, 2, 121, 2 ^ 64 - 8, false))
    ∧ ((Explicit.init_then_malloc (Explicit.fresh (fun _ => 0)) 4096 24 8).map
        (fun r => (r.1, r.2.num_header, load64 r.2.mem 4096, load64 r.2.mem (4096 + 24),
          Explicit.tiling r.2))
      = some (4104, 2, 17, 2 ^ 64 - 8, false)) := by
  constructor <;> decide

/-- C2: in the implicit variant, after `init(128); p = allocate(120); free(p); allocate(8)`
the last call returns the payload at `base + 8`, the block count is 2, the second header (at
`base + 16`) holds `2 ^ 64 - 16`, the counter `nused` is 144, and neither the tiling
invariant nor `validate_heap` holds. -/
theorem implicit_refit_breaks_tiling :
    (Implicit.run_refit.1, Implicit.run_refit.2.num_header,
      load64 Implicit.run_refit.2.mem 4096, load64 Implicit.run_refit.2.mem (4096 + 16),
      Implicit.run_refit.2.nused, Implicit.tiling Implicit.run_refit.2,
      Implicit.validate_heap Implicit.run_refit.2)
      = (4104, 2, 9, 2 ^ 64 - 16, 144, false, false) := by
  decide

/-- C3: in the explicit variant, after `init(128); a = allocate(16); reallocate(a, 200)` the
call returns null, the only block (header `121` at `base`) is in use, the block walker finds
no free block, yet the free list still holds that block, and `validate_heap` answers
`false`. -/
theorem explicit_failed_realloc_leaves_used_block_listed :
    ((Explicit.run_failed_realloc []).map
        (fun r => (r.1, r.2.2.1, r.2.2.2.num_header, load64 r.2.2.2.mem 4096,
          free_blocks r.2.2.2.mem 4096 1))
      = some (4104, 0, 1, 121, []))
    ∧ ((Explicit.run_failed_realloc []).map
        (fun r => (r.2.2.2.start, Explicit.list_members r.2.2.2.mem 8 r.2.2.2.start,
          Explicit.validate_heap 8 r.2.2.2))
      = some (4104, some [4096], some false)) := by
  constructor <;> decide

/-- C4: in the explicit variant, after `init(128); allocate(104)` the block walker finds a
free block at `base + 112` whose true size is 8, below `sizeof(listnode) = 16`; its list node
at `base + 120` is the free-list head, so the `nxt` field lies at `base + 128`, past the
region. -/
theorem explicit_split_leaves_undersized_free_block :
    (Explicit.init_then_malloc (Explicit.fresh (fun _ => 0)) 4096 128 104).map
        (fun r => (r.1, r.2.num_header, load64 r.2.mem 4096,
          free_blocks r.2.mem 4096 2, true_size (load64 r.2.mem (4096 + 112)), r.2.start))
      = some (4104, 2, 105, [4096 + 112], 8, 4096 + 120) := by
  decide

/-- C5: in the explicit variant, after `init(128); a = allocate(16)`, sixteen bytes `0xAB`
stored at `a` and `reallocate(a, 200)`: before the call the header of `a` is `17` and the
payload reads back as stored; the call returns null, and afterwards the header is `121`, the
sixteen payload bytes are all zero, and the block is the member of the free list. -/
theorem explicit_failed_realloc_clobbers_block :
    ((Explicit.run_failed_realloc (List.replicate 16 171)).map
        (fun r => (r.1, load64 r.2.1.mem 4096, read_bytes r.2.1.mem r.1 16))
      = some (4104, 17, List.replicate 16 171))
    ∧ ((Explicit.run_failed_realloc (List.replicate 16 171)).map
        (fun r => (r.2.2.1, load64 r.2.2.2.mem 4096, read_bytes r.2.2.2.mem r.1 16,
          Explicit.list_members r.2.2.2.mem 8 r.2.2.2.start))
      = some (0, 121, List.replicate 16 0, some [4096])) := by
  constructor <;> decide

/-- C6: in the implicit variant, for every state that satisfies the tiling invariant inside
a region ending at or below `2 ^ 64`, every non-null payload `p` whose header is in use and
every `n > 0` above the block's true size: when no walked block is free with true size at
least `round_up(n, A)`, `reallocate(p, n)` returns null together with the very state it was
given (memory, block count and counters all unchanged). -/
theorem implicit_failed_realloc_keeps_state (M : Nat) (s : Implicit.Heap) (p n : Nat)
    (hregion : s.segment_start + s.segment_size ≤ WORD)
    (htile : Implicit.tiling s = true)
    (hp : p ≠ 0) (hn : 0 < n)
    (hused : is_used (load64 s.mem (sub64 p HEADER_SIZE)) = true)
    (hbig : true_size (load64 s.mem (sub64 p HEADER_SIZE)) < n)
    (hnofit : ∀ h ∈ walk s.mem s.num_header.toNat s.segment_start,
        is_used (load64 s.mem h) = true ∨ true_size (load64 s.mem h) < addpad n ALIGNMENT) :
    Implicit.myrealloc M s p n = (0, s) := by
  have hl := load64_lt s.mem (sub64 p HEADER_SIZE)
  have hsmall : ¬ sub64 (load64 s.mem (sub64 p HEADER_SIZE)) 1 ≥ n := by
    simp only [is_used, decide_eq_true_eq] at hused
    rw [sub64_of_le hl (by omega)]
    simp only [true_size] at hbig
    omega
  unfold Implicit.myrealloc
  rw [if_neg hp, if_neg (by omega), if_neg hsmall,
    implicit_malloc_no_fit M s n hregion htile hnofit]
  simp

/-- Witness for C6: `reallocate(p, 200)` on the full 128-byte heap. -/
theorem implicit_failed_realloc_keeps_state_witness :
    Implicit.myrealloc scenarioMax Implicit.full_heap 4104 200 = (0, Implicit.full_heap) :=
  implicit_failed_realloc_keeps_state scenarioMax Implicit.full_heap 4104 200
    (by decide) (by decide) (by decide) (by decide) (by decide) (by decide) (by decide)

/-- C7: in the explicit variant the scenario `run_realloc_clobber` ends with
`p = allocate(24)` returning the block `a` that the failed `reallocate(a, 1000)` left on the
free list, and `q = reallocate(p, 48)` returning `q = p` with bytes 16 to 23 overwritten by
a free-list link (the header address `4096`) instead of the stored `0xAB`. -/
theorem explicit_realloc_loses_payload_bytes :
    Explicit.run_realloc_clobber
      = some (4104, 0, 4104, 4104, List.replicate 16 171 ++ [0, 16, 0, 0, 0, 0, 0, 0]) := by
  decide

/-- C8 (counterexample): after `init(128)`, three times `allocate(16)` giving `a, b, c`,
then `free(b); free(c)`, the state is well formed with free list `[c, b]`; after the
following `free(a)` two blocks remain, the freed block at `base` has true size 40 and the
block that follows it (true size 72) has its in-use flag clear. -/
theorem explicit_free_leaves_free_right_neighbour :
    ((Explicit.run_three_then_free [1, 2]).map
        (fun s => decide (Explicit.well_formed s [4144, 4120])) = some true)
    ∧ ((Explicit.run_three_then_free [1, 2, 0]).map
        (fun s => (s.num_header, load64 s.mem 4096,
          load64 s.mem (4096 + HEADER_SIZE + true_size (load64 s.mem 4096)),
          is_used (load64 s.mem (4096 + HEADER_SIZE + true_size (load64 s.mem 4096)))))
      = some (2, 40, 72, false)) := by
  constructor <;> decide

/-- C8 (amended): in a well-formed state of the explicit allocator, `free` of the payload of
an in-use block `hdr` whose right neighbour `R` is a block of the region changes no other
block header; when `R` is in use the freed block keeps its true size, the block count is
unchanged and the block following it is in use; when `R` is free the freed block grows by
`HEADER_SIZE + true_size R`, the block count drops by one, and the block that follows it
afterwards is the former right neighbour of `R` with its in-use flag as before the call. -/
theorem explicit_free_merges_one_right_neighbour (s : Explicit.Heap) (L : List Nat) (hdr : Nat)
    (hwf : Explicit.well_formed s L)
    (hmem : hdr ∈ walk s.mem s.num_header.toNat s.segment_start)
    (hused : is_used (load64 s.mem hdr) = true)
    (hR : hdr + HEADER_SIZE + true_size (load64 s.mem hdr)
      ∈ walk s.mem s.num_header.toNat s.segment_start) :
    let R := hdr + HEADER_SIZE + true_size (load64 s.mem hdr)
    let s' := Explicit.myfree s (hdr + HEADER_SIZE)
    (∀ y ∈ walk s.mem s.num_header.toNat s.segment_start, y ≠ hdr →
        load64 s'.mem y = load64 s.mem y)
    ∧ (is_used (load64 s.mem R) = true →
        load64 s'.mem hdr = true_size (load64 s.mem hdr)
        ∧ s'.num_header = s.num_header
        ∧ is_used (load64 s'.mem (hdr + HEADER_SIZE + true_size (load64 s'.mem hdr))) = true)
    ∧ (is_used (load64 s.mem R) = false →
        load64 s'.mem hdr
          = true_size (load64 s.mem hdr) + HEADER_SIZE + true_size (load64 s.mem R)
        ∧ s'.num_header = s.num_header - 1
        ∧ (R + HEADER_SIZE + true_size (load64 s.mem R)
              ∈ walk s.mem s.num_header.toNat s.segment_start →
            is_used (load64 s'.mem (hdr + HEADER_SIZE + true_size (load64 s'.mem hdr)))
              = is_used (load64 s.mem (R + HEADER_SIZE + true_size (load64 s.mem R))))) := by
  simp only [HEADER_SIZE] at hR ⊢
  have hb := Explicit.wf_block hwf hmem
  have hbR := Explicit.wf_block hwf hR
  obtain ⟨hother, hu, hf⟩ := Explicit.myfree_headers hwf hmem hused hR
  have hev0 : (true_size (load64 s.mem hdr)) % 2 = 0 := by unfold true_size; omega
  refine ⟨hother, fun h => ?_, fun h => ?_⟩
  · obtain ⟨h1, h2⟩ := hu h
    refine ⟨h1, h2, ?_⟩
    rw [h1, Explicit.true_size_of_free (by omega), hother _ hR (by omega)]
    exact h
  · obtain ⟨h1, h2⟩ := hf h
    have hodd : ¬ (load64 s.mem (hdr + 8 + true_size (load64 s.mem hdr))) % 2 = 1 := by
      simpa [is_used] using h
    have htR := Explicit.true_size_of_free hodd
    rw [htR]
    refine ⟨h1, h2, fun hR' => ?_⟩
    have hbR' := Explicit.wf_block hwf hR'
    rw [h1, Explicit.true_size_of_free (by omega)]
    have e : hdr + 8 + (true_size (load64 s.mem hdr) + 8
          + load64 s.mem (hdr + 8 + true_size (load64 s.mem hdr)))
        = hdr + 8 + true_size (load64 s.mem hdr) + 8
          + load64 s.mem (hdr + 8 + true_size (load64 s.mem hdr)) := by omega
    rw [e, hother _ hR' (by omega)]

/-- Witness for C8: `free(a)` in the state `[used 16, free 16, used 16, free 48]`, where the
right neighbour of `a` is free. -/
theorem explicit_free_merges_one_right_neighbour_witness :
    Explicit.well_formed Explicit.middle_freed [4120, 4168]
    ∧ load64 (Explicit.myfree Explicit.middle_freed (4096 + HEADER_SIZE)).mem 4096
      = true_size (load64 Explicit.middle_freed.mem 4096) + HEADER_SIZE
        + true_size (load64 Explicit.middle_freed.mem
            (4096 + HEADER_SIZE + true_size (load64 Explicit.middle_freed.mem 4096))) :=
  ⟨by decide,
    ((explicit_free_merges_one_right_neighbour Explicit.middle_freed [4120, 4168] 4096
      (by decide) (by decide) (by decide) (by decide)).2.2 (by decide)).1⟩

/-- C9: in the explicit variant, after `init(72); a = allocate(8); reallocate(a, 48)` the free
list is empty (`start` is null) and no block is free; `allocate(1)` then reads its first
header at address `2 ^ 64 - 8`, eight bytes below the null pointer: over zeroed memory it
returns null, and when that word outside the region holds `8` it sets the flag in that word
and raises `nbytes_inuse` from 16 to 24. -/
theorem explicit_malloc_on_empty_list_reads_below_null :
    ((Explicit.run_exhaust (fun _ => 0)).bind
        (fun s => (Explicit.mymalloc scenarioMax 8 s 1).map
          (fun r => (s.start, free_blocks s.mem 4096 s.num_header.toNat, s.nbytes_inuse,
            r.1, r.2.nbytes_inuse)))
      = some (0, [], 16, 0, 16))
    ∧ ((Explicit.run_exhaust (fun x => if x = 2 ^ 64 - 8 then 8 else 0)).map
        (fun s => (s.start, free_blocks s.mem 4096 s.num_header.toNat, s.nbytes_inuse,
            load64 s.mem (2 ^ 64 - 8)))
      = some (0, [], 16, 8))
    ∧ ((Explicit.run_exhaust (fun x => if x = 2 ^ 64 - 8 then 8 else 0)).bind
        (fun s => (Explicit.mymalloc scenarioMax 8 s 1).map
          (fun r => (r.1, r.2.nbytes_inuse, load64 r.2.mem (2 ^ 64 - 8))))
      = some (0, 24, 9)) := by
  refine ⟨?_, ?_, ?_⟩ <;> decide

/-- C10: `init(base, 29)` succeeds in both variants and stores the header word `21`, whose
in-use bit is 1 and whose true size is 20, not `29 - 8 = 21`. -/
theorem init_odd_capacity_sets_in_use_bit :
    ((Explicit.myinit (Explicit.fresh (fun _ => 0)) 4096 29).1,
      load64 (Explicit.myinit (Explicit.fresh (fun _ => 0)) 4096 29).2.mem 4096,
      (Implicit.myinit (Implicit.fresh (fun _ => 0)) 4096 29).1,
      load64 (Implicit.myinit (Implicit.fresh (fun _ => 0)) 4096 29).2.mem 4096,
      is_used 21, true_size 21)
      = (true, 21, true, 21, true, 20) := by
  decide

/-- C11: with base `4096` and capacity `256`, both multiples of 8, the scenario
`run_misaligned` has the explicit `reallocate(a, 1000)` return null and the following
`allocate(72)` return `4129`, which is not a multiple of 8. -/
theorem explicit_malloc_returns_misaligned_pointer :
    Explicit.run_misaligned = some (4104, 0, 4129) ∧ 4096 % ALIGNMENT = 0
      ∧ 256 % ALIGNMENT = 0 ∧ 4129 % ALIGNMENT = 1 := by
  decide

/-- C14 (counterexample): in scenario S3 of the explicit variant `reallocate(b, 48)` returns
`b` itself, and afterwards the block at `b` is in use; so it is not the case that the result
differs from `b` and the block formerly at `b` is free. -/
theorem explicit_s3_block_not_moved :
    ¬ ((Explicit.run_s3.map
          (fun r => decide (r.2.2.1 ≠ r.2.1)
            && !is_used (load64 r.2.2.2.mem (r.2.1 - HEADER_SIZE)))) = some true) := by
  decide

/-- C14 (amended): in scenario S3 of the explicit variant `reallocate(b, 48)` returns `b`:
the block grows in place by absorbing the free tail to its right and is split again, leaving
the three blocks `[free 16, used 48, free 40]` with free list `[4176, 4096]`; the free left
neighbour `a` is not absorbed. -/
theorem explicit_s3_grows_in_place :
    (Explicit.run_s3.map (fun r => (r.1, r.2.1, r.2.2.1, r.2.2.2.num_header))
      = some (4104, 4128, 4128, 3))
    ∧ (Explicit.run_s3.map
        (fun r => ((walk r.2.2.2.mem 3 4096).map (load64 r.2.2.2.mem),
          Explicit.list_members r.2.2.2.mem 8 r.2.2.2.start,
          decide (Explicit.well_formed r.2.2.2 [4176, 4096])))
      = some ([16, 49, 40], some [4176, 4096], true)) := by
  constructor <;> decide

/-- C15: in both variants, for a non-null payload `p` whose header is in use and every `n`
with `0 < n` and `n` at most the block's true size, `reallocate(p, n)` returns `p` together
with the very state it was given, so the header, the block count and the free list are
unchanged; the explicit call needs no fuel for this. -/
theorem realloc_within_size_is_identity (M fuel p n : Nat) (hp : p ≠ 0) (hn : 0 < n) :
    (∀ s : Explicit.Heap, is_used (load64 s.mem (sub64 p HEADER_SIZE)) = true →
        n ≤ true_size (load64 s.mem (sub64 p HEADER_SIZE)) →
        Explicit.myrealloc M fuel s p n = some (p, s))
    ∧ (∀ s : Implicit.Heap, is_used (load64 s.mem (sub64 p HEADER_SIZE)) = true →
        n ≤ true_size (load64 s.mem (sub64 p HEADER_SIZE)) →
        Implicit.myrealloc M s p n = (p, s)) := by
  have key : ∀ h : Nat, h < WORD → is_used h = true → n ≤ true_size h → sub64 h 1 ≥ n := by
    intro h hl hu hle
    simp only [is_used, decide_eq_true_eq] at hu
    rw [sub64_of_le hl (by omega)]
    rw [Explicit.true_size_of_used hu] at hle
    exact hle
  constructor
  · intro s hu hle
    unfold Explicit.myrealloc
    rw [if_neg hp, if_neg (by omega), if_pos (key _ (load64_lt _ _) hu hle)]
  · intro s hu hle
    unfold Implicit.myrealloc
    rw [if_neg hp, if_neg (by omega), if_pos (key _ (load64_lt _ _) hu hle)]

/-- Witness for C15: `reallocate(a, 16)` on the 16-byte block `a` of the state
`[used 16, free 16, used 16, free 48]`, and `reallocate(p, 100)` on the full implicit heap. -/
theorem realloc_within_size_is_identity_witness :
    Explicit.myrealloc scenarioMax 0 Explicit.middle_freed 4104 16
        = some (4104, Explicit.middle_freed)
    ∧ Implicit.myrealloc scenarioMax Implicit.full_heap 4104 100 = (4104, Implicit.full_heap) :=
  ⟨(realloc_within_size_is_identity scenarioMax 0 4104 16 (by decide) (by decide)).1
      Explicit.middle_freed (by decide) (by decide),
    (realloc_within_size_is_identity scenarioMax 0 4104 100 (by decide) (by decide)).2
      Implicit.full_heap (by decide) (by decide)⟩

/-- C16: in both variants, for every state and every `n` with `n = 0` or
`n > MAX_REQUEST_SIZE`, `allocate(n)` returns null together with the very state it was given
(no header, link, block count or counter changes); the explicit call needs no fuel. -/
theorem malloc_rejects_bad_sizes (M fuel n : Nat) (hn : n = 0 ∨ n > M) :
    (∀ s : Explicit.Heap, Explicit.mymalloc M fuel s n = some (0, s))
    ∧ (∀ s : Implicit.Heap, Implicit.mymalloc M s n = (0, s)) := by
  have hc : n ≤ 0 ∨ n > M := by omega
  constructor
  · intro s
    unfold Explicit.mymalloc
    rw [if_pos hc]
  · intro s
    unfold Implicit.mymalloc
    rw [if_pos hc]

/-- Witness for C16: `allocate(0)` on the state `[used 16, free 16, used 16, free 48]` and on
the full implicit heap. -/
theorem malloc_rejects_bad_sizes_witness :
    Explicit.mymalloc scenarioMax 0 Explicit.middle_freed 0 = some (0, Explicit.middle_freed)
    ∧ Implicit.mymalloc scenarioMax Implicit.full_heap 0 = (0, Implicit.full_heap) :=
  ⟨(malloc_rejects_bad_sizes scenarioMax 0 0 (Or.inl rfl)).1 Explicit.middle_freed,
    (malloc_rejects_bad_sizes scenarioMax 0 0 (Or.inl rfl)).2 Implicit.full_heap⟩

/-- C19: in the explicit variant, after `init(72); a = allocate(8); reallocate(a, 48)` the
block of `a` (header `65`) is the only block and ends at the end of the region; `free(a)` reads
the word at `base + 72`, just past the region.  Over zeroed memory that word is even, and
the call raises the header to `72`, lowers the block count from 1 to 0 and stores the header
address `4096` at address `16`; when that word holds `1` the header becomes `64` and the
block count stays 1. -/
theorem explicit_free_of_last_block_reads_past_region :
    ((Explicit.run_free_last (fun _ => 0)).map
        (fun r => (r.1, load64 r.2.1.mem 4096, r.2.1.num_header,
          load64 r.2.2.mem 4096, r.2.2.num_header))
      = some (4104, 65, 1, 72, 0))
    ∧ ((Explicit.run_free_last (fun _ => 0)).map
        (fun r => (load64 r.2.1.mem 16, load64 r.2.2.mem 16)) = some (0, 4096))
    ∧ ((Explicit.run_free_last (fun x => if x = 4096 + 72 then 1 else 0)).map
        (fun r => (r.1, load64 r.2.1.mem 4096, r.2.1.num_header,
          load64 r.2.2.mem 4096, r.2.2.num_header))
      = some (4104, 65, 1, 64, 1)) := by
  refine ⟨?_, ?_, ?_⟩ <;> decide

/-- C12: in a consistent state of the explicit allocator with free list `L`, for an
allocated block `hdr` (in use, of true size at least 8, as every block handed out by
`mymalloc` or `myrealloc` is: a request is padded to a positive multiple of 8 and the block
is at least that large) whose right neighbour `R` is a free block of the region, after
`free(hdr + HEADER_SIZE)` the block at `hdr` is free with true size
`old_size + HEADER_SIZE + true_size R`, the block count is one less, the free-list head is
the freed block, and the links in memory spell out `hdr` followed by `L` with `R` removed,
the other members in their original order, with consistent back-links. -/
theorem explicit_free_merge_updates_list (s : Explicit.Heap) (L : List Nat) (hdr : Nat)
    (hcon : Explicit.consistent s L)
    (hmem : hdr ∈ walk s.mem s.num_header.toNat s.segment_start)
    (hused : is_used (load64 s.mem hdr) = true)
    (hsz : HEADER_SIZE ≤ true_size (load64 s.mem hdr))
    (hR : hdr + HEADER_SIZE + true_size (load64 s.mem hdr)
      ∈ walk s.mem s.num_header.toNat s.segment_start)
    (hRf : is_used (load64 s.mem (hdr + HEADER_SIZE + true_size (load64 s.mem hdr))) = false) :
    is_used (load64 (Explicit.myfree s (hdr + HEADER_SIZE)).mem hdr) = false
    ∧ true_size (load64 (Explicit.myfree s (hdr + HEADER_SIZE)).mem hdr)
        = true_size (load64 s.mem hdr) + HEADER_SIZE
          + true_size (load64 s.mem (hdr + HEADER_SIZE + true_size (load64 s.mem hdr)))
    ∧ (Explicit.myfree s (hdr + HEADER_SIZE)).num_header = s.num_header - 1
    ∧ (Explicit.myfree s (hdr + HEADER_SIZE)).start = hdr + HEADER_SIZE
    ∧ Explicit.chain (Explicit.myfree s (hdr + HEADER_SIZE)).mem 0
        (hdr :: L.erase (hdr + HEADER_SIZE + true_size (load64 s.mem hdr))) := by
  simp only [HEADER_SIZE] at hsz hR hRf ⊢
  obtain ⟨h1, h2, h3, h4⟩ := Explicit.myfree_merge hcon hmem hused hsz hR hRf
  have hodd : ¬ (load64 s.mem (hdr + 8 + true_size (load64 s.mem hdr))) % 2 = 1 := by
    simpa [is_used] using hRf
  have htR := Explicit.true_size_of_free hodd
  have hev0 : (true_size (load64 s.mem hdr)) % 2 = 0 := by unfold true_size; omega
  have hev : ¬ (true_size (load64 s.mem hdr) + 8
      + load64 s.mem (hdr + 8 + true_size (load64 s.mem hdr))) % 2 = 1 := by omega
  refine ⟨?_, ?_, h2, h4, h3⟩
  · rw [h1]; simpa [is_used] using hev
  · rw [h1, Explicit.true_size_of_free hev, htR]

/-- Witness for C12: `free(a)` in the state `[used 16, free 16, used 16, free 48]` of S2
gives `[free 40, used 16, free 48]` with free list `[4096, 4168]`. -/
theorem explicit_free_merge_updates_list_witness :
    Explicit.consistent Explicit.middle_freed [4120, 4168]
    ∧ true_size (load64 (Explicit.myfree Explicit.middle_freed (4096 + HEADER_SIZE)).mem 4096)
        = 40
    ∧ Explicit.chain (Explicit.myfree Explicit.middle_freed (4096 + HEADER_SIZE)).mem 0
        [4096, 4168] :=
  have h := explicit_free_merge_updates_list Explicit.middle_freed [4120, 4168] 4096
    (by decide) (by decide) (by decide) (by decide) (by decide) (by decide)
  ⟨by decide, h.2.1.trans (by decide), h.2.2.2.2⟩

/-- C20: in a consistent state of the explicit allocator whose free list is
`pre ++ x :: post` (head first), for `0 < n ≤ MAX_REQUEST_SIZE`, when the blocks of `pre` are
smaller than `addpad n ALIGNMENT` and the block of `x` is not, `mymalloc` returns the payload
of `x` (given fuel for the nodes it passes); afterwards the links spell out `pre ++ post`,
the other members in their order, preceded by the node of the new tail header when `x` was
the last block of the region (the region then being taken to end at least 24 bytes below
`2 ^ 64`); and when `x` is not the last block it is taken whole: its in-use flag is set, its
true size, the block count and every other header are unchanged.  The padded size is `n`
rounded up to a multiple of 8. -/
theorem explicit_malloc_first_fit (M fuel : Nat) (s : Explicit.Heap) (pre post : List Nat)
    (x n : Nat)
    (hcon : Explicit.consistent s (pre ++ x :: post))
    (hn : 0 < n) (hM : n ≤ M)
    (hpre : ∀ y ∈ pre, true_size (load64 s.mem y) < addpad n ALIGNMENT)
    (hfit : addpad n ALIGNMENT ≤ true_size (load64 s.mem x))
    (hfuel : pre.length < fuel)
    (hroom : x + HEADER_SIZE + true_size (load64 s.mem x) = s.segment_start + s.segment_size →
      s.segment_start + s.segment_size + 24 ≤ WORD) :
    ∃ s', Explicit.mymalloc M fuel s n = some (x + HEADER_SIZE, s')
      ∧ Explicit.chain s'.mem 0
          ((if x + HEADER_SIZE + true_size (load64 s.mem x) = s.segment_start + s.segment_size
            then [x + HEADER_SIZE + max (addpad n ALIGNMENT) SIZEOF_LISTNODE] else [])
            ++ (pre ++ post))
      ∧ s'.start = Explicit.head_of
          ((if x + HEADER_SIZE + true_size (load64 s.mem x) = s.segment_start + s.segment_size
            then [x + HEADER_SIZE + max (addpad n ALIGNMENT) SIZEOF_LISTNODE] else [])
            ++ (pre ++ post))
      ∧ (x + HEADER_SIZE + true_size (load64 s.mem x) ≠ s.segment_start + s.segment_size →
          is_used (load64 s'.mem x) = true
          ∧ true_size (load64 s'.mem x) = true_size (load64 s.mem x)
          ∧ s'.num_header = s.num_header
          ∧ ∀ y ∈ walk s.mem s.num_header.toNat s.segment_start, y ≠ x →
              load64 s'.mem y = load64 s.mem y)
      ∧ (n + 7 < WORD → addpad n ALIGNMENT = (n + 7) / 8 * 8) := by
  simp only [HEADER_SIZE, ALIGNMENT, SIZEOF_LISTNODE] at hpre hfit hroom ⊢
  have hxL : x ∈ pre ++ x :: post := by simp
  have hxw := Explicit.con_free_word hcon hxL
  have hxT : true_size (load64 s.mem x) = load64 s.mem x :=
    Explicit.true_size_of_free (by omega)
  rw [hxT] at hfit hroom ⊢
  have hap := Explicit.con_apart hcon
  have hnd := Explicit.apart_nodup hap
  have hxpre : x ∉ pre := by
    intro h
    have := List.nodup_append.1 hnd
    exact this.2.2 h (List.mem_cons_self _ _)
  have herase : (pre ++ x :: post).erase x = pre ++ post := by
    rw [List.erase_append_right _ hxpre, List.erase_cons_head]
  have hpre' : ∀ y ∈ pre, load64 s.mem y < addpad n 8 := by
    intro y hy
    have hyw := Explicit.con_free_word hcon (List.mem_append_left _ hy)
    have := hpre y hy
    rwa [Explicit.true_size_of_free (by omega)] at this
  have hskip := Explicit.mymalloc_loop_skip (addpad n 8) s x post (fuel - pre.length) pre 0
    hcon.2.2.2.2.2.1 (fun y hy => Explicit.apart_mem hap hy) hpre'
  have hfuel' : fuel - pre.length + pre.length = fuel := by omega
  rw [hfuel', ← hcon.2.2.2.2.1] at hskip
  have hun : Explicit.mymalloc M fuel s n
      = Explicit.mymalloc_loop (addpad n 8) fuel s s.start := by
    unfold Explicit.mymalloc
    rw [if_neg (by omega)]
    simp only [ALIGNMENT]
  rw [hun, hskip]
  have hev := addpad_even n
  have hpad : n + 7 < WORD → addpad n 8 = (n + 7) / 8 * 8 := fun h => addpad_eq n h
  clear hun hskip hpre hpre' hxT
  generalize addpad n 8 = need at hfit hev hpad ⊢
  obtain ⟨f, hf⟩ : ∃ f, fuel - pre.length = f + 1 := ⟨fuel - pre.length - 1, by omega⟩
  rw [hf]
  by_cases hl : x + 8 + load64 s.mem x = s.segment_start + s.segment_size
  · have hr := hroom hl
    have hk16 : max need 16 ≤ load64 s.mem x := max_le hfit hxw.2.1
    obtain ⟨s', h1, h2, h3, -⟩ := Explicit.mymalloc_loop_take_last hcon hxL need f hfit
      hev hl (max need 16) (by rw [max_def]) (room_of_last x _ _ _ _ hk16 hl hr)
    have e : x + max need 16 + 8 = x + 8 + max need 16 := Nat.add_right_comm x _ 8
    rw [herase, e] at h2
    rw [e] at h3
    refine ⟨s', h1, ?_, ?_, fun h => absurd hl h, hpad⟩
    · rw [if_pos hl]
      exact h2
    · rw [if_pos hl, h3]
      rfl
  · obtain ⟨s', h1, h2, h3, h4, h5, h6, -⟩ :=
      Explicit.mymalloc_loop_take_whole hcon hxL need f hfit hl
    rw [herase] at h2 h3
    refine ⟨s', h1, ?_, ?_, fun _ => ⟨?_, ?_, h5, h6⟩, hpad⟩
    · rw [if_neg hl]; exact h2
    · rw [if_neg hl]; exact h3
    · rw [h4]; simp [is_used]; omega
    · rw [h4, Explicit.true_size_of_used (by omega)]; omega

/-- Witness for C20: in the state `[used 16, free 16, used 16, free 48]` with free list
`[4120, 4168]`, `allocate(24)` passes over the 16-byte block and returns the payload of the
block at `4168`; the list is then the new tail node followed by `4120`. -/
theorem explicit_malloc_first_fit_witness :
    Explicit.consistent Explicit.middle_freed ([4120] ++ 4168 :: [])
    ∧ ∃ s', Explicit.mymalloc scenarioMax 2 Explicit.middle_freed 24
        = some (4168 + HEADER_SIZE, s')
      ∧ Explicit.chain s'.mem 0 [4200, 4120] := by
  refine ⟨by decide, ?_⟩
  obtain ⟨s', h1, h2, -⟩ := explicit_malloc_first_fit scenarioMax 2 Explicit.middle_freed
    [4120] [] 4168 24 (by decide) (by decide) (by decide) (by decide) (by decide) (by decide)
    (by decide)
  exact ⟨s', h1, h2⟩

/-- C13: for a region of `capacity` bytes at a non-null `base` that ends at or below
`2 ^ 64`, `capacity` a multiple of 8, and a request `0 < n ≤ MAX_REQUEST_SIZE` with
`k + 32 ≤ capacity` for `k = max (round_up n 8) 16`: `init` succeeds, `allocate(n)` returns
the payload of the block at `base` and leaves the block table `[used k, free
capacity - 16 - k]` with the free-list head at the free tail, and the following `free`
leaves one block, free, of true size `capacity - 8`, which is the only member of the free
list, with `prev = next = null`. -/
theorem explicit_alloc_free_round_trip (M fuel : Nat) (s0 : Explicit.Heap)
    (base capacity n : Nat)
    (hbase : 0 < base) (hend : base + capacity ≤ WORD) (hcap : capacity % 8 = 0)
    (hn : 0 < n) (hM : n ≤ M)
    (hroom : max ((n + 7) / 8 * 8) SIZEOF_LISTNODE + 32 ≤ capacity) :
    (Explicit.myinit s0 base capacity).1 = true
    ∧ ∃ s2, Explicit.mymalloc M (fuel + 1) (Explicit.myinit s0 base capacity).2 n
        = some (base + HEADER_SIZE, s2)
      ∧ (walk s2.mem s2.num_header.toNat base).map
          (fun h => (h, is_used (load64 s2.mem h), true_size (load64 s2.mem h)))
        = [(base, true, max ((n + 7) / 8 * 8) SIZEOF_LISTNODE),
           (base + HEADER_SIZE + max ((n + 7) / 8 * 8) SIZEOF_LISTNODE, false,
             capacity - 16 - max ((n + 7) / 8 * 8) SIZEOF_LISTNODE)]
      ∧ s2.start = base + HEADER_SIZE + max ((n + 7) / 8 * 8) SIZEOF_LISTNODE + HEADER_SIZE
      ∧ (walk (Explicit.myfree s2 (base + HEADER_SIZE)).mem
            (Explicit.myfree s2 (base + HEADER_SIZE)).num_header.toNat base).map
          (fun h => (h, is_used (load64 (Explicit.myfree s2 (base + HEADER_SIZE)).mem h),
            true_size (load64 (Explicit.myfree s2 (base + HEADER_SIZE)).mem h)))
        = [(base, false, capacity - 8)]
      ∧ (Explicit.myfree s2 (base + HEADER_SIZE)).start = base + HEADER_SIZE
      ∧ Explicit.chain (Explicit.myfree s2 (base + HEADER_SIZE)).mem 0 [base] := by
  simp only [HEADER_SIZE, SIZEOF_LISTNODE] at hroom ⊢
  obtain ⟨i1, i2, i3, i4, i5, i6, i7⟩ :=
    Explicit.myinit_state s0 base capacity hbase hend (by omega)
  refine ⟨i1, ?_⟩
  generalize (Explicit.myinit s0 base capacity).2 = s1 at i2 i3 i4 i5 i6 i7 ⊢
  -- the padded size
  obtain ⟨r, hr⟩ : ∃ r, r = (n + 7) / 8 * 8 := ⟨_, rfl⟩
  rw [← hr] at hroom ⊢
  have hk16 : 16 ≤ max r 16 := le_max_right _ _
  have hkr : r ≤ max r 16 := le_max_left _ _
  have hkdef : max r 16 = if r ≤ 16 then 16 else r := by rw [max_def]
  have hrf := round_up_facts n r capacity WORD hr (by omega) (by omega)
  have hpad : addpad n 8 = r := by rw [hr]; exact addpad_eq n hrf.1
  have hkev : max r 16 % 2 = 0 := by rw [hkdef]; split_ifs <;> omega
  have hun : Explicit.mymalloc M (fuel + 1) s1 n
      = Explicit.mymalloc_loop r (fuel + 1) s1 (base + 8) := by
    unfold Explicit.mymalloc
    rw [if_neg (by omega)]
    simp only [ALIGNMENT, hpad, i5]
  rw [hun]
  clear hun hpad hr hn hM
  generalize max r 16 = k at hroom hk16 hkr hkdef hkev ⊢
  -- the state after `init`
  have hcon1 : Explicit.consistent s1 [base] := by
    have := Explicit.consistent_one s1 (capacity - 8) i4 (by rw [i2]; exact hbase)
      (by rw [i2, i3]; exact hend) (by rw [i3]; omega) (by rw [i2]; exact i6) (by omega)
      (by omega) (by rw [i2]; exact i5) (by rw [i2]; exact i7)
    rw [i2] at this
    exact this
  obtain ⟨s2, h1, h2, h3, h4, h5, h6, -, h8, h9⟩ :=
    Explicit.mymalloc_loop_take_last hcon1 (List.mem_singleton.2 rfl) r fuel
      (by rw [i6]; exact hrf.2.2) hrf.2.1 (by rw [i6, i2, i3]; omega) k hkdef (by omega)
  rw [List.erase_cons_head, Nat.add_right_comm base k 8] at h2
  rw [Nat.add_right_comm base k 8] at h3 h5
  have e5 : sub64 (capacity - 8) 8 = capacity - 8 - 8 := sub64_of_le (by omega) (by omega)
  have e6 : sub64 (capacity - 8 - 8) k = capacity - 8 - 8 - k :=
    sub64_of_le (by omega) (by omega)
  rw [i6, e5, e6] at h5
  clear e5 e6
  rw [i4] at h6
  rw [i2] at h8
  rw [i3] at h9
  clear hcon1 i2 i3 i4 i5 i6 i7
  refine ⟨s2, h1, ?_⟩
  clear h1
  have hn2 : s2.num_header = 2 := by rw [h6]; rfl
  have htk : true_size (k + 1) = k := by rw [Explicit.true_size_of_used (by omega)]; omega
  have htr : true_size (capacity - 8 - 8 - k) = capacity - 8 - 8 - k :=
    Explicit.true_size_of_free (by omega)
  have hw2 : walk s2.mem s2.num_header.toNat base = [base, base + 8 + k] := by
    rw [hn2]
    show [base, base + HEADER_SIZE + true_size (load64 s2.mem base)] = _
    rw [h4, htk]; rfl
  have hu1 : is_used (k + 1) = true := by simp [is_used]; omega
  have hu2 : is_used (capacity - 8 - 8 - k) = false := by simp [is_used]; omega
  have hcon2 : Explicit.consistent s2 [base + 8 + k] := by
    have := Explicit.consistent_two s2 k (capacity - 8 - 8 - k) hn2 (by rw [h8]; exact hbase)
      (by rw [h8, h9]; exact hend) (by rw [h9]; omega) (by rw [h8]; exact h4) hkev
      (by rw [h8]; exact h5) (by omega) (by omega) (by rw [h8]; exact h3)
      (by rw [h8]; exact h2)
    rw [h8] at this
    exact this
  have hfree := @Explicit.myfree_merge _ _ hcon2 base
    (by rw [h8, hw2]; exact List.mem_cons_self _ _) (by rw [h4]; exact hu1)
    (by rw [h4, htk]; omega)
    (by rw [h4, htk, h8, hw2]; exact List.mem_cons_of_mem _ (List.mem_singleton.2 rfl))
    (by rw [h4, htk, h5]; exact hu2)
  rw [h4, htk, h5, List.erase_cons_head, hn2] at hfree
  obtain ⟨f1, f2, f3, f4⟩ := hfree
  have e3 : k + 8 + (capacity - 8 - 8 - k) = capacity - 8 := by omega
  rw [e3] at f1
  have ht3 : true_size (capacity - 8) = capacity - 8 := Explicit.true_size_of_free (by omega)
  have hu3 : is_used (capacity - 8) = false := by simp [is_used]; omega
  refine ⟨?_, h3, ?_, f4, f3⟩
  · rw [hw2]
    simp only [List.map, h4, h5, htk, htr, hu1, hu2]
    have e4 : capacity - 8 - 8 - k = capacity - 16 - k := by omega
    rw [e4]
  · rw [f2]
    show [(base, is_used (load64 (Explicit.myfree s2 (base + 8)).mem base),
      true_size (load64 (Explicit.myfree s2 (base + 8)).mem base))] = _
    rw [f1, ht3, hu3]

/-- Witness for C13: S1, `init(4096, 128); p = allocate(24); free(p)`: the block table is
`[used 24, free 88]` after the allocation and `[free 120]` after the free. -/
theorem explicit_alloc_free_round_trip_witness :
    (0 < 4096 ∧ 4096 + 128 ≤ WORD ∧ 128 % 8 = 0
      ∧ max ((24 + 7) / 8 * 8) SIZEOF_LISTNODE + 32 ≤ 128)
    ∧ ∃ s2, Explicit.mymalloc scenarioMax 1
          (Explicit.myinit (Explicit.fresh (fun _ => 0)) 4096 128).2 24
        = some (4096 + HEADER_SIZE, s2)
      ∧ (walk s2.mem s2.num_header.toNat 4096).map
          (fun h => (h, is_used (load64 s2.mem h), true_size (load64 s2.mem h)))
        = [(4096, true, 24), (4128, false, 88)]
      ∧ (walk (Explicit.myfree s2 (4096 + HEADER_SIZE)).mem
            (Explicit.myfree s2 (4096 + HEADER_SIZE)).num_header.toNat 4096).map
          (fun h => (h, is_used (load64 (Explicit.myfree s2 (4096 + HEADER_SIZE)).mem h),
            true_size (load64 (Explicit.myfree s2 (4096 + HEADER_SIZE)).mem h)))
        = [(4096, false, 120)] := by
  refine ⟨by decide, ?_⟩
  obtain ⟨-, s2, h1, h2, -, h4, -⟩ := explicit_alloc_free_round_trip scenarioMax 0
    (Explicit.fresh (fun _ => 0)) 4096 128 24 (by decide) (by decide) (by decide) (by decide)
    (by decide) (by decide)
  exact ⟨s2, h1, h2, h4⟩

/-- C17 (counterexample): in the state after `init(128); allocate(120)` the free list is
null-terminated with the single member `4224`, the loops of `validate_heap` visit the two
headers `4096` and `4224`, one of which has in-use flag 0, and the spans
`HEADER_SIZE + true_size` of the two add up to `2 ^ 64 + 128`, not to the capacity `128`;
`validate_heap` returns true. -/
theorem explicit_validate_accepts_wrapped_sum :
    Explicit.list_members Explicit.exact_fit_state.mem 4 Explicit.exact_fit_state.start
      = some [4224]
    ∧ Explicit.visited Explicit.exact_fit_state.mem Explicit.exact_fit_state.num_header.toNat
        Explicit.exact_fit_state.segment_start = [4096, 4224]
    ∧ (Explicit.visited Explicit.exact_fit_state.mem
          Explicit.exact_fit_state.num_header.toNat
          Explicit.exact_fit_state.segment_start).filter
        (fun h => !is_used (load64 Explicit.exact_fit_state.mem h)) = [4224]
    ∧ ((Explicit.visited Explicit.exact_fit_state.mem
          Explicit.exact_fit_state.num_header.toNat
          Explicit.exact_fit_state.segment_start).map
        (fun h => HEADER_SIZE + true_size (load64 Explicit.exact_fit_state.mem h))).sum
      = WORD + 128
    ∧ Explicit.exact_fit_state.segment_size = 128
    ∧ Explicit.validate_heap 4 Explicit.exact_fit_state = some true := by
  refine ⟨by decide, by decide, by decide, by decide, by decide, by decide⟩

/-- C17 (amended): for every state of the explicit allocator whose free list is
null-terminated, with members `L`, `validate_heap` returns true exactly when the length of
`L` equals the number of headers with in-use flag 0 among the `num_header` headers its loops
visit from `segment_start`, and the sum of `HEADER_SIZE + true_size` over those headers,
taken modulo `2 ^ 64`, equals `segment_size`.  When moreover the region is non-null, ends at
or below `2 ^ 64` and every block of the data-model walk ends inside it, the visited headers
are those of the walk and the sum is compared exactly. -/
theorem explicit_validate_checks_counts_and_wrapped_sum (fuel : Nat) (s : Explicit.Heap)
    (L : List Nat) (hL : Explicit.list_members s.mem fuel s.start = some L) :
    Explicit.validate_heap fuel s
      = some (decide ((L.length : Int)
            = (((Explicit.visited s.mem s.num_header.toNat s.segment_start).filter
                (fun h => !is_used (load64 s.mem h))).length : Int)
          ∧ ((Explicit.visited s.mem s.num_header.toNat s.segment_start).map
                (fun h => HEADER_SIZE + true_size (load64 s.mem h))).sum % WORD
              = s.segment_size))
    ∧ (0 < s.segment_start → s.segment_start + s.segment_size ≤ WORD →
        (∀ x ∈ walk s.mem s.num_header.toNat s.segment_start,
          x + HEADER_SIZE + true_size (load64 s.mem x) ≤ s.segment_start + s.segment_size) →
        Explicit.validate_heap fuel s
          = some (decide ((L.length : Int)
                = ((free_blocks s.mem s.segment_start s.num_header.toNat).length : Int)
              ∧ ((walk s.mem s.num_header.toNat s.segment_start).map
                    (fun h => HEADER_SIZE + true_size (load64 s.mem h))).sum
                  = s.segment_size))) := by
  have hW : 0 < WORD := by unfold WORD; omega
  have h1 : Explicit.validate_heap fuel s
      = some (decide ((L.length : Int)
            = (((Explicit.visited s.mem s.num_header.toNat s.segment_start).filter
                (fun h => !is_used (load64 s.mem h))).length : Int)
          ∧ ((Explicit.visited s.mem s.num_header.toNat s.segment_start).map
                (fun h => HEADER_SIZE + true_size (load64 s.mem h))).sum % WORD
              = s.segment_size)) := by
    unfold Explicit.validate_heap
    simp only []
    rw [Explicit.count_nodes_eq s.mem fuel s.start 0 L hL, Explicit.count_free_eq,
      Explicit.sum_bytes_eq _ _ _ _ hW]
    simp only [zero_add]
    exact two_checks _ _
  refine ⟨h1, fun h0 hend hin => ?_⟩
  rw [h1]
  have hv := Explicit.visited_eq_walk s.mem s.num_header.toNat s.segment_start
    (fun x hx => le_trans (hin x hx) hend)
  have hs := Explicit.walk_sum_le s.mem (s.segment_start + s.segment_size)
    s.num_header.toNat s.segment_start (Nat.le_add_right _ _) hin
  rw [hv]
  have hlt : ((walk s.mem s.num_header.toNat s.segment_start).map
      (fun h => HEADER_SIZE + true_size (load64 s.mem h))).sum < WORD := by omega
  rw [Nat.mod_eq_of_lt hlt]
  rfl

/-- Witness for C17: the state `[used 16, free 16, used 16, free 48]` of S2, whose free list
`[4120, 4168]` is null-terminated; `validate_heap` returns true. -/
theorem explicit_validate_checks_counts_and_wrapped_sum_witness :
    Explicit.list_members Explicit.middle_freed.mem 4 Explicit.middle_freed.start
      = some [4120, 4168]
    ∧ Explicit.validate_heap 4 Explicit.middle_freed = some true :=
  ⟨by decide,
    (explicit_validate_checks_counts_and_wrapped_sum 4 Explicit.middle_freed [4120, 4168]
      (by decide)).1.trans (by decide)⟩

/-- C21: implicit `allocate`, first fit by address.  In a state that satisfies the tiling
invariant over a region ending below `2 ^ 64`, with block sequence `pre ++ x :: post`, for
`0 < n ≤ MAX_REQUEST_SIZE`: when every block of `pre` is in use or smaller than
`addpad n ALIGNMENT` and the block `x` is free with true size at least that, `mymalloc`
returns the payload of `x`; no header of `pre` is modified; and when `x` is not the last
block its in-use flag is set while its true size, the block count and the headers after it
are unchanged.  The padded size is `n` rounded up to a multiple of 8. -/
theorem implicit_malloc_first_fit (M : Nat) (s : Implicit.Heap) (pre post : List Nat)
    (x n : Nat)
    (hregion : s.segment_start + s.segment_size < WORD)
    (htile : Implicit.tiling s = true)
    (hn : 0 < n) (hM : n ≤ M)
    (hwalk : walk s.mem s.num_header.toNat s.segment_start = pre ++ x :: post)
    (hpre : ∀ y ∈ pre, is_used (load64 s.mem y) = true
      ∨ true_size (load64 s.mem y) < addpad n ALIGNMENT)
    (hfree : is_used (load64 s.mem x) = false)
    (hfit : addpad n ALIGNMENT ≤ true_size (load64 s.mem x)) :
    ∃ s', Implicit.mymalloc M s n = (x + HEADER_SIZE, s')
      ∧ (∀ y ∈ pre, load64 s'.mem y = load64 s.mem y)
      ∧ (post ≠ [] →
          is_used (load64 s'.mem x) = true
          ∧ true_size (load64 s'.mem x) = true_size (load64 s.mem x)
          ∧ s'.num_header = s.num_header
          ∧ ∀ y ∈ post, load64 s'.mem y = load64 s.mem y)
      ∧ (n + 7 < WORD → addpad n ALIGNMENT = (n + 7) / 8 * 8) := by
  simp only [HEADER_SIZE, ALIGNMENT] at hpre hfit ⊢
  have hin : ∀ y ∈ pre ++ x :: post,
      y + 8 + true_size (load64 s.mem y) ≤ s.segment_start + s.segment_size := by
    intro y hy
    have := tiled_inside htile y (by rw [hwalk]; exact hy)
    simpa [HEADER_SIZE] using this
  have hxin := hin x (by simp)
  have hx0 : load64 s.mem x % 2 = 0 := by
    simp only [is_used, decide_eq_false_iff_not] at hfree; omega
  have hxT : true_size (load64 s.mem x) = load64 s.mem x :=
    Explicit.true_size_of_free (by omega)
  rw [hxT] at hfit hxin ⊢
  have hlen : s.num_header.toNat = pre.length + (post.length + 1) := by
    have := walk_length s.mem s.num_header.toNat s.segment_start
    rw [hwalk, List.length_append, List.length_cons] at this
    exact this.symm
  have hnum : s.num_header = (pre.length : Int) + (post.length : Int) + 1 := by omega
  have hpw := walk_pairwise s.mem s.num_header.toNat s.segment_start
  rw [hwalk, List.pairwise_append] at hpw
  have hbefore : ∀ y ∈ pre, y + 8 ≤ x := by
    intro y hy
    have := hpw.2.2 y hy x (List.mem_cons_self _ _)
    simp only [HEADER_SIZE] at this
    omega
  have hafter : ∀ y ∈ post, x + 8 ≤ y := by
    intro y hy
    have := (List.pairwise_cons.1 hpw.2.1).1 y hy
    simp only [HEADER_SIZE] at this
    omega
  have hloop := implicit_loop_skip (addpad n 8) s x post pre _ 0 _ hwalk
    (fun y hy => le_trans (hin y hy) (le_of_lt hregion)) hpre
  rw [zero_add] at hloop
  have hrej : ¬ (n ≤ 0 ∨ n > M) := by omega
  have hwx : wrap (x + 8) = x + 8 := wrap_of_lt (by omega)
  have hl := load64_lt s.mem x
  have hev := addpad_even n
  have hpad : n + 7 < WORD → addpad n 8 = (n + 7) / 8 * 8 := fun h => addpad_eq n h
  unfold Implicit.mymalloc
  rw [if_neg hrej]
  simp only [ALIGNMENT]
  rw [hloop]
  clear hloop hpre hin htile hwalk hpw hlen
  generalize addpad n 8 = need at hfit hev hpad ⊢
  by_cases hpost : post = []
  · have hc : (pre.length : Int) = s.num_header - 1 := by
      rw [hnum, hpost]; simp
    rw [implicit_loop_take_last _ s x _ _ hfit hx0 hc]
    have e1 : load64 (store64 s.mem x need) x = need :=
      load64_store64_same _ _ _ (by omega)
    have e2 : Nat.lor need 1 = need + 1 := by rw [lor_one_eq, if_neg (by omega)]
    have e3 : load64 (store64 (store64 s.mem x need) x (need + 1)) x = need + 1 :=
      load64_store64_same _ _ _ (by unfold WORD at hl ⊢; omega)
    have e4 : x + (need + 1) + 8 = x + need + 8 + 1 := by omega
    have e5 : sub64 (wrap (x + need + 8 + 1)) 1 = x + need + 8 :=
      sub64_wrap_succ _ (by omega)
    simp only [HEADER_SIZE, hwx, e1, e2, e3, e4, e5, if_true]
    split_ifs
    · refine ⟨_, rfl, ?_, fun h => absurd hpost h, hpad⟩
      intro y hy
      have := hbefore y hy
      show load64 (store64 (store64 (store64 s.mem x need) x (need + 1)) (x + need + 8) _) y = _
      rw [load64_store64_ne _ _ _ _ (by omega), load64_store64_ne _ _ _ _ (by omega),
        load64_store64_ne _ _ _ _ (by omega)]
    · refine ⟨_, rfl, ?_, fun h => absurd hpost h, hpad⟩
      intro y hy
      have := hbefore y hy
      show load64 (store64 (store64 s.mem x need) x (need + 1)) y = _
      rw [load64_store64_ne _ _ _ _ (by omega), load64_store64_ne _ _ _ _ (by omega)]
  · have hc : (pre.length : Int) ≠ s.num_header - 1 := by
      have : 0 < post.length := List.length_pos.2 hpost
      omega
    rw [implicit_loop_take_whole _ s x _ _ hfit hx0 hc]
    have e2 : Nat.lor (load64 s.mem x) 1 = load64 s.mem x + 1 := by
      rw [lor_one_eq, if_neg (by omega)]
    simp only [HEADER_SIZE, hwx, e2, if_true]
    rw [if_neg (fun h => hc h.1)]
    have hsame : load64 (store64 s.mem x (load64 s.mem x + 1)) x = load64 s.mem x + 1 :=
      load64_store64_same _ _ _ (by unfold WORD at hl ⊢; omega)
    refine ⟨_, rfl, ?_, fun _ => ⟨?_, ?_, rfl, ?_⟩, hpad⟩
    · intro y hy
      have := hbefore y hy
      show load64 (store64 s.mem x (load64 s.mem x + 1)) y = _
      rw [load64_store64_ne _ _ _ _ (by omega)]
    · show is_used (load64 (store64 s.mem x (load64 s.mem x + 1)) x) = true
      rw [hsame]; simp [is_used]; omega
    · show true_size (load64 (store64 s.mem x (load64 s.mem x + 1)) x) = _
      rw [hsame, Explicit.true_size_of_used (by omega)]; omega
    · intro y hy
      have := hafter y hy
      show load64 (store64 s.mem x (load64 s.mem x + 1)) y = _
      rw [load64_store64_ne _ _ _ _ (by omega)]

/-- Witness for C21: in the implicit state `[used 16, free 16, used 16, free 48]`,
`allocate(16)` passes over the block at `4096` and returns the payload of the free block at
`4120`, which is not the last block. -/
theorem implicit_malloc_first_fit_witness :
    Implicit.tiling Implicit.three_with_gap = true
    ∧ walk Implicit.three_with_gap.mem Implicit.three_with_gap.num_header.toNat
        Implicit.three_with_gap.segment_start = [4096] ++ 4120 :: [4144, 4168]
    ∧ ∃ s', Implicit.mymalloc scenarioMax Implicit.three_with_gap 16 = (4120 + HEADER_SIZE, s')
      ∧ is_used (load64 s'.mem 4120) = true
      ∧ s'.num_header = Implicit.three_with_gap.num_header := by
  refine ⟨by decide, by decide, ?_⟩
  obtain ⟨s', h1, -, h3, -⟩ := implicit_malloc_first_fit scenarioMax Implicit.three_with_gap
    [4096] [4144, 4168] 4120 16 (by decide) (by decide) (by decide) (by decide) (by decide)
    (by decide) (by decide) (by decide)
  obtain ⟨g1, -, g3, -⟩ := h3 (by decide)
  exact ⟨s', h1, g1, g3⟩

/-- C22: the copy of a moving `reallocate` reads past the end of the region, in both
variants.  Implicit, 128 bytes at `4096`: after `a = allocate(64); b = allocate(40); free(a)`
the state passes `validate_heap`, `b = 4176` has true size 40, and `reallocate(b, 56)`
returns `a = 4104`; the last 8 of the 56 bytes copied are the bytes at `4224 .. 4231`, the
first 8 bytes after the region: they arrive at `4152 .. 4159` as `171` when the memory
outside the region holds `171`, and as `0` when it holds `0`.  Explicit, 256 bytes at `4096`:
after `a = allocate(128); b = allocate(40); free(a)` the state is consistent, `b = 4240` has
true size 40 and its block grows to 112 on absorbing the free tail, and `reallocate(b, 120)`
returns `4104` with the bytes of `4352 .. 4359`, outside the region, copied to
`4216 .. 4223`. -/
theorem realloc_copy_reads_past_region :
    ((fun r : Nat × Nat × Implicit.Heap × Nat × Implicit.Heap =>
        (r.1, r.2.1, r.2.2.2.1, Implicit.validate_heap r.2.2.1,
          r.2.2.1.segment_start + r.2.2.1.segment_size))
        (Implicit.run_copy (fun x => if 4224 ≤ x then 171 else 0))
      = (4104, 4176, 4104, true, 4224))
    ∧ ((fun r : Nat × Nat × Implicit.Heap × Nat × Implicit.Heap =>
        (is_used (load64 r.2.2.1.mem 4168), true_size (load64 r.2.2.1.mem 4168),
          read_bytes r.2.2.2.2.mem (4104 + 48) 8))
        (Implicit.run_copy (fun x => if 4224 ≤ x then 171 else 0))
      = (true, 40, List.replicate 8 171))
    ∧ (read_bytes (Implicit.run_copy (fun _ => 0)).2.2.2.2.mem (4104 + 48) 8
      = List.replicate 8 0)
    ∧ ((Explicit.run_copy (fun x => if 4352 ≤ x then 171 else 0)).map
        (fun r => (r.1, r.2.1, r.2.2.2.1, decide (Explicit.consistent r.2.2.1 [4096, 4280]),
          r.2.2.1.segment_start + r.2.2.1.segment_size))
      = some (4104, 4240, 4104, true, 4352))
    ∧ ((Explicit.run_copy (fun x => if 4352 ≤ x then 171 else 0)).map
        (fun r => (is_used (load64 r.2.2.1.mem 4232), true_size (load64 r.2.2.1.mem 4232),
          read_bytes r.2.2.2.2.mem (4104 + 112) 8))
      = some (true, 40, List.replicate 8 171))
    ∧ ((Explicit.run_copy (fun _ => 0)).map
        (fun r => read_bytes r.2.2.2.2.mem (4104 + 112) 8)
      = some (List.replicate 8 0)) := by
  refine ⟨by decide, by decide, by decide, by decide, by decide, by decide⟩

/-- C23: `remove_node` on a member `x` of a well-formed free list.  When the links in memory
spell out the header addresses `L` from the head (`prev` of the first node null, `nxt` of the
last node null, mutual back-links), the nodes of `L` being distinct 16-byte objects (non-null,
below `2 ^ 64`, pairwise disjoint), `remove_node` of the node of `x` leaves the links spelling
out `L` with `x` erased, the other members in their order, again with usable nodes; the head
becomes null when `x` was the only member, the node of the successor of `x` when `x` was the
head, and is unchanged otherwise. -/
theorem explicit_remove_node_erases_member (s : Explicit.Heap) (L : List Nat) (x : Nat)
    (hap : Explicit.nodes_apart L) (hst : s.start = Explicit.head_of L)
    (hc : Explicit.chain s.mem 0 L) (hx : x ∈ L) :
    Explicit.chain (Explicit.remove_node s (x + HEADER_SIZE)).mem 0 (L.erase x)
    ∧ (Explicit.remove_node s (x + HEADER_SIZE)).start = Explicit.head_of (L.erase x)
    ∧ Explicit.nodes_apart (L.erase x)
    ∧ (L = [x] → (Explicit.remove_node s (x + HEADER_SIZE)).start = 0)
    ∧ (∀ y r, L = x :: y :: r →
        (Explicit.remove_node s (x + HEADER_SIZE)).start = y + HEADER_SIZE)
    ∧ (L.head? ≠ some x → (Explicit.remove_node s (x + HEADER_SIZE)).start = s.start) := by
  simp only [HEADER_SIZE]
  obtain ⟨h1, h2⟩ := Explicit.remove_node_chain s L x hap hst hc hx
  refine ⟨h1, h2, ?_, ?_, ?_, ?_⟩
  · exact ⟨fun z hz => hap.1 z (List.mem_of_mem_erase hz),
      hap.2.sublist (List.erase_sublist x L)⟩
  · intro hL
    rw [h2, hL, List.erase_cons_head]
    rfl
  · intro y r hL
    rw [h2, hL, List.erase_cons_head]
    rfl
  · intro hne
    rw [h2, hst]
    cases L with
    | nil => simp at hx
    | cons a r =>
      have hax : a ≠ x := fun h => hne (by rw [h]; rfl)
      rw [List.erase_cons_tail (by simpa using hax)]
      rfl

/-- Witness for C23: removing the head `4120` of the free list `[4120, 4168]` of the state
`[used 16, free 16, used 16, free 48]`: the list becomes `[4168]` and the head the node of
`4168`. -/
theorem explicit_remove_node_erases_member_witness :
    Explicit.chain Explicit.middle_freed.mem 0 [4120, 4168]
    ∧ Explicit.chain (Explicit.remove_node Explicit.middle_freed (4120 + HEADER_SIZE)).mem 0
        [4168]
    ∧ (Explicit.remove_node Explicit.middle_freed (4120 + HEADER_SIZE)).start
        = 4168 + HEADER_SIZE :=
  have h := explicit_remove_node_erases_member Explicit.middle_freed [4120, 4168] 4120
    (by decide) (by decide) (by decide) (by decide)
  ⟨by decide, h.1, h.2.2.2.2.1 4168 [] rfl⟩

end MyHeap
